import Mathlib

/-!
# The multi-core job scheduler of `project2/libscheduler/libscheduler.c`

A shallow embedding of the scheduler: the file-scope variables of the C module
become the fields of one record `sched_t`, every entry point becomes a function
from the old record to the returned `int` and the new record, and a read the C
code performs through a `NULL` or out-of-range pointer, or of a local variable
it never assigned, makes the function return `none`.

Conventions:

* C `int`s are integers. The arithmetic on ticks and run times is exact: the
  ticks and run times of a simulation are far below `2^31`. The priorities are
  whatever `int`s the caller passes, and the subtractions of `PRIcompare` wrap
  modulo `2^32` (`wrapInt32`).
* `libpriqueue` and `libscheduler.h` are not part of the sources at hand. The
  queue operations are modelled from the specification (an ordered insertion,
  removal at the head), and the running sums, which only ever receive integer
  tick differences, are integers.
* `scheduler_new_job` writes the field `lastCheckedTime` of the record it
  allocates on one path only; the content `malloc` leaves there is an extra
  argument `uninit` of the function.
* The three average functions return a C `float`: the IEEE-754 binary32 number
  nearest to the exact quotient, given as a rational (`binary32Quotient`).
-/

set_option autoImplicit false

/-! ## Data model -/

/-- The six scheduling schemes of `scheme_t`. -/
inductive scheme_t where
  | FCFS | SJF | PSJF | PRI | PPRI | RR
deriving DecidableEq, Repr

/-- The job record `job_t`, with the fields `libscheduler.c` reads and writes. -/
structure job_t where
  pid : Int
  arrivalTime : Int
  priority : Int
  originalProcessTime : Int
  processTime : Int
  responseTime : Int
  lastCheckedTime : Int
deriving DecidableEq, Repr

/-- The comparison functions a queue can be initialised with; the C code passes
one of three function pointers to `priqueue_init`. -/
inductive comparer_t where
  | FCFScompare | SJFcompare | PRIcompare
deriving DecidableEq, Repr

/-- `FCFScompare`: always 1. -/
def FCFScompare (_a _b : job_t) : Int := 1

/-- `SJFcompare`: difference of the `processTime` fields. -/
def SJFcompare (a b : job_t) : Int := a.processTime - b.processTime

/-- The `int` a C subtraction leaves when its exact result is `x`: the value
congruent to `x` modulo 2^32 in the range -2^31 .. 2^31 - 1. The operands are
C `int`s, so `x` lies strictly between -2^32 and 2^32; outside the `int` range
C leaves the result undefined and the two's-complement machine wraps it. -/
def wrapInt32 (x : Int) : Int := (x + 2147483648) % 4294967296 - 2147483648

/-- `PRIcompare`: the `int` difference of the priorities, and the `int`
difference of the arrival times when that difference is zero. Both
subtractions are C `int` subtractions and wrap. -/
def PRIcompare (a b : job_t) : Int :=
  let compare := wrapInt32 (a.priority - b.priority)
  if compare = 0 then wrapInt32 (a.arrivalTime - b.arrivalTime) else compare

/-- Calling the function a `comparer_t` stands for. -/
def applyComparer : comparer_t → job_t → job_t → Int
  | .FCFScompare => FCFScompare
  | .SJFcompare => SJFcompare
  | .PRIcompare => PRIcompare

/-- The queue `priqueue_t`: the comparison function installed at
initialisation and the queued jobs from head to tail. -/
structure priqueue_t where
  comparer : comparer_t
  items : List job_t
deriving DecidableEq, Repr

/-- Modelled from the spec: `priqueue_init` of `libpriqueue`, whose source is
absent. The queue starts empty with the given comparator. -/
def priqueue_init (c : comparer_t) : priqueue_t := { comparer := c, items := [] }

/-- Ordered insertion: `x` goes in front of the first element it compares
strictly before, and to the tail when there is none. -/
def insertOrdered (cmp : job_t → job_t → Int) (x : job_t) : List job_t → List job_t
  | [] => [x]
  | y :: ys => if cmp x y < 0 then x :: y :: ys else y :: insertOrdered cmp x ys

/-- Modelled from the spec: `priqueue_offer` of `libpriqueue`, whose source is
absent. The spec describes an ordered queue "parameterized by a comparator",
stable under ties, where a comparator that returns "a after b" unconditionally
makes insertion append to the tail. -/
def priqueue_offer (q : priqueue_t) (x : job_t) : priqueue_t :=
  { q with items := insertOrdered (applyComparer q.comparer) x q.items }

/-- Modelled from the spec: `priqueue_poll` of `libpriqueue`, whose source is
absent. It removes and returns the head, and returns `NULL` (`none`) on an
empty queue. -/
def priqueue_poll (q : priqueue_t) : Option job_t × priqueue_t :=
  match q.items with
  | [] => (none, q)
  | h :: t => (some h, { q with items := t })

/-- Modelled from the spec: `priqueue_size` of `libpriqueue`, whose source is
absent. The number of queued jobs. -/
def priqueue_size (q : priqueue_t) : Nat := q.items.length

/-- The file-scope state of the scheduler. `m_coreArr` is the core table, one
slot per core, `none` for `NULL`; the C variable `m_cores` is the length of that
table (see `sched_t.m_cores`). The three sums are declared in the absent header
and only ever receive integer tick differences, so they are integers here. -/
structure sched_t where
  m_coreArr : List (Option job_t)
  m_waitingTime : Int
  m_responseTime : Int
  m_turnaroundTime : Int
  m_numJobs : Int
  m_type : scheme_t
  q : priqueue_t
deriving DecidableEq, Repr

/-- The C variable `m_cores`: the number of slots `scheduler_start_up` allocated
for `m_coreArr`. It is set together with the table and never changes, so it is
read off the table. -/
def sched_t.m_cores (s : sched_t) : Nat := s.m_coreArr.length

/-! ## Operations -/

/-- `scheduler_start_up`: every slot `NULL`, the counters zero, and the queue
initialised with the comparator of the scheme. -/
def scheduler_start_up (cores : Nat) (scheme : scheme_t) : sched_t :=
  { m_coreArr := List.replicate cores none
    m_waitingTime := 0
    m_responseTime := 0
    m_turnaroundTime := 0
    m_numJobs := 0
    m_type := scheme
    q := match scheme with
      | .FCFS | .RR => priqueue_init .FCFScompare
      | .SJF | .PSJF => priqueue_init .SJFcompare
      | .PRI | .PPRI => priqueue_init .PRIcompare }

/-- The loop of `scheduler_idle_core_finder` from index `i` on: the first index
whose slot is `NULL`, or -1. -/
def idleScan : List (Option job_t) → Nat → Int
  | [], _ => -1
  | none :: _, i => (i : Int)
  | some _ :: rest, i => idleScan rest (i + 1)

/-- `scheduler_idle_core_finder`. -/
def scheduler_idle_core_finder (s : sched_t) : Int := idleScan s.m_coreArr 0

/-- The update the PSJF loop applies to the job of each core. -/
def psjfRefresh (time : Int) (j : job_t) : job_t :=
  { j with processTime := j.processTime - (time - j.lastCheckedTime), lastCheckedTime := time }

/-- The PSJF loop of `scheduler_new_job` from index `i` on, with the current
values of `longestRunTimeFound` and `indexOfJobWithLongestRuntime` (`none`
while the latter is uninitialised). It returns the updated slots and the final
values of the two variables, or `none` when a slot it dereferences is `NULL`. -/
def psjfScan (time : Int) :
    List (Option job_t) → Nat → Int → Option Nat → Option (List (Option job_t) × Int × Option Nat)
  | [], _, longest, idx => some ([], longest, idx)
  | none :: _, _, _, _ => none
  | some j :: rest, i, longest, idx =>
    let j1 := psjfRefresh time j
    let r := if j1.processTime > longest then psjfScan time rest (i + 1) j1.processTime (some i)
             else psjfScan time rest (i + 1) longest idx
    match r with
    | none => none
    | some (arr, l, k) => some (some j1 :: arr, l, k)

/-- The PPRI loop of `scheduler_new_job` from index `i` on, with the current
values of `lowestPriSoFar` and `lowestPriCore`; `arr` is the whole core table,
read at `lowestPriCore`. `none` when a slot it dereferences is `NULL` or out of
range. -/
def ppriScan (arr : List (Option job_t)) : List (Option job_t) → Nat → Int → Nat → Option (Int × Nat)
  | [], _, lo, core => some (lo, core)
  | none :: _, _, _, _ => none
  | some j :: rest, i, lo, core =>
    if j.priority > lo then ppriScan arr rest (i + 1) j.priority i
    else if j.priority = lo then
      match arr[core]? with
      | some (some k) =>
        if j.arrivalTime > k.arrivalTime then ppriScan arr rest (i + 1) lo i
        else ppriScan arr rest (i + 1) lo core
      | _ => none
    else ppriScan arr rest (i + 1) lo core

/-- The "reset the response time" step both preemption branches apply to the
job that is about to leave its core. -/
def resetIfJustScheduled (time : Int) (v : job_t) : job_t :=
  if v.responseTime = time - v.arrivalTime then { v with responseTime := -1 } else v

/-- The "set the response time if it is still -1" step applied to a job that
has just been put on a core. -/
def setResponseIfUnset (time : Int) (j : job_t) : job_t :=
  if j.responseTime = -1 then { j with responseTime := time - j.arrivalTime } else j

/-- The record `scheduler_new_job` fills in right after `malloc`, before it
decides where the job goes. `uninit` is the content of the field the function
does not write there. -/
def newJobRecord (job_number time running_time priority uninit : Int) : job_t :=
  { pid := job_number, arrivalTime := time, priority := priority,
    originalProcessTime := running_time, processTime := running_time,
    responseTime := -1, lastCheckedTime := uninit }

/-- `scheduler_new_job`. The extra argument `uninit` is the value `malloc`
leaves in the field `lastCheckedTime` of the new record, which the function
writes only on the idle-core path under PSJF. The result is the returned `int`
and the new state; `none` when the code dereferences `NULL`, reads the core
table out of range or uses `indexOfJobWithLongestRuntime` uninitialised. -/
def scheduler_new_job (s : sched_t) (job_number time running_time priority uninit : Int) :
    Option (Int × sched_t) :=
  let firstIdleCoreFound := scheduler_idle_core_finder s
  let temp : job_t := newJobRecord job_number time running_time priority uninit
  if firstIdleCoreFound ≠ -1 then
    let temp1 := { temp with responseTime := time - temp.arrivalTime }
    let temp2 := if s.m_type = .PSJF then { temp1 with lastCheckedTime := time } else temp1
    some (firstIdleCoreFound,
      { s with m_coreArr := s.m_coreArr.set firstIdleCoreFound.toNat (some temp2) })
  else if s.m_type = .PSJF then
    match psjfScan time s.m_coreArr 0 (-1) none with
    | none => none
    | some (arr, longestRunTimeFound, indexOfJobWithLongestRuntime) =>
      if longestRunTimeFound > running_time then
        match indexOfJobWithLongestRuntime with
        | none => none
        | some w =>
          match arr[w]? with
          | some (some v) =>
            some ((w : Int),
              { s with m_coreArr := arr.set w (some (setResponseIfUnset time temp))
                       q := priqueue_offer s.q (resetIfJustScheduled time v) })
          | _ => none
      else
        some (-1, { s with m_coreArr := arr, q := priqueue_offer s.q temp })
  else if s.m_type = .PPRI then
    match s.m_coreArr[0]? with
    | some (some j0) =>
      match ppriScan s.m_coreArr s.m_coreArr 0 j0.priority 0 with
      | none => none
      | some (lowestPriSoFar, lowestPriCore) =>
        if lowestPriSoFar > temp.priority then
          match s.m_coreArr[lowestPriCore]? with
          | some (some v) =>
            some ((lowestPriCore : Int),
              { s with m_coreArr := s.m_coreArr.set lowestPriCore (some (setResponseIfUnset time temp))
                       q := priqueue_offer s.q (resetIfJustScheduled time v) })
          | _ => none
        else
          some (-1, { s with q := priqueue_offer s.q temp })
    | _ => none
  else
    some (-1, { s with q := priqueue_offer s.q temp })

/-- `scheduler_job_finished`. The argument `job_number` is not used by the C
code. `none` when slot `core_id` is `NULL` or out of range. -/
def scheduler_job_finished (s : sched_t) (core_id : Nat) (_job_number time : Int) :
    Option (Int × sched_t) :=
  match s.m_coreArr[core_id]? with
  | some (some j) =>
    let s1 : sched_t :=
      { s with m_waitingTime := s.m_waitingTime + (time - j.arrivalTime - j.originalProcessTime)
               m_turnaroundTime := s.m_turnaroundTime + (time - j.arrivalTime)
               m_responseTime := s.m_responseTime + j.responseTime
               m_numJobs := s.m_numJobs + 1
               m_coreArr := s.m_coreArr.set core_id none }
    if priqueue_size s1.q ≠ 0 then
      match priqueue_poll s1.q with
      | (some temp, q1) =>
        let temp1 := if s1.m_type = .PSJF then { temp with lastCheckedTime := time } else temp
        let temp2 := setResponseIfUnset time temp1
        some (temp2.pid, { s1 with m_coreArr := s1.m_coreArr.set core_id (some temp2), q := q1 })
      | (none, _) => none
    else
      some (-1, s1)
  | _ => none

/-- `scheduler_quantum_expired`. `none` when `core_id` is out of range or the
poll that fills the slot returns `NULL`. -/
def scheduler_quantum_expired (s : sched_t) (core_id : Nat) (time : Int) :
    Option (Int × sched_t) :=
  match s.m_coreArr[core_id]? with
  | none => none
  | some jobCurrentlyOnSpecifiedCore =>
    let go (q0 : priqueue_t) : Option (Int × sched_t) :=
      match priqueue_poll q0 with
      | (some p, q1) =>
        let p1 := setResponseIfUnset time p
        some (p1.pid, { s with m_coreArr := s.m_coreArr.set core_id (some p1), q := q1 })
      | (none, _) => none
    match jobCurrentlyOnSpecifiedCore with
    | none => if priqueue_size s.q = 0 then some (-1, s) else go s.q
    | some j => go (priqueue_offer s.q j)

/-! ## Event sequences -/

/-- The calls the simulator makes after `scheduler_start_up`. -/
inductive Event where
  | new_job (job_number time running_time priority uninit : Int)
  | job_finished (core_id : Nat) (job_number time : Int)
  | quantum_expired (core_id : Nat) (time : Int)
deriving DecidableEq, Repr

/-- The tick an event carries. -/
def Event.time : Event → Int
  | .new_job _ t _ _ _ => t
  | .job_finished _ _ t => t
  | .quantum_expired _ t => t

/-- Delivering one event to the scheduler. -/
def Event.deliver (s : sched_t) : Event → Option (Int × sched_t)
  | .new_job id t rt pri u => scheduler_new_job s id t rt pri u
  | .job_finished c id t => scheduler_job_finished s c id t
  | .quantum_expired c t => scheduler_quantum_expired s c t

/-- Delivering a sequence of events in order, keeping the returned values;
`none` as soon as one call fails. -/
def runEvents : sched_t → List Event → Option (List Int × sched_t)
  | s, [] => some ([], s)
  | s, e :: es =>
    match e.deliver s with
    | none => none
    | some (r, s1) =>
      match runEvents s1 es with
      | none => none
      | some (rs, s2) => some (r :: rs, s2)

/-- The states reachable from `scheduler_start_up cores scheme`: `Reach ok cores
scheme h s` says that the events of `h` (latest first) were delivered one after
the other, each allowed by `ok` in the state and history it met, and led to
`s`. -/
inductive Reach (ok : sched_t → List Event → Event → Prop) (cores : Nat) (scheme : scheme_t) :
    List Event → sched_t → Prop where
  | start : Reach ok cores scheme [] (scheduler_start_up cores scheme)
  | step {h : List Event} {s s1 : sched_t} {e : Event} {r : Int} :
      Reach ok cores scheme h s → ok s h e → e.deliver s = some (r, s1) →
      Reach ok cores scheme (e :: h) s1

/-! ## Notions used in the statements and proofs -/

/-- The record the idle-core branch of `scheduler_new_job` leaves in the slot:
the response time is `time - arrivalTime`, and under PSJF `lastCheckedTime` is
written too. -/
def idleCoreJob (scheme : scheme_t) (id t run_time priority uninit : Int) : job_t :=
  if scheme = scheme_t.PSJF then
    { newJobRecord id t run_time priority uninit with
      responseTime := t - t, lastCheckedTime := t }
  else { newJobRecord id t run_time priority uninit with responseTime := t - t }

/-- The core table after the PSJF loop: every job refreshed to the tick. -/
def psjfRefreshAll (time : Int) (arr : List (Option job_t)) : List (Option job_t) :=
  arr.map (Option.map (psjfRefresh time))

/-- What the PPRI loop maintains about `lowestPriSoFar` and `lowestPriCore`
with respect to the slots `seen` so far: the core holds a job of that priority,
no seen job has a larger priority, and no seen job of that priority arrived
later. -/
def ppriInv (arr seen : List (Option job_t)) (lo : Int) (core : Nat) : Prop :=
  ∃ v : job_t, arr[core]? = some (some v) ∧ v.priority = lo ∧
    ∀ j, some j ∈ seen → j.priority ≤ lo ∧ (j.priority = lo → j.arrivalTime ≤ v.arrivalTime)

/-- The job `scheduler_job_finished` and `scheduler_quantum_expired` install
after a poll: `lastCheckedTime` is written under PSJF only (and only by
`scheduler_job_finished`), then the response time is set if it is still -1. -/
def dispatched (psjf : Bool) (time : Int) (h : job_t) : job_t :=
  setResponseIfUnset time (if psjf then { h with lastCheckedTime := time } else h)

/-- The state `scheduler_job_finished` reaches before it looks at the queue:
the four counters updated with the job `j` of the freed core, the slot
`NULL`. -/
def afterCompletion (s : sched_t) (core_id : Nat) (time : Int) (j : job_t) : sched_t :=
  { s with m_waitingTime := s.m_waitingTime + (time - j.arrivalTime - j.originalProcessTime)
           m_turnaroundTime := s.m_turnaroundTime + (time - j.arrivalTime)
           m_responseTime := s.m_responseTime + j.responseTime
           m_numJobs := s.m_numJobs + 1
           m_coreArr := s.m_coreArr.set core_id none }

/-- The four counters of a state. -/
def counters (s : sched_t) : Int × Int × Int × Int :=
  (s.m_waitingTime, s.m_turnaroundTime, s.m_responseTime, s.m_numJobs)

/-- The core table `scheduler_new_job` leaves behind when no core is idle: under
PSJF every job has been refreshed to the tick, otherwise the table is as it
was. -/
def busyTable (s : sched_t) (time : Int) : List (Option job_t) :=
  if s.m_type = scheme_t.PSJF then psjfRefreshAll time s.m_coreArr else s.m_coreArr

/-- The ids of the jobs held by the scheduler: those in the core slots, in
slot order, followed by those in the ready queue, from head to tail. -/
def heldPids (s : sched_t) : List Int :=
  (s.m_coreArr.reduceOption ++ s.q.items).map job_t.pid

/-- How many times the id `x` occurs in the core slots and the ready queue
together. -/
def occurrences (s : sched_t) (x : Int) : Nat := (heldPids s).count x

/-- How many times the id `x` occurs in the core slots. -/
def slotCount (arr : List (Option job_t)) (x : Int) : Nat :=
  (arr.reduceOption.map job_t.pid).count x

/-- How many times the id `x` occurs in a list of queued jobs. -/
def queueCount (l : List job_t) (x : Int) : Nat := (l.map job_t.pid).count x

/-- One if the slot content `o` is a job with id `x`, zero otherwise. -/
def slotHas (o : Option job_t) (x : Int) : Nat :=
  match o with
  | none => 0
  | some j => if j.pid = x then 1 else 0

/-- The ids announced by the `scheduler_new_job` calls of a history. -/
def announced : List Event → List Int
  | [] => []
  | Event.new_job id _ _ _ _ :: h => id :: announced h
  | _ :: h => announced h

/-- The ids reported finished by the `scheduler_job_finished` calls of a
history. -/
def finished : List Event → List Int
  | [] => []
  | Event.job_finished _ id _ :: h => id :: finished h
  | _ :: h => finished h

/-- The calls the simulator contract allows in state `s` after history `h`: a
new job carries an id not announced before, and `scheduler_job_finished(c, id,
t)` names the job that is installed on core `c`. Quantum expiry is not
restricted here (the contract allows it under RR only), which makes the result
below apply to more sequences. -/
def specAllows (s : sched_t) (h : List Event) : Event → Prop
  | Event.new_job id _ _ _ _ => id ∉ announced h
  | Event.job_finished c id _ => ∃ j : job_t, s.m_coreArr[c]? = some (some j) ∧ j.pid = id
  | Event.quantum_expired _ _ => True

/-- The response time of `j` is set and lies between 0 and `now - arrival`. -/
def respSet (now : Int) (j : job_t) : Prop :=
  0 ≤ j.responseTime ∧ j.responseTime ≤ now - j.arrivalTime

/-- The response time of `j` is either still unset, with `j` arrived by `now`,
or set within its bounds. -/
def respQueued (now : Int) (j : job_t) : Prop :=
  (j.responseTime = -1 ∧ j.arrivalTime ≤ now) ∨ respSet now j

/-- The response-time invariant at tick `now`: every job on a core has its
response time set within bounds, every queued job has it unset or set within
bounds. -/
def respInv (s : sched_t) (now : Int) : Prop :=
  (∀ j, some j ∈ s.m_coreArr → respSet now j) ∧ (∀ j ∈ s.q.items, respQueued now j)

/-- Events arrive with non-decreasing ticks: no earlier event carries a later
tick. -/
def inTickOrder (_s : sched_t) (h : List Event) (e : Event) : Prop :=
  ∀ e1 ∈ h, e1.time ≤ e.time

/-- Every job in a core slot or in the queue of `s` satisfies `P`. -/
def allHeld (P : job_t → Prop) (s : sched_t) : Prop :=
  (∀ j, some j ∈ s.m_coreArr → P j) ∧ (∀ j ∈ s.q.items, P j)

/-- Two records describe the same announced job: they agree on the fields that
no operation writes after creation. -/
def sameJob (a b : job_t) : Prop :=
  a.pid = b.pid ∧ a.arrivalTime = b.arrivalTime ∧
  a.originalProcessTime = b.originalProcessTime ∧ a.priority = b.priority

/-- The jobs held by the scheduler: those in the core slots, in slot order,
followed by those in the ready queue. -/
def heldJobs (s : sched_t) : List job_t := s.m_coreArr.reduceOption ++ s.q.items

/-- The event `e`, answered with `r` in state `s`, is a preempting
`scheduler_new_job` under PSJF or PPRI whose victim is `j`, and `j`'s response
time is `t - arrival_time` for the tick `t` of the call. -/
def preemptedAtFirstTick (s : sched_t) (e : Event) (r : Int) (j : job_t) : Prop :=
  ∃ (id t rt pri u : Int) (w : Nat), e = Event.new_job id t rt pri u ∧
    (s.m_type = scheme_t.PSJF ∨ s.m_type = scheme_t.PPRI) ∧
    (∀ x ∈ s.m_coreArr, x ≠ none) ∧ r = (w : Int) ∧
    s.m_coreArr[w]? = some (some j) ∧ j.responseTime = t - j.arrivalTime

/-- The record `j1` is the one a `scheduler_new_job` call `e` has just
created. -/
def createdBy (e : Event) (j1 : job_t) : Prop :=
  ∃ id t rt pri u : Int, e = Event.new_job id t rt pri u ∧
    sameJob (newJobRecord id t rt pri u) j1 ∧ j1.processTime = rt

/-- No restriction on the events delivered. -/
def anyEvent (_s : sched_t) (_h : List Event) (_e : Event) : Prop := True

/-- The comparator `scheduler_start_up` installs for a scheme. -/
def comparerOf : scheme_t → comparer_t
  | scheme_t.FCFS | scheme_t.RR => comparer_t.FCFScompare
  | scheme_t.SJF | scheme_t.PSJF => comparer_t.SJFcompare
  | scheme_t.PRI | scheme_t.PPRI => comparer_t.PRIcompare

/-- The list is in queue order for `cmp`: no element compares strictly before
an element in front of it. -/
def queueSorted (cmp : job_t → job_t → Int) (l : List job_t) : Prop :=
  l.Pairwise (fun a b => ¬ cmp b a < 0)

/-- The value is an `int` of at most 31 bits: the difference of two such
values is an `int`, so their C subtraction does not wrap. -/
def halfRange (x : Int) : Prop := -1073741824 ≤ x ∧ x ≤ 1073741823

/-- The priority and the arrival tick of the record are in half range. -/
def priComparable (j : job_t) : Prop := halfRange j.priority ∧ halfRange j.arrivalTime

/-- The comparator `c` cannot wrap on the record: a condition on the record
for `PRIcompare` only. -/
def comparableFor (c : comparer_t) (j : job_t) : Prop :=
  c = comparer_t.PRIcompare → priComparable j

/-- The priority and the tick of a `scheduler_new_job` call are in half
range. -/
def halfRangeEvent : Event → Prop
  | Event.new_job id t rt pri u => priComparable (newJobRecord id t rt pri u)
  | _ => True

/-- No core is idle while a job is pending: if some slot is empty, the ready
queue is empty. -/
def idleImpliesEmpty (s : sched_t) : Prop := none ∈ s.m_coreArr → s.q.items = []

/-- The job of a busy core as `scheduler_new_job` leaves it: refreshed to the
tick under PSJF, untouched otherwise. -/
def busyVersion (s : sched_t) (t : Int) (j : job_t) : job_t :=
  if s.m_type = scheme_t.PSJF then psjfRefresh t j else j

/-- The record `j1` is one the call `e` has just created: the record of the
idle-core branch, the record as queued, or the record as installed by a
preemption. -/
def created (s : sched_t) (e : Event) (j1 : job_t) : Prop :=
  ∃ id t rt pri u : Int, e = Event.new_job id t rt pri u ∧
    (j1 = idleCoreJob s.m_type id t rt pri u ∨ j1 = newJobRecord id t rt pri u ∨
     j1 = { newJobRecord id t rt pri u with responseTime := 0 })

/-- The record `j1` held after the call `e` is what the call made of the record
`j0` held before: left as it was; or, in a `scheduler_new_job` that found every
core busy, the busy version of a running job, possibly with the response time
reset on its way to the queue; or the dispatched version of a queued job. -/
def descends (s : sched_t) (e : Event) (j0 j1 : job_t) : Prop :=
  j1 = j0 ∨
  (∃ id t rt pri u : Int, e = Event.new_job id t rt pri u ∧
    (∀ x ∈ s.m_coreArr, x ≠ none) ∧ some j0 ∈ s.m_coreArr ∧
    (j1 = busyVersion s t j0 ∨ j1 = resetIfJustScheduled t (busyVersion s t j0))) ∨
  (∃ (c : Nat) (id t : Int), e = Event.job_finished c id t ∧ j0 ∈ s.q.items ∧
    j1 = dispatched (decide (s.m_type = scheme_t.PSJF)) t j0) ∨
  (∃ (c : Nat) (t : Int), e = Event.quantum_expired c t ∧ j1 = dispatched false t j0)

/-- Ticks are strictly increasing: every earlier event carries a smaller
tick. -/
def strictlyLater (_s : sched_t) (h : List Event) (e : Event) : Prop :=
  ∀ e1 ∈ h, e1.time < e.time

/-- Ticks are strictly increasing and the event is not a quantum expiry. -/
def strictlyLaterNoQuantum (_s : sched_t) (h : List Event) (e : Event) : Prop :=
  (∀ e1 ∈ h, e1.time < e.time) ∧ ∀ (c : Nat) (t : Int), e ≠ Event.quantum_expired c t

/-- The arrival times of the queued jobs, from head to tail. -/
def queueArrivals (s : sched_t) : List Int := s.q.items.map job_t.arrivalTime

/-- The queued jobs have ascending arrival times from head to tail. -/
def arrivalsAscending (s : sched_t) : Prop := (queueArrivals s).Pairwise (fun a b => a ≤ b)

/-- The state of one RR core after jobs 1, 2 and 3 arrived at ticks 0, 1 and 2
and the quantum expired at tick 3: job 2 runs, job 3 and then job 1 wait. -/
def rrRotatedState : sched_t :=
  { scheduler_start_up 1 scheme_t.RR with
    m_coreArr := [some (dispatched false 3 (newJobRecord 2 1 5 0 0))]
    q := { comparer := comparer_t.FCFScompare
           items := [newJobRecord 3 2 5 0 0, idleCoreJob scheme_t.RR 1 0 5 0 0] } }

/-- The event is not a quantum expiry. -/
def noQuantum (_s : sched_t) (_h : List Event) (e : Event) : Prop :=
  ∀ (c : Nat) (t : Int), e ≠ Event.quantum_expired c t

/-- No queued job has a numerically smaller priority than a running job. -/
def queueBehindCores (s : sched_t) : Prop :=
  ∀ q ∈ s.q.items, ∀ j, some j ∈ s.m_coreArr → j.priority ≤ q.priority

/-- Ticks do not decrease, the event is not a quantum expiry, and the record a
`scheduler_new_job` call allocates holds in `lastCheckedTime` a value that is
not later than the tick of the call (as it would if the field were written at
creation). -/
def initialisedInOrder (_s : sched_t) (h : List Event) (e : Event) : Prop :=
  (∀ e1 ∈ h, e1.time ≤ e.time) ∧ (∀ (c : Nat) (t : Int), e ≠ Event.quantum_expired c t) ∧
  ∀ id t rt pri u : Int, e = Event.new_job id t rt pri u → u ≤ t

/-- No queued job has a smaller remaining time than a running job. -/
def remainingBehindCores (s : sched_t) : Prop :=
  ∀ q ∈ s.q.items, ∀ j, some j ∈ s.m_coreArr → j.processTime ≤ q.processTime

/-- No running job was last checked after `now`. -/
def checkedBy (s : sched_t) (now : Int) : Prop :=
  ∀ j, some j ∈ s.m_coreArr → j.lastCheckedTime ≤ now

/-! ## The idle-core scan -/

theorem idleScan_of_full (arr : List (Option job_t)) (i : Nat)
    (h : ∀ x ∈ arr, x ≠ none) : idleScan arr i = -1 := by
  induction arr generalizing i with
  | nil => rfl
  | cons a rest ih =>
    cases a with
    | none => exact absurd rfl (h none (List.mem_cons_self _ _))
    | some j => exact ih (i + 1) (fun x hx => h x (List.mem_cons_of_mem _ hx))

theorem idleScan_of_idle (arr : List (Option job_t)) (i : Nat) (h : none ∈ arr) :
    ∃ c : Nat, idleScan arr i = ((i + c : Nat) : Int) ∧ arr[c]? = some none ∧
      ∀ k, k < c → arr[k]? ≠ some none := by
  induction arr generalizing i with
  | nil => simp at h
  | cons a rest ih =>
    cases a with
    | none => exact ⟨0, by simp [idleScan], by simp, fun k hk => absurd hk (Nat.not_lt_zero k)⟩
    | some j =>
      have h1 : none ∈ rest := by simpa using h
      obtain ⟨c, hc, hget, hmin⟩ := ih (i + 1) h1
      refine ⟨c + 1, ?_, by simpa using hget, ?_⟩
      · rw [idleScan, hc]; congr 1; omega
      · intro k hk
        cases k with
        | zero => simp
        | succ k => simpa using hmin k (by omega)

theorem idleScan_eq_neg_one (arr : List (Option job_t)) (i : Nat)
    (h : idleScan arr i = -1) : ∀ x ∈ arr, x ≠ none := by
  intro x hx hnone
  subst hnone
  obtain ⟨c, hc, _, _⟩ := idleScan_of_idle arr i hx
  rw [hc] at h
  omega

/-! ## Arrival on an idle core -/

/-- What `scheduler_new_job` computes once the idle-core scan has returned the
index `c`. -/
theorem new_job_on_idle (s : sched_t) (id t run_time priority uninit : Int) (c : Nat)
    (hfind : scheduler_idle_core_finder s = (c : Int)) :
    scheduler_new_job s id t run_time priority uninit =
      some ((c : Int), { s with
        m_coreArr := s.m_coreArr.set c (some (idleCoreJob s.m_type id t run_time priority uninit)) }) := by
  have hne : ((c : Nat) : Int) ≠ -1 := by omega
  by_cases hP : s.m_type = scheme_t.PSJF
  · simp [scheduler_new_job, hfind, hne, hP, idleCoreJob, newJobRecord]
  · simp [scheduler_new_job, hfind, hne, hP, idleCoreJob, newJobRecord]

/-- C1: when some core slot is empty, `scheduler_new_job` returns the smallest
index `c` whose slot is empty; afterwards slot `c` holds a job with the given id,
priority, arrival time `t`, original and remaining run time `run_time` and
response time 0, and every other slot and the ready queue are as before. This
holds for every scheme and every state, reachable or not. -/
theorem new_job_takes_first_idle_core (s : sched_t) (id t run_time priority uninit : Int)
    (hidle : none ∈ s.m_coreArr) :
    ∃ (c : Nat) (s1 : sched_t) (j : job_t),
      scheduler_new_job s id t run_time priority uninit = some ((c : Int), s1) ∧
      s.m_coreArr[c]? = some none ∧
      (∀ k, k < c → s.m_coreArr[k]? ≠ some none) ∧
      s1.m_coreArr[c]? = some (some j) ∧
      j.pid = id ∧ j.priority = priority ∧ j.arrivalTime = t ∧
      j.originalProcessTime = run_time ∧ j.processTime = run_time ∧ j.responseTime = 0 ∧
      (∀ k, k ≠ c → s1.m_coreArr[k]? = s.m_coreArr[k]?) ∧
      s1.q = s.q := by
  obtain ⟨c, hc, hget, hmin⟩ := idleScan_of_idle s.m_coreArr 0 hidle
  have hlt : c < s.m_coreArr.length := by
    rcases List.getElem?_eq_some_iff.mp hget with ⟨hlt, _⟩
    exact hlt
  have hfind : scheduler_idle_core_finder s = (c : Int) := by
    rw [scheduler_idle_core_finder, hc]; simp
  have hrun := new_job_on_idle s id t run_time priority uninit c hfind
  refine ⟨c, _, idleCoreJob s.m_type id t run_time priority uninit, hrun, hget, hmin, ?_, ?_⟩
  · simp [hlt]
  · refine ⟨?_, ?_, ?_, ?_, ?_, ?_, ?_, rfl⟩
    · unfold idleCoreJob; split <;> rfl
    · unfold idleCoreJob; split <;> rfl
    · unfold idleCoreJob; split <;> rfl
    · unfold idleCoreJob; split <;> rfl
    · unfold idleCoreJob; split <;> rfl
    · unfold idleCoreJob; split <;> simp [newJobRecord]
    · intro k hk
      simp [List.getElem?_set_ne (Ne.symm hk)]

/-- C1 at a concrete state: the three idle cores `scheduler_start_up` leaves
under FCFS. -/
theorem new_job_takes_first_idle_core_witness :
    none ∈ (scheduler_start_up 3 scheme_t.FCFS).m_coreArr ∧
    ∃ (c : Nat) (s1 : sched_t) (j : job_t),
      scheduler_new_job (scheduler_start_up 3 scheme_t.FCFS) 1 0 5 0 0 = some ((c : Int), s1) ∧
      (scheduler_start_up 3 scheme_t.FCFS).m_coreArr[c]? = some none ∧
      (∀ k, k < c → (scheduler_start_up 3 scheme_t.FCFS).m_coreArr[k]? ≠ some none) ∧
      s1.m_coreArr[c]? = some (some j) ∧
      j.pid = 1 ∧ j.priority = 0 ∧ j.arrivalTime = 0 ∧
      j.originalProcessTime = 5 ∧ j.processTime = 5 ∧ j.responseTime = 0 ∧
      (∀ k, k ≠ c → s1.m_coreArr[k]? = (scheduler_start_up 3 scheme_t.FCFS).m_coreArr[k]?) ∧
      s1.q = (scheduler_start_up 3 scheme_t.FCFS).q :=
  ⟨by decide, new_job_takes_first_idle_core (scheduler_start_up 3 scheme_t.FCFS) 1 0 5 0 0
    (by decide)⟩

/-! ## The ready queue -/

theorem insertOrdered_perm (cmp : job_t → job_t → Int) (x : job_t) (l : List job_t) :
    (insertOrdered cmp x l).Perm (x :: l) := by
  induction l with
  | nil => exact List.Perm.refl _
  | cons y ys ih =>
    unfold insertOrdered
    split
    · exact List.Perm.refl _
    · exact (List.Perm.cons y ih).trans (List.Perm.swap x y ys)

theorem priqueue_offer_perm (q : priqueue_t) (x : job_t) :
    (priqueue_offer q x).items.Perm (x :: q.items) :=
  insertOrdered_perm _ x q.items

theorem priqueue_offer_comparer (q : priqueue_t) (x : job_t) :
    (priqueue_offer q x).comparer = q.comparer := rfl

theorem insertOrdered_FCFS (x : job_t) (l : List job_t) :
    insertOrdered FCFScompare x l = l ++ [x] := by
  induction l with
  | nil => rfl
  | cons y ys ih => simp [insertOrdered, FCFScompare, ih]

/-! ## Arrival with every core busy, non-preemptive schemes -/

/-- What `scheduler_new_job` computes when no core is idle and the scheme is
neither PSJF nor PPRI. -/
theorem new_job_enqueue (s : sched_t) (id t run_time priority uninit : Int)
    (hfull : ∀ x ∈ s.m_coreArr, x ≠ none)
    (h1 : s.m_type ≠ scheme_t.PSJF) (h2 : s.m_type ≠ scheme_t.PPRI) :
    scheduler_new_job s id t run_time priority uninit =
      some (-1, { s with q := priqueue_offer s.q (newJobRecord id t run_time priority uninit) }) := by
  have hfind : scheduler_idle_core_finder s = -1 := idleScan_of_full _ 0 hfull
  simp [scheduler_new_job, hfind, h1, h2]

/-- C2: under FCFS, SJF, PRI and RR, when every core slot is occupied,
`scheduler_new_job` returns -1, leaves the core table as it was, and the ready
queue afterwards holds exactly the jobs it held before plus the new job (the new
record with its response time still unset). -/
theorem new_job_full_nonpreemptive (s : sched_t) (id t run_time priority uninit : Int)
    (hscheme : s.m_type = scheme_t.FCFS ∨ s.m_type = scheme_t.SJF ∨
      s.m_type = scheme_t.PRI ∨ s.m_type = scheme_t.RR)
    (hfull : ∀ x ∈ s.m_coreArr, x ≠ none) :
    ∃ s1 : sched_t,
      scheduler_new_job s id t run_time priority uninit = some (-1, s1) ∧
      s1.m_coreArr = s.m_coreArr ∧
      s1.q.items.Perm (newJobRecord id t run_time priority uninit :: s.q.items) := by
  have h1 : s.m_type ≠ scheme_t.PSJF := by
    rcases hscheme with h | h | h | h <;> simp [h]
  have h2 : s.m_type ≠ scheme_t.PPRI := by
    rcases hscheme with h | h | h | h <;> simp [h]
  exact ⟨_, new_job_enqueue s id t run_time priority uninit hfull h1 h2, rfl,
    priqueue_offer_perm _ _⟩

/-- C2 at a concrete state: one SJF core that already runs job 1. -/
theorem new_job_full_nonpreemptive_witness :
    ∃ s1 : sched_t,
      scheduler_new_job
        { scheduler_start_up 1 scheme_t.SJF with
          m_coreArr := [some (idleCoreJob scheme_t.SJF 1 0 10 0 0)] } 2 1 2 0 0 = some (-1, s1) ∧
      s1.m_coreArr = [some (idleCoreJob scheme_t.SJF 1 0 10 0 0)] ∧
      s1.q.items.Perm [newJobRecord 2 1 2 0 0] :=
  new_job_full_nonpreemptive
    { scheduler_start_up 1 scheme_t.SJF with
      m_coreArr := [some (idleCoreJob scheme_t.SJF 1 0 10 0 0)] } 2 1 2 0 0
    (Or.inr (Or.inl rfl)) (by decide)

/-! ## The PSJF scan -/

theorem psjfScan_spec (time : Int) (arr : List (Option job_t)) (i : Nat) (longest : Int)
    (idx : Option Nat) (hfull : ∀ x ∈ arr, x ≠ none) :
    ∃ (l : Int) (k : Option Nat),
      psjfScan time arr i longest idx = some (psjfRefreshAll time arr, l, k) ∧
      longest ≤ l ∧
      (∀ j, some j ∈ arr → (psjfRefresh time j).processTime ≤ l) ∧
      ((l = longest ∧ k = idx) ∨
       (longest < l ∧ ∃ (w : Nat) (v : job_t), k = some (i + w) ∧ arr[w]? = some (some v) ∧
          (psjfRefresh time v).processTime = l ∧
          ∀ m u, m < w → arr[m]? = some (some u) → (psjfRefresh time u).processTime < l)) := by
  induction arr generalizing i longest idx with
  | nil => exact ⟨longest, idx, rfl, le_refl _, by simp, Or.inl ⟨rfl, rfl⟩⟩
  | cons a rest ih =>
    cases a with
    | none => exact absurd rfl (hfull none (List.mem_cons_self _ _))
    | some j =>
      have hrest : ∀ x ∈ rest, x ≠ none := fun x hx => hfull x (List.mem_cons_of_mem _ hx)
      by_cases hgt : (psjfRefresh time j).processTime > longest
      · obtain ⟨l, k, hrun, hle, hall, hcase⟩ :=
          ih (i + 1) (psjfRefresh time j).processTime (some i) hrest
        refine ⟨l, k, ?_, by omega, ?_, Or.inr ⟨by omega, ?_⟩⟩
        · simp [psjfScan, hgt, hrun, psjfRefreshAll]
        · intro x hx
          rcases List.mem_cons.mp hx with h | h
          · cases h; exact hle
          · exact hall x h
        · rcases hcase with ⟨hl, hk⟩ | ⟨hl, w, v, hk, hw, hv, hfirst⟩
          · exact ⟨0, j, by simpa using hk, by simp, hl.symm, fun m u hm => absurd hm (by omega)⟩
          · refine ⟨w + 1, v, by rw [hk]; congr 1; omega, by simpa using hw, hv, ?_⟩
            intro m u hm hu
            cases m with
            | zero =>
              simp at hu
              subst hu
              omega
            | succ m => exact hfirst m u (by omega) (by simpa using hu)
      · obtain ⟨l, k, hrun, hle, hall, hcase⟩ := ih (i + 1) longest idx hrest
        refine ⟨l, k, ?_, hle, ?_, ?_⟩
        · simp [psjfScan, hgt, hrun, psjfRefreshAll]
        · intro x hx
          rcases List.mem_cons.mp hx with h | h
          · cases h; omega
          · exact hall x h
        · rcases hcase with hsame | ⟨hl, w, v, hk, hw, hv, hfirst⟩
          · exact Or.inl hsame
          · refine Or.inr ⟨hl, w + 1, v, by rw [hk]; congr 1; omega, by simpa using hw, hv, ?_⟩
            intro m u hm hu
            cases m with
            | zero =>
              simp at hu
              subst hu
              omega
            | succ m => exact hfirst m u (by omega) (by simpa using hu)

theorem setResponseIfUnset_newJobRecord (id t run_time priority uninit : Int) :
    setResponseIfUnset t (newJobRecord id t run_time priority uninit) =
      { newJobRecord id t run_time priority uninit with responseTime := 0 } := by
  simp [setResponseIfUnset, newJobRecord]

theorem psjfRefreshAll_getElem? (time : Int) (arr : List (Option job_t)) (w : Nat) (v : job_t)
    (h : arr[w]? = some (some v)) :
    (psjfRefreshAll time arr)[w]? = some (some (psjfRefresh time v)) := by
  simp [psjfRefreshAll, h]

/-! ## Arrival with every core busy, PSJF -/

/-- The PSJF branch of `scheduler_new_job` when the scan ends with a longest
remaining time above the new run time, found at index `w`. -/
theorem new_job_psjf_preempt (s : sched_t) (id t run_time priority uninit : Int)
    (hP : s.m_type = scheme_t.PSJF) (hfull : ∀ x ∈ s.m_coreArr, x ≠ none)
    (R : List (Option job_t)) (l : Int) (w : Nat) (v : job_t)
    (hscan : psjfScan t s.m_coreArr 0 (-1) none = some (R, l, some w))
    (hl : run_time < l) (hw : R[w]? = some (some v)) :
    scheduler_new_job s id t run_time priority uninit =
      some ((w : Int), { s with
        m_coreArr := R.set w (some { newJobRecord id t run_time priority uninit with
          responseTime := 0 })
        q := priqueue_offer s.q (resetIfJustScheduled t v) }) := by
  have hfind : scheduler_idle_core_finder s = -1 := idleScan_of_full _ 0 hfull
  simp [scheduler_new_job, hfind, hP, hscan, hl, hw, setResponseIfUnset_newJobRecord]

/-- The PSJF branch of `scheduler_new_job` when the scan ends with a longest
remaining time not above the new run time. -/
theorem new_job_psjf_enqueue (s : sched_t) (id t run_time priority uninit : Int)
    (hP : s.m_type = scheme_t.PSJF) (hfull : ∀ x ∈ s.m_coreArr, x ≠ none)
    (R : List (Option job_t)) (l : Int) (k : Option Nat)
    (hscan : psjfScan t s.m_coreArr 0 (-1) none = some (R, l, k))
    (hl : ¬ run_time < l) :
    scheduler_new_job s id t run_time priority uninit =
      some (-1, { s with
        m_coreArr := R
        q := priqueue_offer s.q (newJobRecord id t run_time priority uninit) }) := by
  have hfind : scheduler_idle_core_finder s = -1 := idleScan_of_full _ 0 hfull
  simp [scheduler_new_job, hfind, hP, hscan, hl]

/-- C3: under PSJF with every core occupied and a run time of at least -1 (the
interface only passes run times from 1 on), `scheduler_new_job` at tick `t` first refreshes every
running job to `t`. If some refreshed remaining time is strictly greater than
the new run time, the call returns a core index `w` whose refreshed job `v` has
the largest remaining time, slot `w` then holds the new job with response time
0, and `v` (its response time reset when it was set at this very tick) has
joined the ready queue. If every refreshed remaining time is at most the new run
time, the call returns -1, the new job has joined the ready queue, and every
core keeps its refreshed job. The two scenarios of the spec evaluate to the
stated return values whatever `malloc` left in the unwritten field. -/
theorem psjf_new_job_preempts_iff_longer :
    (∀ (s : sched_t) (id t run_time priority uninit : Int),
      s.m_type = scheme_t.PSJF → (∀ x ∈ s.m_coreArr, x ≠ none) → -1 ≤ run_time →
      ((∃ j, some j ∈ s.m_coreArr ∧ run_time < (psjfRefresh t j).processTime) →
        ∃ (w : Nat) (v : job_t) (s1 : sched_t),
          scheduler_new_job s id t run_time priority uninit = some ((w : Int), s1) ∧
          s.m_coreArr[w]? = some (some v) ∧
          (∀ j, some j ∈ s.m_coreArr →
            (psjfRefresh t j).processTime ≤ (psjfRefresh t v).processTime) ∧
          s1.m_coreArr = (psjfRefreshAll t s.m_coreArr).set w
            (some { newJobRecord id t run_time priority uninit with responseTime := 0 }) ∧
          s1.q.items.Perm (resetIfJustScheduled t (psjfRefresh t v) :: s.q.items)) ∧
      ((∀ j, some j ∈ s.m_coreArr → (psjfRefresh t j).processTime ≤ run_time) →
        ∃ s1 : sched_t,
          scheduler_new_job s id t run_time priority uninit = some (-1, s1) ∧
          s1.m_coreArr = psjfRefreshAll t s.m_coreArr ∧
          s1.q.items.Perm (newJobRecord id t run_time priority uninit :: s.q.items))) ∧
    (∀ u1 u2 : Int, (runEvents (scheduler_start_up 1 scheme_t.PSJF)
      [Event.new_job 1 0 8 0 u1, Event.new_job 2 2 3 0 u2]).map Prod.fst = some [0, 0]) ∧
    (∀ u1 u2 : Int, (runEvents (scheduler_start_up 1 scheme_t.PSJF)
      [Event.new_job 1 0 3 0 u1, Event.new_job 2 1 2 0 u2]).map Prod.fst = some [0, -1]) := by
  refine ⟨?_, fun _ _ => rfl, fun _ _ => rfl⟩
  intro s id t run_time priority uninit hP hfull hrt
  obtain ⟨l, k, hrun, hle, hall, hcase⟩ := psjfScan_spec t s.m_coreArr 0 (-1) none hfull
  constructor
  · rintro ⟨j, hj, hlong⟩
    have hl : run_time < l := lt_of_lt_of_le hlong (hall j hj)
    rcases hcase with ⟨h1, _⟩ | ⟨_, w, v, hk, hw, hv, _⟩
    · omega
    · have hw1 := psjfRefreshAll_getElem? t s.m_coreArr w v hw
      simp only [Nat.zero_add] at hk
      subst hk
      refine ⟨w, v, _, new_job_psjf_preempt s id t run_time priority uninit hP hfull _ l w _
        hrun hl hw1, hw, ?_, rfl, priqueue_offer_perm _ _⟩
      · intro x hx
        rw [hv]
        exact hall x hx
  · intro hshort
    have hl : ¬ run_time < l := by
      rcases hcase with ⟨h1, _⟩ | ⟨_, w, v, _, hw, hv, _⟩
      · omega
      · have := hshort v (List.mem_iff_getElem?.mpr ⟨w, hw⟩)
        omega
    exact ⟨_, new_job_psjf_enqueue s id t run_time priority uninit hP hfull _ l k hrun hl, rfl,
      priqueue_offer_perm _ _⟩

/-- C3 at the state of the spec's preemption scenario: one PSJF core running
job 1 (arrived at 0, run time 8), and job 2 arriving at tick 2 with run time 3. -/
theorem psjf_new_job_preempts_iff_longer_witness :
    ∃ (w : Nat) (v : job_t) (s1 : sched_t),
      scheduler_new_job
        { scheduler_start_up 1 scheme_t.PSJF with
          m_coreArr := [some (idleCoreJob scheme_t.PSJF 1 0 8 0 0)] } 2 2 3 0 0
        = some ((w : Int), s1) ∧
      [some (idleCoreJob scheme_t.PSJF 1 0 8 0 0)][w]? = some (some v) ∧
      (∀ j, some j ∈ [some (idleCoreJob scheme_t.PSJF 1 0 8 0 0)] →
        (psjfRefresh 2 j).processTime ≤ (psjfRefresh 2 v).processTime) ∧
      s1.m_coreArr = (psjfRefreshAll 2 [some (idleCoreJob scheme_t.PSJF 1 0 8 0 0)]).set w
        (some { newJobRecord 2 2 3 0 0 with responseTime := 0 }) ∧
      s1.q.items.Perm (resetIfJustScheduled 2 (psjfRefresh 2 v) :: []) :=
  (psjf_new_job_preempts_iff_longer.1
    { scheduler_start_up 1 scheme_t.PSJF with
      m_coreArr := [some (idleCoreJob scheme_t.PSJF 1 0 8 0 0)] } 2 2 3 0 0
    rfl (by decide) (by decide)).1 ⟨idleCoreJob scheme_t.PSJF 1 0 8 0 0, by decide, by decide⟩

/-! ## The PPRI scan -/

theorem ppriScan_spec (arr : List (Option job_t)) (rest seen : List (Option job_t))
    (lo : Int) (core : Nat) (harr : arr = seen ++ rest) (hfull : ∀ x ∈ rest, x ≠ none)
    (hinv : ppriInv arr seen lo core) :
    ∃ (lo1 : Int) (core1 : Nat),
      ppriScan arr rest seen.length lo core = some (lo1, core1) ∧ ppriInv arr arr lo1 core1 := by
  induction rest generalizing seen lo core with
  | nil =>
    refine ⟨lo, core, rfl, ?_⟩
    rw [List.append_nil] at harr
    rw [← harr] at hinv
    exact hinv
  | cons a rest ih =>
    cases a with
    | none => exact absurd rfl (hfull none (List.mem_cons_self _ _))
    | some j =>
      have hrest : ∀ x ∈ rest, x ≠ none := fun x hx => hfull x (List.mem_cons_of_mem _ hx)
      have harr1 : arr = (seen ++ [some j]) ++ rest := by simp [harr]
      have hget : arr[seen.length]? = some (some j) := by
        rw [harr, List.getElem?_append_right (le_refl _)]
        simp
      have hlen : (seen ++ [some j]).length = seen.length + 1 := by simp
      obtain ⟨v, hv, hvlo, hseen⟩ := hinv
      have key : ∀ lo2 core2, ppriInv arr (seen ++ [some j]) lo2 core2 →
          ∃ (lo1 : Int) (core1 : Nat),
            ppriScan arr rest (seen.length + 1) lo2 core2 = some (lo1, core1) ∧
            ppriInv arr arr lo1 core1 := by
        intro lo2 core2 h2
        have := ih (seen ++ [some j]) lo2 core2 harr1 hrest h2
        rwa [hlen] at this
      by_cases hgt : j.priority > lo
      · have hstep : ppriInv arr (seen ++ [some j]) j.priority seen.length := by
          refine ⟨j, hget, rfl, ?_⟩
          intro x hx
          rcases List.mem_append.mp hx with h | h
          · have := hseen x h
            exact ⟨by omega, fun he => by omega⟩
          · simp at h
            subst h
            exact ⟨le_refl _, fun _ => le_refl _⟩
        obtain ⟨lo1, core1, hrun, hfin⟩ := key _ _ hstep
        exact ⟨lo1, core1, by simp [ppriScan, hgt, hrun], hfin⟩
      · by_cases heq : j.priority = lo
        · by_cases harrive : j.arrivalTime > v.arrivalTime
          · have hstep : ppriInv arr (seen ++ [some j]) lo seen.length := by
              refine ⟨j, hget, heq, ?_⟩
              intro x hx
              rcases List.mem_append.mp hx with h | h
              · have := hseen x h
                exact ⟨this.1, fun he => by have := this.2 he; omega⟩
              · simp at h
                subst h
                exact ⟨by omega, fun _ => le_refl _⟩
            obtain ⟨lo1, core1, hrun, hfin⟩ := key _ _ hstep
            exact ⟨lo1, core1, by simp [ppriScan, heq, hv, harrive, hrun], hfin⟩
          · have hstep : ppriInv arr (seen ++ [some j]) lo core := by
              refine ⟨v, hv, hvlo, ?_⟩
              intro x hx
              rcases List.mem_append.mp hx with h | h
              · exact hseen x h
              · simp at h
                subst h
                exact ⟨by omega, fun _ => by omega⟩
            obtain ⟨lo1, core1, hrun, hfin⟩ := key _ _ hstep
            exact ⟨lo1, core1, by simp [ppriScan, heq, hv, harrive, hrun], hfin⟩
        · have hstep : ppriInv arr (seen ++ [some j]) lo core := by
            refine ⟨v, hv, hvlo, ?_⟩
            intro x hx
            rcases List.mem_append.mp hx with h | h
            · exact hseen x h
            · simp at h
              subst h
              exact ⟨by omega, fun he => absurd he heq⟩
          obtain ⟨lo1, core1, hrun, hfin⟩ := key _ _ hstep
          exact ⟨lo1, core1, by simp [ppriScan, hgt, heq, hrun], hfin⟩

/-! ## Arrival with every core busy, PPRI -/

/-- The PPRI branch of `scheduler_new_job` when the scan ends at core `w` with a
priority value above the new job's. -/
theorem new_job_ppri_preempt (s : sched_t) (id t run_time priority uninit : Int)
    (hP : s.m_type = scheme_t.PPRI) (hfull : ∀ x ∈ s.m_coreArr, x ≠ none)
    (j0 v : job_t) (lo : Int) (w : Nat) (h0 : s.m_coreArr[0]? = some (some j0))
    (hscan : ppriScan s.m_coreArr s.m_coreArr 0 j0.priority 0 = some (lo, w))
    (hlo : priority < lo) (hw : s.m_coreArr[w]? = some (some v)) :
    scheduler_new_job s id t run_time priority uninit =
      some ((w : Int), { s with
        m_coreArr := s.m_coreArr.set w (some { newJobRecord id t run_time priority uninit with
          responseTime := 0 })
        q := priqueue_offer s.q (resetIfJustScheduled t v) }) := by
  have hfind : scheduler_idle_core_finder s = -1 := idleScan_of_full _ 0 hfull
  have hlo1 : (newJobRecord id t run_time priority uninit).priority < lo := hlo
  simp [scheduler_new_job, hfind, hP, h0, hscan, hlo1, hw, setResponseIfUnset_newJobRecord]

/-- The PPRI branch of `scheduler_new_job` when the scan ends with a priority
value not above the new job's. -/
theorem new_job_ppri_enqueue (s : sched_t) (id t run_time priority uninit : Int)
    (hP : s.m_type = scheme_t.PPRI) (hfull : ∀ x ∈ s.m_coreArr, x ≠ none)
    (j0 : job_t) (lo : Int) (w : Nat) (h0 : s.m_coreArr[0]? = some (some j0))
    (hscan : ppriScan s.m_coreArr s.m_coreArr 0 j0.priority 0 = some (lo, w))
    (hlo : ¬ priority < lo) :
    scheduler_new_job s id t run_time priority uninit =
      some (-1, { s with
        q := priqueue_offer s.q (newJobRecord id t run_time priority uninit) }) := by
  have hfind : scheduler_idle_core_finder s = -1 := idleScan_of_full _ 0 hfull
  have hlo1 : ¬ (newJobRecord id t run_time priority uninit).priority < lo := hlo
  simp [scheduler_new_job, hfind, hP, h0, hscan, hlo1]

/-- The PPRI scan of a full, non-empty core table succeeds and ends on a core
whose job has the largest priority value and, among those, the latest
arrival. -/
theorem ppriScan_full (arr : List (Option job_t)) (hfull : ∀ x ∈ arr, x ≠ none)
    (hne : arr ≠ []) :
    ∃ (j0 : job_t) (lo : Int) (w : Nat),
      arr[0]? = some (some j0) ∧ ppriScan arr arr 0 j0.priority 0 = some (lo, w) ∧
      ppriInv arr arr lo w := by
  cases arr with
  | nil => exact absurd rfl hne
  | cons a rest =>
    cases a with
    | none => exact absurd rfl (hfull none (List.mem_cons_self _ _))
    | some j0 =>
      have hinv : ppriInv (some j0 :: rest) [] j0.priority 0 :=
        ⟨j0, by simp, rfl, fun j hj => absurd hj (List.not_mem_nil _)⟩
      obtain ⟨lo, w, hrun, hfin⟩ :=
        ppriScan_spec (some j0 :: rest) (some j0 :: rest) [] j0.priority 0 rfl hfull hinv
      exact ⟨j0, lo, w, by simp, hrun, hfin⟩

/-- C4: under PPRI with at least one core and every core occupied, the scan of
`scheduler_new_job` settles on a core `w` whose job `v` has the numerically
largest priority among the running jobs and, among the jobs of that priority,
the latest arrival. If `v`'s priority value is strictly greater than the new
job's, the call returns `w`, slot `w` then holds the new job with response time
0 and `v` (its response time reset when it was set at this very tick) has
joined the ready queue. Otherwise, equal priority included, the call returns -1,
the new job has joined the ready queue and the core table is unchanged. The
spec's scenario evaluates to the stated return values. -/
theorem ppri_new_job_preempts_iff_lower :
    (∀ (s : sched_t) (id t run_time priority uninit : Int),
      s.m_type = scheme_t.PPRI → (∀ x ∈ s.m_coreArr, x ≠ none) → s.m_coreArr ≠ [] →
      ∃ (w : Nat) (v : job_t),
        s.m_coreArr[w]? = some (some v) ∧
        (∀ j, some j ∈ s.m_coreArr →
          j.priority ≤ v.priority ∧ (j.priority = v.priority → j.arrivalTime ≤ v.arrivalTime)) ∧
        (priority < v.priority →
          ∃ s1 : sched_t,
            scheduler_new_job s id t run_time priority uninit = some ((w : Int), s1) ∧
            s1.m_coreArr = s.m_coreArr.set w
              (some { newJobRecord id t run_time priority uninit with responseTime := 0 }) ∧
            s1.q.items.Perm (resetIfJustScheduled t v :: s.q.items)) ∧
        (v.priority ≤ priority →
          ∃ s1 : sched_t,
            scheduler_new_job s id t run_time priority uninit = some (-1, s1) ∧
            s1.m_coreArr = s.m_coreArr ∧
            s1.q.items.Perm (newJobRecord id t run_time priority uninit :: s.q.items))) ∧
    (∀ u1 u2 : Int, (runEvents (scheduler_start_up 1 scheme_t.PPRI)
      [Event.new_job 1 0 10 2 u1, Event.new_job 2 1 10 1 u2]).map Prod.fst = some [0, 0]) := by
  refine ⟨?_, fun _ _ => rfl⟩
  intro s id t run_time priority uninit hP hfull hne
  obtain ⟨j0, lo, w, h0, hscan, v, hv, hvlo, hmax⟩ := ppriScan_full s.m_coreArr hfull hne
  refine ⟨w, v, hv, ?_, ?_, ?_⟩
  · intro j hj
    rw [hvlo]
    exact hmax j hj
  · intro hlt
    rw [hvlo] at hlt
    exact ⟨_, new_job_ppri_preempt s id t run_time priority uninit hP hfull j0 v lo w h0 hscan
      hlt hv, rfl, priqueue_offer_perm _ _⟩
  · intro hge
    rw [hvlo] at hge
    exact ⟨_, new_job_ppri_enqueue s id t run_time priority uninit hP hfull j0 lo w h0 hscan
      (by omega), rfl, priqueue_offer_perm _ _⟩

/-- C4 at the state of the spec's scenario: one PPRI core running job 1 of
priority 2, and job 2 of priority 1 arriving at tick 1. -/
theorem ppri_new_job_preempts_iff_lower_witness :
    ∃ (w : Nat) (v : job_t),
      [some (idleCoreJob scheme_t.PPRI 1 0 10 2 0)][w]? = some (some v) ∧
      (∀ j, some j ∈ [some (idleCoreJob scheme_t.PPRI 1 0 10 2 0)] →
        j.priority ≤ v.priority ∧ (j.priority = v.priority → j.arrivalTime ≤ v.arrivalTime)) ∧
      ((1 : Int) < v.priority →
        ∃ s1 : sched_t,
          scheduler_new_job
            { scheduler_start_up 1 scheme_t.PPRI with
              m_coreArr := [some (idleCoreJob scheme_t.PPRI 1 0 10 2 0)] } 2 1 10 1 0
            = some ((w : Int), s1) ∧
          s1.m_coreArr = [some (idleCoreJob scheme_t.PPRI 1 0 10 2 0)].set w
            (some { newJobRecord 2 1 10 1 0 with responseTime := 0 }) ∧
          s1.q.items.Perm (resetIfJustScheduled 1 v :: [])) ∧
      (v.priority ≤ 1 →
        ∃ s1 : sched_t,
          scheduler_new_job
            { scheduler_start_up 1 scheme_t.PPRI with
              m_coreArr := [some (idleCoreJob scheme_t.PPRI 1 0 10 2 0)] } 2 1 10 1 0
            = some (-1, s1) ∧
          s1.m_coreArr = [some (idleCoreJob scheme_t.PPRI 1 0 10 2 0)] ∧
          s1.q.items.Perm (newJobRecord 2 1 10 1 0 :: [])) :=
  ppri_new_job_preempts_iff_lower.1
    { scheduler_start_up 1 scheme_t.PPRI with
      m_coreArr := [some (idleCoreJob scheme_t.PPRI 1 0 10 2 0)] } 2 1 10 1 0
    rfl (by decide) (by decide)

/-! ## Completion -/

theorem dispatched_pid (psjf : Bool) (time : Int) (h : job_t) :
    (dispatched psjf time h).pid = h.pid := by
  unfold dispatched setResponseIfUnset
  split <;> split <;> rfl

theorem dispatched_arrivalTime (psjf : Bool) (time : Int) (h : job_t) :
    (dispatched psjf time h).arrivalTime = h.arrivalTime := by
  unfold dispatched setResponseIfUnset
  split <;> split <;> rfl

theorem dispatched_responseTime_unset (psjf : Bool) (time : Int) (h : job_t)
    (hu : h.responseTime = -1) :
    (dispatched psjf time h).responseTime = time - h.arrivalTime := by
  unfold dispatched setResponseIfUnset
  cases psjf <;> simp [hu]

theorem dispatched_responseTime_set (psjf : Bool) (time : Int) (h : job_t)
    (hu : h.responseTime ≠ -1) :
    (dispatched psjf time h).responseTime = h.responseTime := by
  unfold dispatched setResponseIfUnset
  cases psjf <;> simp [hu]

/-- `scheduler_job_finished` on an occupied core with an empty queue. -/
theorem job_finished_idle (s : sched_t) (c : Nat) (id t : Int) (j : job_t)
    (hc : s.m_coreArr[c]? = some (some j)) (hq : s.q.items = []) :
    scheduler_job_finished s c id t = some (-1, afterCompletion s c t j) := by
  simp [scheduler_job_finished, hc, priqueue_size, hq, afterCompletion]

/-- `scheduler_job_finished` on an occupied core with a queue whose head is
`h`. -/
theorem job_finished_dispatch (s : sched_t) (c : Nat) (id t : Int) (j h : job_t)
    (rest : List job_t) (hc : s.m_coreArr[c]? = some (some j)) (hq : s.q.items = h :: rest) :
    scheduler_job_finished s c id t =
      some (h.pid, { afterCompletion s c t j with
        m_coreArr := (s.m_coreArr.set c none).set c
          (some (dispatched (decide (s.m_type = scheme_t.PSJF)) t h))
        q := { s.q with items := rest } }) := by
  by_cases hP : s.m_type = scheme_t.PSJF
  · simp [scheduler_job_finished, hc, priqueue_size, priqueue_poll, hq, afterCompletion, hP,
      dispatched, setResponseIfUnset]
    split <;> rfl
  · simp [scheduler_job_finished, hc, priqueue_size, priqueue_poll, hq, afterCompletion, hP,
      dispatched, setResponseIfUnset]
    split <;> rfl

theorem new_job_counters (s s1 : sched_t) (id t run_time priority uninit r : Int)
    (h : scheduler_new_job s id t run_time priority uninit = some (r, s1)) :
    counters s1 = counters s := by
  unfold scheduler_new_job at h
  simp only at h
  split at h
  · cases h; rfl
  · split at h
    · split at h
      · cases h
      · split at h
        · split at h
          · cases h
          · split at h
            · cases h; rfl
            · cases h
        · cases h; rfl
    · split at h
      · split at h
        · split at h
          · cases h
          · split at h
            · split at h
              · cases h; rfl
              · cases h
            · cases h; rfl
        · cases h
      · cases h; rfl

theorem quantum_expired_counters (s s1 : sched_t) (c : Nat) (t r : Int)
    (h : scheduler_quantum_expired s c t = some (r, s1)) :
    counters s1 = counters s := by
  unfold scheduler_quantum_expired at h
  split at h
  · cases h
  · simp only at h
    split at h
    · split at h
      · cases h; rfl
      · split at h
        · cases h; rfl
        · cases h
    · split at h
      · cases h; rfl
      · cases h

/-- `scheduler_job_finished` on an occupied core returns a result, and the
state it returns has the counters of `afterCompletion`. -/
theorem job_finished_counters (s : sched_t) (c : Nat) (id t : Int) (j : job_t)
    (hc : s.m_coreArr[c]? = some (some j)) :
    ∃ (r : Int) (s1 : sched_t), scheduler_job_finished s c id t = some (r, s1) ∧
      counters s1 = counters (afterCompletion s c t j) := by
  cases hq : s.q.items with
  | nil => exact ⟨_, _, job_finished_idle s c id t j hc hq, rfl⟩
  | cons h rest => exact ⟨_, _, job_finished_dispatch s c id t j h rest hc hq, rfl⟩

/-- C5: `scheduler_job_finished(c, id, t)` on an occupied core adds
`t - arrival_time - original_run_time` to the waiting sum, `t - arrival_time` to
the turnaround sum and the job's response time to the response sum, and
increments the finished count by 1, so the waiting increment is the turnaround
increment minus the original run time; `scheduler_new_job` and
`scheduler_quantum_expired` leave all four counters as they were. -/
theorem counters_change_only_on_completion :
    (∀ (s : sched_t) (c : Nat) (id t : Int) (j : job_t), s.m_coreArr[c]? = some (some j) →
      ∃ (r : Int) (s1 : sched_t), scheduler_job_finished s c id t = some (r, s1) ∧
        s1.m_waitingTime = s.m_waitingTime + (t - j.arrivalTime - j.originalProcessTime) ∧
        s1.m_turnaroundTime = s.m_turnaroundTime + (t - j.arrivalTime) ∧
        s1.m_responseTime = s.m_responseTime + j.responseTime ∧
        s1.m_numJobs = s.m_numJobs + 1 ∧
        s1.m_waitingTime - s.m_waitingTime =
          (s1.m_turnaroundTime - s.m_turnaroundTime) - j.originalProcessTime) ∧
    (∀ (s s1 : sched_t) (id t run_time priority uninit r : Int),
      scheduler_new_job s id t run_time priority uninit = some (r, s1) →
      s1.m_waitingTime = s.m_waitingTime ∧ s1.m_turnaroundTime = s.m_turnaroundTime ∧
      s1.m_responseTime = s.m_responseTime ∧ s1.m_numJobs = s.m_numJobs) ∧
    (∀ (s s1 : sched_t) (c : Nat) (t r : Int),
      scheduler_quantum_expired s c t = some (r, s1) →
      s1.m_waitingTime = s.m_waitingTime ∧ s1.m_turnaroundTime = s.m_turnaroundTime ∧
      s1.m_responseTime = s.m_responseTime ∧ s1.m_numJobs = s.m_numJobs) := by
  refine ⟨?_, ?_, ?_⟩
  · intro s c id t j hc
    obtain ⟨r, s1, hrun, hcnt⟩ := job_finished_counters s c id t j hc
    simp only [counters, afterCompletion, Prod.mk.injEq] at hcnt
    obtain ⟨h1, h2, h3, h4⟩ := hcnt
    refine ⟨r, s1, hrun, h1, h2, h3, h4, ?_⟩
    rw [h1, h2]
    ring
  · intro s s1 id t run_time priority uninit r h
    have hcnt := new_job_counters s s1 id t run_time priority uninit r h
    simp only [counters, Prod.mk.injEq] at hcnt
    exact ⟨hcnt.1, hcnt.2.1, hcnt.2.2.1, hcnt.2.2.2⟩
  · intro s s1 c t r h
    have hcnt := quantum_expired_counters s s1 c t r h
    simp only [counters, Prod.mk.injEq] at hcnt
    exact ⟨hcnt.1, hcnt.2.1, hcnt.2.2.1, hcnt.2.2.2⟩

/-- C5 at a concrete state: one FCFS core running job 1 (arrived at 0, run time
5), which finishes at tick 5. -/
theorem counters_change_only_on_completion_witness :
    ∃ (r : Int) (s1 : sched_t),
      scheduler_job_finished
        { scheduler_start_up 1 scheme_t.FCFS with
          m_coreArr := [some (idleCoreJob scheme_t.FCFS 1 0 5 0 0)] } 0 1 5 = some (r, s1) ∧
      s1.m_waitingTime = 0 + (5 - (idleCoreJob scheme_t.FCFS 1 0 5 0 0).arrivalTime
        - (idleCoreJob scheme_t.FCFS 1 0 5 0 0).originalProcessTime) ∧
      s1.m_turnaroundTime = 0 + (5 - (idleCoreJob scheme_t.FCFS 1 0 5 0 0).arrivalTime) ∧
      s1.m_responseTime = 0 + (idleCoreJob scheme_t.FCFS 1 0 5 0 0).responseTime ∧
      s1.m_numJobs = 0 + 1 ∧
      s1.m_waitingTime - 0 =
        (s1.m_turnaroundTime - 0) - (idleCoreJob scheme_t.FCFS 1 0 5 0 0).originalProcessTime :=
  counters_change_only_on_completion.1
    { scheduler_start_up 1 scheme_t.FCFS with
      m_coreArr := [some (idleCoreJob scheme_t.FCFS 1 0 5 0 0)] } 0 1 5
    (idleCoreJob scheme_t.FCFS 1 0 5 0 0) rfl

/-- C6: `scheduler_job_finished(c, id, t)` on an occupied core, under every
scheme. With a non-empty ready queue it removes the head `h`, installs it on
slot `c` and returns its id; the installed job has response time
`t - arrival_time` when `h`'s was unset and `h`'s response time otherwise. With
an empty queue it returns -1 and slot `c` is empty afterwards. In both cases
every other slot is unchanged. The spec's three-core scenario evaluates to the
stated return values for all run times and priorities. -/
theorem job_finished_refills_from_head :
    (∀ (s : sched_t) (c : Nat) (id t : Int) (j : job_t), s.m_coreArr[c]? = some (some j) →
      (∀ (h : job_t) (rest : List job_t), s.q.items = h :: rest →
        ∃ (s1 : sched_t) (h1 : job_t),
          scheduler_job_finished s c id t = some (h.pid, s1) ∧
          s1.q.items = rest ∧
          s1.m_coreArr[c]? = some (some h1) ∧
          h1.pid = h.pid ∧ h1.arrivalTime = h.arrivalTime ∧
          (h.responseTime = -1 → h1.responseTime = t - h.arrivalTime) ∧
          (h.responseTime ≠ -1 → h1.responseTime = h.responseTime) ∧
          ∀ k, k ≠ c → s1.m_coreArr[k]? = s.m_coreArr[k]?) ∧
      (s.q.items = [] →
        ∃ s1 : sched_t,
          scheduler_job_finished s c id t = some (-1, s1) ∧
          s1.q.items = [] ∧
          s1.m_coreArr[c]? = some none ∧
          ∀ k, k ≠ c → s1.m_coreArr[k]? = s.m_coreArr[k]?)) ∧
    (∀ r1 r2 r3 r4 p1 p2 p3 p4 u1 u2 u3 u4 : Int,
      (runEvents (scheduler_start_up 3 scheme_t.FCFS)
        [Event.new_job 1 0 r1 p1 u1, Event.new_job 2 1 r2 p2 u2, Event.new_job 3 2 r3 p3 u3,
         Event.new_job 4 3 r4 p4 u4, Event.job_finished 1 2 5]).map Prod.fst
        = some [0, 1, 2, -1, 4]) := by
  refine ⟨?_, fun _ _ _ _ _ _ _ _ _ _ _ _ => rfl⟩
  intro s c id t j hc
  have hlt : c < s.m_coreArr.length := (List.getElem?_eq_some_iff.mp hc).1
  constructor
  · intro h rest hq
    refine ⟨_, dispatched (decide (s.m_type = scheme_t.PSJF)) t h,
      job_finished_dispatch s c id t j h rest hc hq, rfl, by simp [hlt],
      dispatched_pid _ _ _, dispatched_arrivalTime _ _ _,
      dispatched_responseTime_unset _ _ _, dispatched_responseTime_set _ _ _, ?_⟩
    intro k hk
    simp [List.getElem?_set_ne (Ne.symm hk)]
  · intro hq
    refine ⟨_, job_finished_idle s c id t j hc hq, hq, by simp [afterCompletion, hlt], ?_⟩
    intro k hk
    simp [afterCompletion, List.getElem?_set_ne (Ne.symm hk)]

/-- C6 at the state the spec's scenario reaches before the completion: three
FCFS cores running jobs 1, 2 and 3, job 4 queued, and job 2 finishing on core 1
at tick 5. -/
theorem job_finished_refills_from_head_witness :
    ∃ (s1 : sched_t) (h1 : job_t),
      scheduler_job_finished
        { scheduler_start_up 3 scheme_t.FCFS with
          m_coreArr := [some (idleCoreJob scheme_t.FCFS 1 0 4 0 0),
            some (idleCoreJob scheme_t.FCFS 2 1 4 0 0), some (idleCoreJob scheme_t.FCFS 3 2 4 0 0)]
          q := { comparer := comparer_t.FCFScompare, items := [newJobRecord 4 3 4 0 0] } } 1 2 5
        = some ((newJobRecord 4 3 4 0 0).pid, s1) ∧
      s1.q.items = [] ∧
      s1.m_coreArr[1]? = some (some h1) ∧
      h1.pid = (newJobRecord 4 3 4 0 0).pid ∧
      h1.arrivalTime = (newJobRecord 4 3 4 0 0).arrivalTime ∧
      ((newJobRecord 4 3 4 0 0).responseTime = -1 →
        h1.responseTime = 5 - (newJobRecord 4 3 4 0 0).arrivalTime) ∧
      ((newJobRecord 4 3 4 0 0).responseTime ≠ -1 →
        h1.responseTime = (newJobRecord 4 3 4 0 0).responseTime) ∧
      ∀ k, k ≠ 1 → s1.m_coreArr[k]? =
        [some (idleCoreJob scheme_t.FCFS 1 0 4 0 0), some (idleCoreJob scheme_t.FCFS 2 1 4 0 0),
          some (idleCoreJob scheme_t.FCFS 3 2 4 0 0)][k]? :=
  (job_finished_refills_from_head.1
    { scheduler_start_up 3 scheme_t.FCFS with
      m_coreArr := [some (idleCoreJob scheme_t.FCFS 1 0 4 0 0),
        some (idleCoreJob scheme_t.FCFS 2 1 4 0 0), some (idleCoreJob scheme_t.FCFS 3 2 4 0 0)]
      q := { comparer := comparer_t.FCFScompare, items := [newJobRecord 4 3 4 0 0] } } 1 2 5
    (idleCoreJob scheme_t.FCFS 2 1 4 0 0) rfl).1 (newJobRecord 4 3 4 0 0) [] rfl

/-! ## Quantum expiry -/

/-- `scheduler_quantum_expired` when the queue it polls (after the job of the
core, if any, was offered) is `h :: rest`. -/
theorem quantum_expired_occupied (s : sched_t) (c : Nat) (t : Int) (j h : job_t)
    (rest : List job_t) (hc : s.m_coreArr[c]? = some (some j))
    (hq : (priqueue_offer s.q j).items = h :: rest) :
    scheduler_quantum_expired s c t =
      some (h.pid, { s with
        m_coreArr := s.m_coreArr.set c (some (dispatched false t h))
        q := { priqueue_offer s.q j with items := rest } }) := by
  simp [scheduler_quantum_expired, hc, priqueue_poll, hq, dispatched, setResponseIfUnset]
  split <;> rfl

theorem quantum_expired_vacant (s : sched_t) (c : Nat) (t : Int) (h : job_t)
    (rest : List job_t) (hc : s.m_coreArr[c]? = some none) (hq : s.q.items = h :: rest) :
    scheduler_quantum_expired s c t =
      some (h.pid, { s with
        m_coreArr := s.m_coreArr.set c (some (dispatched false t h))
        q := { s.q with items := rest } }) := by
  simp [scheduler_quantum_expired, hc, priqueue_poll, priqueue_size, hq, dispatched,
    setResponseIfUnset]
  split <;> rfl

theorem quantum_expired_nothing (s : sched_t) (c : Nat) (t : Int)
    (hc : s.m_coreArr[c]? = some none) (hq : s.q.items = []) :
    scheduler_quantum_expired s c t = some (-1, s) := by
  simp [scheduler_quantum_expired, hc, priqueue_size, hq]

/-- C7: `scheduler_quantum_expired(c, t)` under RR, where the queue carries the
comparator `scheduler_start_up` installs for RR. On an empty slot with an empty
queue it returns -1 and the state is unchanged. On an occupied slot the job of
the slot goes to the tail of the queue, and on an empty slot with a non-empty
queue the queue is taken as it is; then the head `h` is removed, installed on
slot `c` with its response time set to `t - arrival_time` if it was unset (kept
otherwise), and its id is returned; the other slots are unchanged. The spec's
scenario returns 0, -1, 2, 1, and job 2 is on the core with response time 1
after the first expiry. -/
theorem rr_quantum_expired_rotates :
    (∀ (s : sched_t) (c : Nat) (t : Int),
      s.m_type = scheme_t.RR → s.q.comparer = comparer_t.FCFScompare →
      (s.m_coreArr[c]? = some none → s.q.items = [] →
        scheduler_quantum_expired s c t = some (-1, s)) ∧
      (∀ (l : List job_t),
        ((∃ j, s.m_coreArr[c]? = some (some j) ∧ l = s.q.items ++ [j]) ∨
         (s.m_coreArr[c]? = some none ∧ l = s.q.items ∧ l ≠ [])) →
        ∃ (h h1 : job_t) (rest : List job_t) (s1 : sched_t),
          l = h :: rest ∧
          scheduler_quantum_expired s c t = some (h.pid, s1) ∧
          s1.q.items = rest ∧
          s1.m_coreArr[c]? = some (some h1) ∧
          h1.pid = h.pid ∧ h1.arrivalTime = h.arrivalTime ∧
          (h.responseTime = -1 → h1.responseTime = t - h.arrivalTime) ∧
          (h.responseTime ≠ -1 → h1.responseTime = h.responseTime) ∧
          ∀ k, k ≠ c → s1.m_coreArr[k]? = s.m_coreArr[k]?)) ∧
    (∀ u1 u2 : Int,
      (runEvents (scheduler_start_up 1 scheme_t.RR)
        [Event.new_job 1 0 5 0 u1, Event.new_job 2 1 5 0 u2, Event.quantum_expired 0 2,
         Event.quantum_expired 0 3]).map Prod.fst = some [0, -1, 2, 1] ∧
      ((runEvents (scheduler_start_up 1 scheme_t.RR)
        [Event.new_job 1 0 5 0 u1, Event.new_job 2 1 5 0 u2, Event.quantum_expired 0 2]).map
          (fun p => p.2.m_coreArr.map (Option.map (fun j => (j.pid, j.responseTime)))))
        = some [some (2, 1)]) := by
  refine ⟨?_, fun _ _ => ⟨rfl, rfl⟩⟩
  intro s c t _ hcmp
  refine ⟨fun hc hq => quantum_expired_nothing s c t hc hq, ?_⟩
  intro l hl
  rcases hl with ⟨j, hc, hl⟩ | ⟨hc, hl, hne⟩
  · have hoffer : (priqueue_offer s.q j).items = s.q.items ++ [j] := by
      simp [priqueue_offer, hcmp, applyComparer, insertOrdered_FCFS]
    have hlt : c < s.m_coreArr.length := (List.getElem?_eq_some_iff.mp hc).1
    cases hl1 : l with
    | nil =>
      rw [hl1] at hl
      exact absurd hl.symm (by simp)
    | cons h rest =>
      have hq : (priqueue_offer s.q j).items = h :: rest := by rw [hoffer, ← hl, hl1]
      refine ⟨h, dispatched false t h, rest, _, rfl,
        quantum_expired_occupied s c t j h rest hc hq, rfl, by simp [hlt],
        dispatched_pid _ _ _, dispatched_arrivalTime _ _ _,
        dispatched_responseTime_unset _ _ _, dispatched_responseTime_set _ _ _, ?_⟩
      intro k hk
      simp [List.getElem?_set_ne (Ne.symm hk)]
  · have hlt : c < s.m_coreArr.length := (List.getElem?_eq_some_iff.mp hc).1
    cases hl1 : l with
    | nil => exact absurd hl1 hne
    | cons h rest =>
      have hq : s.q.items = h :: rest := by rw [← hl, hl1]
      refine ⟨h, dispatched false t h, rest, _, rfl,
        quantum_expired_vacant s c t h rest hc hq, rfl, by simp [hlt],
        dispatched_pid _ _ _, dispatched_arrivalTime _ _ _,
        dispatched_responseTime_unset _ _ _, dispatched_responseTime_set _ _ _, ?_⟩
      intro k hk
      simp [List.getElem?_set_ne (Ne.symm hk)]

/-- C7 at the state of the spec's scenario before the first expiry: one RR core
running job 1, job 2 queued, quantum expiry at tick 2. -/
theorem rr_quantum_expired_rotates_witness :
    ∃ (h h1 : job_t) (rest : List job_t) (s1 : sched_t),
      [newJobRecord 2 1 5 0 0, idleCoreJob scheme_t.RR 1 0 5 0 0] = h :: rest ∧
      scheduler_quantum_expired
        { scheduler_start_up 1 scheme_t.RR with
          m_coreArr := [some (idleCoreJob scheme_t.RR 1 0 5 0 0)]
          q := { comparer := comparer_t.FCFScompare, items := [newJobRecord 2 1 5 0 0] } } 0 2
        = some (h.pid, s1) ∧
      s1.q.items = rest ∧
      s1.m_coreArr[0]? = some (some h1) ∧
      h1.pid = h.pid ∧ h1.arrivalTime = h.arrivalTime ∧
      (h.responseTime = -1 → h1.responseTime = 2 - h.arrivalTime) ∧
      (h.responseTime ≠ -1 → h1.responseTime = h.responseTime) ∧
      ∀ k, k ≠ 0 → s1.m_coreArr[k]? = [some (idleCoreJob scheme_t.RR 1 0 5 0 0)][k]? :=
  (rr_quantum_expired_rotates.1
    { scheduler_start_up 1 scheme_t.RR with
      m_coreArr := [some (idleCoreJob scheme_t.RR 1 0 5 0 0)]
      q := { comparer := comparer_t.FCFScompare, items := [newJobRecord 2 1 5 0 0] } } 0 2
    rfl rfl).2 [newJobRecord 2 1 5 0 0, idleCoreJob scheme_t.RR 1 0 5 0 0]
    (Or.inl ⟨idleCoreJob scheme_t.RR 1 0 5 0 0, rfl, rfl⟩)

/-! ## The shapes a call can take -/

/-- Every successful `scheduler_new_job` call is of one of three shapes: the job
went to the first idle core; every core was busy and the job was queued; every
core was busy and the job replaced the job `v` of core `w`, which was
queued. -/
theorem new_job_cases (s s1 : sched_t) (id t run_time priority uninit r : Int)
    (h : scheduler_new_job s id t run_time priority uninit = some (r, s1)) :
    (∃ c : Nat, s.m_coreArr[c]? = some none ∧ r = (c : Int) ∧
      s1 = { s with
        m_coreArr := s.m_coreArr.set c (some (idleCoreJob s.m_type id t run_time priority uninit)) }) ∨
    ((∀ x ∈ s.m_coreArr, x ≠ none) ∧ r = -1 ∧
      s1 = { s with m_coreArr := busyTable s t
                    q := priqueue_offer s.q (newJobRecord id t run_time priority uninit) }) ∨
    ((∀ x ∈ s.m_coreArr, x ≠ none) ∧
      (s.m_type = scheme_t.PSJF ∨ s.m_type = scheme_t.PPRI) ∧
      ∃ (w : Nat) (v : job_t), (busyTable s t)[w]? = some (some v) ∧ r = (w : Int) ∧
        s1 = { s with
          m_coreArr := (busyTable s t).set w
            (some { newJobRecord id t run_time priority uninit with responseTime := 0 })
          q := priqueue_offer s.q (resetIfJustScheduled t v) }) := by
  by_cases hidle : none ∈ s.m_coreArr
  · obtain ⟨c, hc, hget, _⟩ := idleScan_of_idle s.m_coreArr 0 hidle
    have hfind : scheduler_idle_core_finder s = (c : Int) := by
      rw [scheduler_idle_core_finder, hc]; simp
    have hrun := new_job_on_idle s id t run_time priority uninit c hfind
    rw [hrun] at h
    obtain ⟨rfl, rfl⟩ := Prod.mk.inj (Option.some.inj h)
    exact Or.inl ⟨c, hget, rfl, rfl⟩
  · have hfull : ∀ x ∈ s.m_coreArr, x ≠ none := fun x hx hn => hidle (hn ▸ hx)
    have hfind : scheduler_idle_core_finder s = -1 := idleScan_of_full _ 0 hfull
    right
    by_cases hP : s.m_type = scheme_t.PSJF
    · obtain ⟨l, k, hscan, _, _, hcase⟩ := psjfScan_spec t s.m_coreArr 0 (-1) none hfull
      have hbusy : busyTable s t = psjfRefreshAll t s.m_coreArr := by simp [busyTable, hP]
      by_cases hl : run_time < l
      · rcases hcase with ⟨_, hk⟩ | ⟨_, w, v, hk, hw, _, _⟩
        · subst hk
          simp [scheduler_new_job, hfind, hP, hscan, hl] at h
        · simp only [Nat.zero_add] at hk
          subst hk
          have hw1 := psjfRefreshAll_getElem? t s.m_coreArr w v hw
          have hrun := new_job_psjf_preempt s id t run_time priority uninit hP hfull _ l w _
            hscan hl hw1
          rw [hrun] at h
          obtain ⟨rfl, rfl⟩ := Prod.mk.inj (Option.some.inj h)
          exact Or.inr ⟨hfull, Or.inl hP, w, _, by rw [hbusy]; exact hw1, rfl, by rw [hbusy]⟩
      · have hrun := new_job_psjf_enqueue s id t run_time priority uninit hP hfull _ l k
          hscan hl
        rw [hrun] at h
        obtain ⟨rfl, rfl⟩ := Prod.mk.inj (Option.some.inj h)
        exact Or.inl ⟨hfull, rfl, by rw [hbusy]⟩
    · have hbusy : busyTable s t = s.m_coreArr := by simp [busyTable, hP]
      by_cases hPP : s.m_type = scheme_t.PPRI
      · by_cases hne : s.m_coreArr = []
        · simp [scheduler_new_job, hfind, hPP, hne] at h
        · obtain ⟨j0, lo, w, h0, hscan, v, hv, _, _⟩ := ppriScan_full s.m_coreArr hfull hne
          by_cases hlo : priority < lo
          · have hrun := new_job_ppri_preempt s id t run_time priority uninit hPP hfull j0 v lo
              w h0 hscan hlo hv
            rw [hrun] at h
            obtain ⟨rfl, rfl⟩ := Prod.mk.inj (Option.some.inj h)
            exact Or.inr ⟨hfull, Or.inr hPP, w, v, by rw [hbusy]; exact hv, rfl, by rw [hbusy]⟩
          · have hrun := new_job_ppri_enqueue s id t run_time priority uninit hPP hfull j0 lo
              w h0 hscan hlo
            rw [hrun] at h
            obtain ⟨rfl, rfl⟩ := Prod.mk.inj (Option.some.inj h)
            exact Or.inl ⟨hfull, rfl, by rw [hbusy]⟩
      · have hrun := new_job_enqueue s id t run_time priority uninit hfull hP hPP
        rw [hrun] at h
        obtain ⟨rfl, rfl⟩ := Prod.mk.inj (Option.some.inj h)
        exact Or.inl ⟨hfull, rfl, by rw [hbusy]⟩

/-- Every successful `scheduler_job_finished` call found a job `j` on the core
and either left the core idle (empty queue) or installed the queue head. -/
theorem job_finished_cases (s s1 : sched_t) (c : Nat) (id t r : Int)
    (h : scheduler_job_finished s c id t = some (r, s1)) :
    ∃ j : job_t, s.m_coreArr[c]? = some (some j) ∧
      ((s.q.items = [] ∧ r = -1 ∧ s1 = afterCompletion s c t j) ∨
       (∃ (hd : job_t) (rest : List job_t), s.q.items = hd :: rest ∧ r = hd.pid ∧
          s1 = { afterCompletion s c t j with
            m_coreArr := (s.m_coreArr.set c none).set c
              (some (dispatched (decide (s.m_type = scheme_t.PSJF)) t hd))
            q := { s.q with items := rest } })) := by
  cases hc : s.m_coreArr[c]? with
  | none => simp [scheduler_job_finished, hc] at h
  | some o =>
    cases o with
    | none => simp [scheduler_job_finished, hc] at h
    | some j =>
      refine ⟨j, rfl, ?_⟩
      cases hq : s.q.items with
      | nil =>
        rw [job_finished_idle s c id t j hc hq] at h
        obtain ⟨rfl, rfl⟩ := Prod.mk.inj (Option.some.inj h)
        exact Or.inl ⟨rfl, rfl, rfl⟩
      | cons hd rest =>
        rw [job_finished_dispatch s c id t j hd rest hc hq] at h
        obtain ⟨rfl, rfl⟩ := Prod.mk.inj (Option.some.inj h)
        exact Or.inr ⟨hd, rest, rfl, rfl, rfl⟩

/-- Every successful `scheduler_quantum_expired` call either did nothing (empty
slot, empty queue) or installed the head `hd` of the queue `q0`, which is the
old queue on an empty slot and the old queue with the job of the slot offered
to it on an occupied one. -/
theorem quantum_expired_cases (s s1 : sched_t) (c : Nat) (t r : Int)
    (h : scheduler_quantum_expired s c t = some (r, s1)) :
    (s.m_coreArr[c]? = some none ∧ s.q.items = [] ∧ r = -1 ∧ s1 = s) ∨
    (∃ (q0 : priqueue_t) (hd : job_t) (rest : List job_t),
      ((s.m_coreArr[c]? = some none ∧ q0 = s.q) ∨
       (∃ j, s.m_coreArr[c]? = some (some j) ∧ q0 = priqueue_offer s.q j)) ∧
      q0.items = hd :: rest ∧ r = hd.pid ∧
      s1 = { s with m_coreArr := s.m_coreArr.set c (some (dispatched false t hd))
                    q := { q0 with items := rest } }) := by
  cases hc : s.m_coreArr[c]? with
  | none => simp [scheduler_quantum_expired, hc] at h
  | some o =>
    cases o with
    | none =>
      cases hq : s.q.items with
      | nil =>
        rw [quantum_expired_nothing s c t hc hq] at h
        obtain ⟨rfl, rfl⟩ := Prod.mk.inj (Option.some.inj h)
        exact Or.inl ⟨rfl, rfl, rfl, rfl⟩
      | cons hd rest =>
        rw [quantum_expired_vacant s c t hd rest hc hq] at h
        obtain ⟨rfl, rfl⟩ := Prod.mk.inj (Option.some.inj h)
        exact Or.inr ⟨s.q, hd, rest, Or.inl ⟨rfl, rfl⟩, hq, rfl, rfl⟩
    | some j =>
      cases hq : (priqueue_offer s.q j).items with
      | nil =>
        have := (priqueue_offer_perm s.q j).length_eq
        rw [hq] at this
        simp at this
      | cons hd rest =>
        rw [quantum_expired_occupied s c t j hd rest hc hq] at h
        obtain ⟨rfl, rfl⟩ := Prod.mk.inj (Option.some.inj h)
        exact Or.inr ⟨priqueue_offer s.q j, hd, rest, Or.inr ⟨j, rfl, rfl⟩, hq, rfl, rfl⟩

/-! ## Where the jobs are -/

theorem occurrences_eq (s : sched_t) (x : Int) :
    occurrences s x = slotCount s.m_coreArr x + queueCount s.q.items x := by
  simp [occurrences, heldPids, slotCount, queueCount]

theorem slotCount_cons (o : Option job_t) (arr : List (Option job_t)) (x : Int) :
    slotCount (o :: arr) x = slotHas o x + slotCount arr x := by
  cases o with
  | none => simp [slotCount, slotHas, List.reduceOption_cons_of_none]
  | some j =>
    simp only [slotCount, slotHas, List.reduceOption_cons_of_some, List.map_cons,
      List.count_cons]
    by_cases hx : j.pid = x <;> simp [hx]; omega

theorem slotCount_set (arr : List (Option job_t)) (c : Nat) (o a : Option job_t) (x : Int)
    (hc : arr[c]? = some o) :
    slotHas a x + slotCount arr x = slotHas o x + slotCount (arr.set c a) x := by
  induction arr generalizing c with
  | nil => simp at hc
  | cons b rest ih =>
    cases c with
    | zero =>
      simp at hc
      subst hc
      simp only [List.set_cons_zero, slotCount_cons]
      omega
    | succ c =>
      have := ih c (by simpa using hc)
      simp only [List.set_cons_succ, slotCount_cons]
      omega

theorem slotCount_refreshAll (time : Int) (arr : List (Option job_t)) (x : Int) :
    slotCount (psjfRefreshAll time arr) x = slotCount arr x := by
  induction arr with
  | nil => rfl
  | cons o rest ih =>
    have hcons : psjfRefreshAll time (o :: rest) =
        Option.map (psjfRefresh time) o :: psjfRefreshAll time rest := rfl
    rw [hcons, slotCount_cons, slotCount_cons, ih]
    cases o <;> rfl

theorem slotCount_busyTable (s : sched_t) (time : Int) (x : Int) :
    slotCount (busyTable s time) x = slotCount s.m_coreArr x := by
  unfold busyTable
  split
  · exact slotCount_refreshAll time _ x
  · rfl

theorem queueCount_cons (j : job_t) (l : List job_t) (x : Int) :
    queueCount (j :: l) x = slotHas (some j) x + queueCount l x := by
  simp only [queueCount, slotHas, List.map_cons, List.count_cons]
  by_cases hx : j.pid = x <;> simp [hx]; omega

theorem queueCount_offer (q : priqueue_t) (j : job_t) (x : Int) :
    queueCount (priqueue_offer q j).items x = slotHas (some j) x + queueCount q.items x := by
  rw [← queueCount_cons]
  exact ((priqueue_offer_perm q j).map job_t.pid).count_eq x

theorem resetIfJustScheduled_pid (time : Int) (v : job_t) :
    (resetIfJustScheduled time v).pid = v.pid := by
  unfold resetIfJustScheduled
  split <;> rfl

theorem idleCoreJob_pid (scheme : scheme_t) (id t run_time priority uninit : Int) :
    (idleCoreJob scheme id t run_time priority uninit).pid = id := by
  unfold idleCoreJob
  split <;> rfl

/-- A successful `scheduler_new_job(id, ...)` adds one occurrence of `id` and
changes no other count. -/
theorem new_job_occurrences (s s1 : sched_t) (id t run_time priority uninit r : Int)
    (h : scheduler_new_job s id t run_time priority uninit = some (r, s1)) (x : Int) :
    occurrences s1 x = occurrences s x + (if id = x then 1 else 0) := by
  rw [occurrences_eq, occurrences_eq]
  rcases new_job_cases s s1 id t run_time priority uninit r h with
    ⟨c, hc, _, rfl⟩ | ⟨_, _, rfl⟩ | ⟨_, _, w, v, hw, _, rfl⟩
  · have := slotCount_set s.m_coreArr c none
      (some (idleCoreJob s.m_type id t run_time priority uninit)) x hc
    simp only [slotHas, idleCoreJob_pid] at this
    simp only
    omega
  · simp only [slotCount_busyTable, queueCount_offer, slotHas]
    have : (newJobRecord id t run_time priority uninit).pid = id := rfl
    rw [this]
    omega
  · have := slotCount_set (busyTable s t) w (some v)
      (some { newJobRecord id t run_time priority uninit with responseTime := 0 }) x hw
    generalize hn : ({ newJobRecord id t run_time priority uninit with responseTime := 0 } :
      job_t) = n at this ⊢
    have hid : n.pid = id := by rw [← hn]; rfl
    simp only [slotHas, slotCount_busyTable, hid] at this
    simp only [queueCount_offer, slotHas, resetIfJustScheduled_pid]
    omega

/-- A successful `scheduler_job_finished` on the core of job `j` removes one
occurrence of `j`'s id and changes no other count. -/
theorem job_finished_occurrences (s s1 : sched_t) (c : Nat) (id t r : Int) (j : job_t)
    (hc : s.m_coreArr[c]? = some (some j))
    (h : scheduler_job_finished s c id t = some (r, s1)) (x : Int) :
    occurrences s x = occurrences s1 x + (if j.pid = x then 1 else 0) := by
  rw [occurrences_eq, occurrences_eq]
  obtain ⟨j1, hc1, hcase⟩ := job_finished_cases s s1 c id t r h
  have hj : j1 = j := by
    rw [hc] at hc1
    exact (Option.some.inj (Option.some.inj hc1)).symm
  subst hj
  rcases hcase with ⟨hq, _, rfl⟩ | ⟨hd, rest, hq, _, rfl⟩
  · have := slotCount_set s.m_coreArr c (some j1) none x hc
    simp only [slotHas] at this
    simp only [afterCompletion]
    omega
  · have := slotCount_set s.m_coreArr c (some j1)
      (some (dispatched (decide (s.m_type = scheme_t.PSJF)) t hd)) x hc
    simp only [slotHas, dispatched_pid] at this
    simp only [List.set_set, hq, queueCount_cons, slotHas]
    omega

/-- A successful `scheduler_quantum_expired` changes no count. -/
theorem quantum_expired_occurrences (s s1 : sched_t) (c : Nat) (t r : Int)
    (h : scheduler_quantum_expired s c t = some (r, s1)) (x : Int) :
    occurrences s1 x = occurrences s x := by
  rw [occurrences_eq, occurrences_eq]
  rcases quantum_expired_cases s s1 c t r h with
    ⟨_, _, _, rfl⟩ | ⟨q0, hd, rest, hsrc, hq, _, rfl⟩
  · rfl
  · rcases hsrc with ⟨hc, rfl⟩ | ⟨j, hc, rfl⟩
    · have := slotCount_set s.m_coreArr c none (some (dispatched false t hd)) x hc
      simp only [slotHas, dispatched_pid] at this
      have hq1 := queueCount_cons hd rest x
      rw [← hq] at hq1
      simp only [slotHas] at hq1
      simp only
      omega
    · have := slotCount_set s.m_coreArr c (some j) (some (dispatched false t hd)) x hc
      simp only [slotHas, dispatched_pid] at this
      have hq1 := queueCount_cons hd rest x
      rw [← hq, queueCount_offer] at hq1
      simp only [slotHas] at hq1
      simp only
      omega

theorem slotCount_replicate_none (n : Nat) (x : Int) :
    slotCount (List.replicate n none) x = 0 := by
  induction n with
  | zero => rfl
  | succ n ih => rw [List.replicate_succ, slotCount_cons, ih]; rfl

theorem start_up_queue_empty (cores : Nat) (scheme : scheme_t) :
    (scheduler_start_up cores scheme).q.items = [] := by
  cases scheme <;> rfl

theorem occurrences_start_up (cores : Nat) (scheme : scheme_t) (x : Int) :
    occurrences (scheduler_start_up cores scheme) x = 0 := by
  rw [occurrences_eq, start_up_queue_empty]
  exact slotCount_replicate_none cores x

theorem occurrences_pos_of_slot (s : sched_t) (c : Nat) (j : job_t)
    (hc : s.m_coreArr[c]? = some (some j)) : 1 ≤ occurrences s j.pid := by
  rw [occurrences_eq]
  have := slotCount_set s.m_coreArr c (some j) none j.pid hc
  simp only [slotHas, if_true] at this
  omega

/-- In a state reached by calls the contract allows, an id occurs once in the
core slots and the queue together if it was announced and has not finished, and
does not occur otherwise; and only announced ids have finished. -/
theorem occurrences_reach (cores : Nat) (scheme : scheme_t) (h : List Event) (s : sched_t)
    (hr : Reach specAllows cores scheme h s) :
    (∀ x : Int, occurrences s x = if x ∈ announced h ∧ x ∉ finished h then 1 else 0) ∧
    (∀ x : Int, x ∈ finished h → x ∈ announced h) := by
  induction hr with
  | start => simp [occurrences_start_up, announced, finished]
  | @step h s s1 e r _ hok hdel ih =>
    obtain ⟨ih, hsub⟩ := ih
    cases e with
    | new_job id t rt pri u =>
      have hfresh : id ∉ announced h := hok
      have hnotfin : id ∉ finished h := fun hf => hfresh (hsub id hf)
      refine ⟨fun x => ?_, fun x hx => List.mem_cons_of_mem _ (hsub x hx)⟩
      have hstep := new_job_occurrences s s1 id t rt pri u r hdel x
      rw [hstep, ih]
      by_cases hx : id = x
      · subst hx
        simp [announced, finished, hfresh, hnotfin]
      · have hx1 : ¬ x = id := fun he => hx he.symm
        simp [announced, finished, hx, hx1]
    | job_finished c id t =>
      obtain ⟨j, hc, hid⟩ := hok
      have hann : id ∈ announced h := by
        have hpos := occurrences_pos_of_slot s c j hc
        rw [hid, ih] at hpos
        by_cases hcond : id ∈ announced h ∧ id ∉ finished h
        · exact hcond.1
        · rw [if_neg hcond] at hpos
          omega
      refine ⟨fun x => ?_, fun x hx => ?_⟩
      · have hstep := job_finished_occurrences s s1 c id t r j hc hdel x
        rw [ih, hid] at hstep
        by_cases hx : id = x
        · subst hx
          rw [if_pos rfl] at hstep
          have hzero : occurrences s1 id = 0 := by
            by_cases hcond : id ∈ announced h ∧ id ∉ finished h
            · rw [if_pos hcond] at hstep
              omega
            · rw [if_neg hcond] at hstep
              omega
          simp [announced, finished, hzero]
        · have hx1 : ¬ x = id := fun he => hx he.symm
          simp only [hx, if_false, Nat.add_zero] at hstep
          rw [← hstep]
          simp [announced, finished, hx1]
      · rcases List.mem_cons.mp hx with he | hm
        · rw [he]; exact hann
        · exact hsub x hm
    | quantum_expired c t =>
      refine ⟨fun x => ?_, hsub⟩
      have hstep := quantum_expired_occurrences s s1 c t r hdel x
      rw [hstep, ih]
      simp [announced, finished]

/-- C9: in every state reached from `scheduler_start_up` by `scheduler_new_job`,
`scheduler_job_finished` and `scheduler_quantum_expired` calls with fresh job
ids and with `scheduler_job_finished` naming the job of the core, every id that
was announced and has not finished occurs exactly once in the core slots and
the ready queue taken together, and no finished id occurs in either. -/
theorem each_live_job_held_exactly_once (cores : Nat) (scheme : scheme_t) (h : List Event)
    (s : sched_t) (hr : Reach specAllows cores scheme h s) (x : Int) :
    (x ∈ announced h → x ∉ finished h → occurrences s x = 1) ∧
    (x ∈ finished h → occurrences s x = 0) := by
  have hocc := (occurrences_reach cores scheme h s hr).1 x
  constructor
  · intro ha hf
    rw [hocc, if_pos ⟨ha, hf⟩]
  · intro hf
    rw [hocc, if_neg (fun hc => hc.2 hf)]

/-- C9 on a concrete run: one FCFS core, job 1 arrives, job 2 arrives and is
queued, job 1 finishes and job 2 takes the core. Job 2 is then held once and job
1 nowhere. -/
theorem each_live_job_held_exactly_once_witness :
    occurrences
      { scheduler_start_up 1 scheme_t.FCFS with
        m_coreArr := [some (dispatched false 5 (newJobRecord 2 1 2 0 0))]
        m_waitingTime := 0, m_turnaroundTime := 5, m_responseTime := 0, m_numJobs := 1 } 2 = 1 ∧
    occurrences
      { scheduler_start_up 1 scheme_t.FCFS with
        m_coreArr := [some (dispatched false 5 (newJobRecord 2 1 2 0 0))]
        m_waitingTime := 0, m_turnaroundTime := 5, m_responseTime := 0, m_numJobs := 1 } 1 = 0 :=
  have hr : Reach specAllows 1 scheme_t.FCFS
      [Event.job_finished 0 1 5, Event.new_job 2 1 2 0 0, Event.new_job 1 0 5 0 0]
      { scheduler_start_up 1 scheme_t.FCFS with
        m_coreArr := [some (dispatched false 5 (newJobRecord 2 1 2 0 0))]
        m_waitingTime := 0, m_turnaroundTime := 5, m_responseTime := 0, m_numJobs := 1 } :=
    Reach.step (r := 2)
      (Reach.step (r := -1)
        (Reach.step (r := 0) Reach.start (by simp [specAllows, announced]) rfl)
        (by simp [specAllows, announced]) rfl)
      ⟨idleCoreJob scheme_t.FCFS 1 0 5 0 0, rfl, rfl⟩ rfl
  ⟨(each_live_job_held_exactly_once 1 scheme_t.FCFS _ _ hr 2).1 (by simp [announced])
      (by simp [finished]),
   (each_live_job_held_exactly_once 1 scheme_t.FCFS _ _ hr 1).2 (by simp [finished])⟩

/-! ## Response times -/

theorem respSet_mono (now now1 : Int) (j : job_t) (hle : now ≤ now1) (h : respSet now j) :
    respSet now1 j := ⟨h.1, by have := h.2; omega⟩

theorem respQueued_mono (now now1 : Int) (j : job_t) (hle : now ≤ now1)
    (h : respQueued now j) : respQueued now1 j := by
  rcases h with ⟨h1, h2⟩ | h
  · exact Or.inl ⟨h1, by omega⟩
  · exact Or.inr (respSet_mono now now1 j hle h)

theorem respInv_mono (s : sched_t) (now now1 : Int) (hle : now ≤ now1) (h : respInv s now) :
    respInv s now1 :=
  ⟨fun j hj => respSet_mono now now1 j hle (h.1 j hj),
   fun j hj => respQueued_mono now now1 j hle (h.2 j hj)⟩

theorem respSet_idleCoreJob (scheme : scheme_t) (id t run_time priority uninit : Int) :
    respSet t (idleCoreJob scheme id t run_time priority uninit) := by
  unfold idleCoreJob respSet
  split <;> simp [newJobRecord]

theorem respSet_dispatched (psjf : Bool) (t : Int) (hd : job_t) (h : respQueued t hd) :
    respSet t (dispatched psjf t hd) := by
  unfold respSet
  rcases h with ⟨h1, h2⟩ | h
  · rw [dispatched_responseTime_unset psjf t hd h1, dispatched_arrivalTime]
    omega
  · have hne : hd.responseTime ≠ -1 := by have := h.1; omega
    rw [dispatched_responseTime_set psjf t hd hne, dispatched_arrivalTime]
    exact h

theorem respQueued_reset (t : Int) (v : job_t) (h : respSet t v) :
    respQueued t (resetIfJustScheduled t v) := by
  unfold resetIfJustScheduled
  split
  · next heq =>
    refine Or.inl ⟨rfl, ?_⟩
    have := h.1
    show v.arrivalTime ≤ t
    omega
  · exact Or.inr h

theorem mem_busyTable (s : sched_t) (t : Int) (j : job_t) (hj : some j ∈ busyTable s t) :
    ∃ j0, some j0 ∈ s.m_coreArr ∧ j.responseTime = j0.responseTime ∧
      j.arrivalTime = j0.arrivalTime := by
  unfold busyTable at hj
  split at hj
  · simp only [psjfRefreshAll, List.mem_map] at hj
    obtain ⟨o, ho, hoj⟩ := hj
    cases o with
    | none => simp at hoj
    | some j0 =>
      simp only [Option.map_some', Option.some.injEq] at hoj
      subst hoj
      exact ⟨j0, ho, rfl, rfl⟩
  · exact ⟨j, hj, rfl, rfl⟩

theorem respSet_busyTable (s : sched_t) (t : Int) (hinv : respInv s t) (j : job_t)
    (hj : some j ∈ busyTable s t) : respSet t j := by
  obtain ⟨j0, h0, hr, ha⟩ := mem_busyTable s t j hj
  have := hinv.1 j0 h0
  unfold respSet at this ⊢
  rw [hr, ha]
  exact this

/-- `scheduler_new_job` at tick `t` keeps the response-time invariant of
tick `t`. -/
theorem new_job_respInv (s s1 : sched_t) (id t run_time priority uninit r : Int)
    (h : scheduler_new_job s id t run_time priority uninit = some (r, s1))
    (hinv : respInv s t) : respInv s1 t := by
  have hnew : respQueued t (newJobRecord id t run_time priority uninit) :=
    Or.inl ⟨rfl, le_refl _⟩
  have hnew0 : respSet t { newJobRecord id t run_time priority uninit with responseTime := 0 } :=
    ⟨le_refl _, by show (0 : Int) ≤ t - t; omega⟩
  rcases new_job_cases s s1 id t run_time priority uninit r h with
    ⟨c, _, _, rfl⟩ | ⟨_, _, rfl⟩ | ⟨_, _, w, v, hw, _, rfl⟩
  · refine ⟨fun j hj => ?_, hinv.2⟩
    rcases List.mem_or_eq_of_mem_set hj with hm | he
    · exact hinv.1 j hm
    · rw [Option.some.inj he]
      exact respSet_idleCoreJob _ _ _ _ _ _
  · refine ⟨fun j hj => respSet_busyTable s t hinv j hj, fun j hj => ?_⟩
    rcases List.mem_cons.mp ((priqueue_offer_perm _ _).mem_iff.mp hj) with he | hm
    · rw [he]; exact hnew
    · exact hinv.2 j hm
  · refine ⟨fun j hj => ?_, fun j hj => ?_⟩
    · rcases List.mem_or_eq_of_mem_set hj with hm | he
      · exact respSet_busyTable s t hinv j hm
      · rw [Option.some.inj he]
        exact hnew0
    · rcases List.mem_cons.mp ((priqueue_offer_perm _ _).mem_iff.mp hj) with he | hm
      · rw [he]
        exact respQueued_reset t v
          (respSet_busyTable s t hinv v (List.mem_iff_getElem?.mpr ⟨w, hw⟩))
      · exact hinv.2 j hm

/-- `scheduler_job_finished` at tick `t` keeps the response-time invariant of
tick `t`. -/
theorem job_finished_respInv (s s1 : sched_t) (c : Nat) (id t r : Int)
    (h : scheduler_job_finished s c id t = some (r, s1))
    (hinv : respInv s t) : respInv s1 t := by
  obtain ⟨j, _, hcase⟩ := job_finished_cases s s1 c id t r h
  rcases hcase with ⟨_, _, rfl⟩ | ⟨hd, rest, hq, _, rfl⟩
  · refine ⟨fun x hx => ?_, hinv.2⟩
    rcases List.mem_or_eq_of_mem_set hx with hm | he
    · exact hinv.1 x hm
    · cases he
  · refine ⟨fun x hx => ?_, fun x hx => ?_⟩
    · simp only [List.set_set] at hx
      rcases List.mem_or_eq_of_mem_set hx with hm | he
      · exact hinv.1 x hm
      · rw [Option.some.inj he]
        exact respSet_dispatched _ t hd (hinv.2 hd (by rw [hq]; exact List.mem_cons_self _ _))
    · exact hinv.2 x (by rw [hq]; exact List.mem_cons_of_mem _ hx)

/-- `scheduler_quantum_expired` at tick `t` keeps the response-time invariant
of tick `t`. -/
theorem quantum_expired_respInv (s s1 : sched_t) (c : Nat) (t r : Int)
    (h : scheduler_quantum_expired s c t = some (r, s1))
    (hinv : respInv s t) : respInv s1 t := by
  rcases quantum_expired_cases s s1 c t r h with
    ⟨_, _, _, rfl⟩ | ⟨q0, hd, rest, hsrc, hq, _, rfl⟩
  · exact hinv
  · have hq0 : ∀ x ∈ q0.items, respQueued t x := by
      rcases hsrc with ⟨_, rfl⟩ | ⟨j, hc, rfl⟩
      · exact hinv.2
      · intro x hx
        rcases List.mem_cons.mp ((priqueue_offer_perm _ _).mem_iff.mp hx) with he | hm
        · rw [he]
          exact Or.inr (hinv.1 j (List.mem_iff_getElem?.mpr ⟨c, hc⟩))
        · exact hinv.2 x hm
    refine ⟨fun x hx => ?_, fun x hx => ?_⟩
    · rcases List.mem_or_eq_of_mem_set hx with hm | he
      · exact hinv.1 x hm
      · rw [Option.some.inj he]
        exact respSet_dispatched _ t hd (hq0 hd (by rw [hq]; exact List.mem_cons_self _ _))
    · exact hq0 x (by rw [hq]; exact List.mem_cons_of_mem _ hx)

theorem respInv_start_up (cores : Nat) (scheme : scheme_t) (now : Int) :
    respInv (scheduler_start_up cores scheme) now := by
  constructor
  · intro j hj
    have : (some j : Option job_t) = none := List.eq_of_mem_replicate hj
    cases this
  · intro j hj
    rw [start_up_queue_empty] at hj
    cases hj

/-- In a state reached by events with non-decreasing ticks, the response-time
invariant holds at every tick from the latest event on. -/
theorem respInv_reach (cores : Nat) (scheme : scheme_t) (h : List Event) (s : sched_t)
    (hr : Reach inTickOrder cores scheme h s) :
    ∀ now : Int, (∀ e ∈ h, e.time ≤ now) → respInv s now := by
  induction hr with
  | start => exact fun now _ => respInv_start_up cores scheme now
  | @step h s s1 e r _ hok hdel ih =>
    intro now hnow
    have hpre : respInv s e.time := ih e.time hok
    have hle : e.time ≤ now := hnow e (List.mem_cons_self _ _)
    refine respInv_mono s1 e.time now hle ?_
    cases e with
    | new_job id t rt pri u => exact new_job_respInv s s1 id t rt pri u r hdel hpre
    | job_finished c id t => exact job_finished_respInv s s1 c id t r hdel hpre
    | quantum_expired c t => exact quantum_expired_respInv s s1 c t r hdel hpre

theorem exists_tick_bound (h : List Event) : ∃ now : Int, ∀ e ∈ h, e.time ≤ now := by
  induction h with
  | nil => exact ⟨0, fun e he => absurd he (List.not_mem_nil _)⟩
  | cons a rest ih =>
    obtain ⟨now, hnow⟩ := ih
    refine ⟨max a.time now, fun e he => ?_⟩
    rcases List.mem_cons.mp he with h1 | h1
    · rw [h1]; exact le_max_left _ _
    · exact le_trans (hnow e h1) (le_max_right _ _)

/-- C10: in every state reached from `scheduler_start_up`, under every scheme,
by events with non-decreasing ticks, no job held in a core slot has response
time -1; and a `scheduler_job_finished(c, id, t)` call at a tick `t` not before
the earlier events, on a core holding job `j`, returns and adds to the response
sum the value `j.responseTime`, which satisfies
`0 ≤ j.responseTime ≤ t - j.arrivalTime`. -/
theorem folded_response_time_within_bounds (cores : Nat) (scheme : scheme_t) (h : List Event)
    (s : sched_t) (hr : Reach inTickOrder cores scheme h s) :
    (∀ j, some j ∈ s.m_coreArr → j.responseTime ≠ -1) ∧
    (∀ (c : Nat) (id t : Int) (j : job_t),
      (∀ e ∈ h, e.time ≤ t) → s.m_coreArr[c]? = some (some j) →
      ∃ (r : Int) (s1 : sched_t), scheduler_job_finished s c id t = some (r, s1) ∧
        s1.m_responseTime = s.m_responseTime + j.responseTime ∧
        0 ≤ j.responseTime ∧ j.responseTime ≤ t - j.arrivalTime) := by
  constructor
  · intro j hj
    obtain ⟨now, hnow⟩ := exists_tick_bound h
    have := ((respInv_reach cores scheme h s hr now hnow).1 j hj).1
    omega
  · intro c id t j ht hc
    obtain ⟨r, s1, hrun, hcnt⟩ := job_finished_counters s c id t j hc
    simp only [counters, afterCompletion, Prod.mk.injEq] at hcnt
    have hset := (respInv_reach cores scheme h s hr t ht).1 j (List.mem_iff_getElem?.mpr ⟨c, hc⟩)
    exact ⟨r, s1, hrun, hcnt.2.2.1, hset.1, hset.2⟩

/-- C10 on the spec's first scenario: one FCFS core, job 1 arrives at 0, job 2
arrives at 1 and waits, job 1 finishes at 5 and job 2 is dispatched; job 2 then
finishes at 7 with a response time within bounds. -/
theorem folded_response_time_within_bounds_witness :
    ∃ (r : Int) (s1 : sched_t),
      scheduler_job_finished
        { scheduler_start_up 1 scheme_t.FCFS with
          m_coreArr := [some (dispatched false 5 (newJobRecord 2 1 2 0 0))]
          m_waitingTime := 0, m_turnaroundTime := 5, m_responseTime := 0, m_numJobs := 1 }
        0 2 7 = some (r, s1) ∧
      s1.m_responseTime = 0 + (dispatched false 5 (newJobRecord 2 1 2 0 0)).responseTime ∧
      0 ≤ (dispatched false 5 (newJobRecord 2 1 2 0 0)).responseTime ∧
      (dispatched false 5 (newJobRecord 2 1 2 0 0)).responseTime
        ≤ 7 - (dispatched false 5 (newJobRecord 2 1 2 0 0)).arrivalTime :=
  have hr : Reach inTickOrder 1 scheme_t.FCFS
      [Event.job_finished 0 1 5, Event.new_job 2 1 2 0 0, Event.new_job 1 0 5 0 0]
      { scheduler_start_up 1 scheme_t.FCFS with
        m_coreArr := [some (dispatched false 5 (newJobRecord 2 1 2 0 0))]
        m_waitingTime := 0, m_turnaroundTime := 5, m_responseTime := 0, m_numJobs := 1 } :=
    Reach.step (r := 2)
      (Reach.step (r := -1)
        (Reach.step (r := 0) Reach.start (by simp [inTickOrder]) rfl)
        (by simp [inTickOrder, Event.time]) rfl)
      (by simp [inTickOrder, Event.time]) rfl
  (folded_response_time_within_bounds 1 scheme_t.FCFS _ _ hr).2 0 2 7
    (dispatched false 5 (newJobRecord 2 1 2 0 0)) (by simp [Event.time]) rfl

/-! ## Averages -/

theorem sameJob_dispatched (psjf : Bool) (t : Int) (h : job_t) :
    sameJob h (dispatched psjf t h) := by
  unfold dispatched setResponseIfUnset sameJob
  split <;> split <;> exact ⟨rfl, rfl, rfl, rfl⟩

theorem sameJob_reset (t : Int) (v : job_t) : sameJob v (resetIfJustScheduled t v) := by
  unfold resetIfJustScheduled sameJob
  split <;> exact ⟨rfl, rfl, rfl, rfl⟩

theorem sameJob_idleCoreJob (scheme : scheme_t) (id t run_time priority uninit : Int) :
    sameJob (newJobRecord id t run_time priority uninit)
      (idleCoreJob scheme id t run_time priority uninit) := by
  unfold idleCoreJob sameJob
  split <;> exact ⟨rfl, rfl, rfl, rfl⟩

theorem sameJob_busyTable (s : sched_t) (t : Int) (j : job_t) (hj : some j ∈ busyTable s t) :
    ∃ j0, some j0 ∈ s.m_coreArr ∧ sameJob j0 j := by
  unfold busyTable at hj
  split at hj
  · simp only [psjfRefreshAll, List.mem_map] at hj
    obtain ⟨o, ho, hoj⟩ := hj
    cases o with
    | none => simp at hoj
    | some j0 =>
      simp only [Option.map_some', Option.some.injEq] at hoj
      subst hoj
      exact ⟨j0, ho, rfl, rfl, rfl, rfl⟩
  · exact ⟨j, hj, rfl, rfl, rfl, rfl⟩

/-- A property of jobs that only depends on the fields fixed at creation is
kept by every successful call, provided the record a `scheduler_new_job` call
creates has it. -/
theorem allHeld_deliver (P : job_t → Prop) (hP : ∀ a b, sameJob a b → P a → P b)
    (s s1 : sched_t) (e : Event) (r : Int) (hdel : e.deliver s = some (r, s1))
    (hnew : ∀ id t rt pri u, e = Event.new_job id t rt pri u → P (newJobRecord id t rt pri u))
    (hinv : allHeld P s) : allHeld P s1 := by
  cases e with
  | new_job id t rt pri u =>
    have hrec := hnew id t rt pri u rfl
    rcases new_job_cases s s1 id t rt pri u r hdel with
      ⟨c, _, _, rfl⟩ | ⟨_, _, rfl⟩ | ⟨_, _, w, v, hw, _, rfl⟩
    · refine ⟨fun j hj => ?_, hinv.2⟩
      rcases List.mem_or_eq_of_mem_set hj with hm | he
      · exact hinv.1 j hm
      · rw [Option.some.inj he]
        exact hP _ _ (sameJob_idleCoreJob _ _ _ _ _ _) hrec
    · refine ⟨fun j hj => ?_, fun j hj => ?_⟩
      · obtain ⟨j0, h0, hs⟩ := sameJob_busyTable s t j hj
        exact hP _ _ hs (hinv.1 j0 h0)
      · rcases List.mem_cons.mp ((priqueue_offer_perm _ _).mem_iff.mp hj) with he | hm
        · rw [he]; exact hrec
        · exact hinv.2 j hm
    · have hbusy : ∀ j, some j ∈ busyTable s t → P j := by
        intro j hj
        obtain ⟨j0, h0, hs⟩ := sameJob_busyTable s t j hj
        exact hP _ _ hs (hinv.1 j0 h0)
      refine ⟨fun j hj => ?_, fun j hj => ?_⟩
      · rcases List.mem_or_eq_of_mem_set hj with hm | he
        · exact hbusy j hm
        · rw [Option.some.inj he]
          exact hP (newJobRecord id t rt pri u) _ ⟨rfl, rfl, rfl, rfl⟩ hrec
      · rcases List.mem_cons.mp ((priqueue_offer_perm _ _).mem_iff.mp hj) with he | hm
        · rw [he]
          exact hP _ _ (sameJob_reset t v) (hbusy v (List.mem_iff_getElem?.mpr ⟨w, hw⟩))
        · exact hinv.2 j hm
  | job_finished c id t =>
    obtain ⟨j, _, hcase⟩ := job_finished_cases s s1 c id t r hdel
    rcases hcase with ⟨_, _, rfl⟩ | ⟨hd, rest, hq, _, rfl⟩
    · refine ⟨fun x hx => ?_, hinv.2⟩
      rcases List.mem_or_eq_of_mem_set hx with hm | he
      · exact hinv.1 x hm
      · cases he
    · refine ⟨fun x hx => ?_, fun x hx => ?_⟩
      · simp only [List.set_set] at hx
        rcases List.mem_or_eq_of_mem_set hx with hm | he
        · exact hinv.1 x hm
        · rw [Option.some.inj he]
          exact hP _ _ (sameJob_dispatched _ t hd)
            (hinv.2 hd (by rw [hq]; exact List.mem_cons_self _ _))
      · exact hinv.2 x (by rw [hq]; exact List.mem_cons_of_mem _ hx)
  | quantum_expired c t =>
    rcases quantum_expired_cases s s1 c t r hdel with
      ⟨_, _, _, rfl⟩ | ⟨q0, hd, rest, hsrc, hq, _, rfl⟩
    · exact hinv
    · have hq0 : ∀ x ∈ q0.items, P x := by
        rcases hsrc with ⟨_, rfl⟩ | ⟨j, hc, rfl⟩
        · exact hinv.2
        · intro x hx
          rcases List.mem_cons.mp ((priqueue_offer_perm _ _).mem_iff.mp hx) with he | hm
          · rw [he]
            exact hinv.1 j (List.mem_iff_getElem?.mpr ⟨c, hc⟩)
          · exact hinv.2 x hm
      refine ⟨fun x hx => ?_, fun x hx => ?_⟩
      · rcases List.mem_or_eq_of_mem_set hx with hm | he
        · exact hinv.1 x hm
        · rw [Option.some.inj he]
          exact hP _ _ (sameJob_dispatched _ t hd)
            (hq0 hd (by rw [hq]; exact List.mem_cons_self _ _))
      · exact hq0 x (by rw [hq]; exact List.mem_cons_of_mem _ hx)

theorem allHeld_start_up (P : job_t → Prop) (cores : Nat) (scheme : scheme_t) :
    allHeld P (scheduler_start_up cores scheme) := by
  constructor
  · intro j hj
    have : (some j : Option job_t) = none := List.eq_of_mem_replicate hj
    cases this
  · intro j hj
    rw [start_up_queue_empty] at hj
    cases hj

theorem mem_heldJobs (s : sched_t) (j : job_t) :
    j ∈ heldJobs s ↔ some j ∈ s.m_coreArr ∨ j ∈ s.q.items := by
  simp [heldJobs, List.reduceOption_mem_iff]

theorem heldPids_eq (s : sched_t) : heldPids s = (heldJobs s).map job_t.pid := rfl

theorem busyTable_getElem? (s : sched_t) (t : Int) (w : Nat) (j : job_t)
    (hw : s.m_coreArr[w]? = some (some j)) :
    (busyTable s t)[w]? =
      some (some (if s.m_type = scheme_t.PSJF then psjfRefresh t j else j)) := by
  unfold busyTable
  split
  · exact psjfRefreshAll_getElem? t _ w j hw
  · exact hw

/-- Where a job of the core table after a busy-path `scheduler_new_job` comes
from: it is a job of the old table, unchanged outside PSJF and refreshed to the
tick under PSJF. -/
theorem busyTable_origin (s : sched_t) (t : Int) (j1 : job_t) (hj : some j1 ∈ busyTable s t) :
    ∃ j0, some j0 ∈ s.m_coreArr ∧
      j1 = (if s.m_type = scheme_t.PSJF then psjfRefresh t j0 else j0) := by
  unfold busyTable at hj
  split at hj
  · next hP =>
    simp only [psjfRefreshAll, List.mem_map] at hj
    obtain ⟨o, ho, hoj⟩ := hj
    cases o with
    | none => simp at hoj
    | some j0 =>
      simp only [Option.map_some', Option.some.injEq] at hoj
      exact ⟨j0, ho, by rw [if_pos hP]; exact hoj.symm⟩
  · next hP => exact ⟨j1, hj, by rw [if_neg hP]⟩

theorem busyTable_getElem?_inv (s : sched_t) (t : Int) (w : Nat) (v : job_t)
    (hw : (busyTable s t)[w]? = some (some v)) :
    ∃ j0, s.m_coreArr[w]? = some (some j0) ∧
      v = (if s.m_type = scheme_t.PSJF then psjfRefresh t j0 else j0) := by
  unfold busyTable at hw
  split at hw
  · next hP =>
    simp only [psjfRefreshAll, List.getElem?_map] at hw
    cases hget : s.m_coreArr[w]? with
    | none => simp [hget] at hw
    | some o =>
      cases o with
      | none => simp [hget] at hw
      | some j0 =>
        simp only [hget, Option.map_some', Option.some.injEq] at hw
        exact ⟨j0, rfl, by rw [if_pos hP]; exact hw.symm⟩
  · next hP => exact ⟨v, hw, by rw [if_neg hP]⟩

theorem dispatched_response_cases (psjf : Bool) (t : Int) (hd : job_t) (P : Prop) :
    (dispatched psjf t hd).responseTime = hd.responseTime ∨ hd.responseTime = -1 ∨ P := by
  by_cases hu : hd.responseTime = -1
  · exact Or.inr (Or.inl hu)
  · exact Or.inl (dispatched_responseTime_set psjf t hd hu)

theorem refreshed_or_not_sameJob (b : Prop) [Decidable b] (t : Int) (j : job_t) :
    sameJob j (if b then psjfRefresh t j else j) ∧
    (if b then psjfRefresh t j else j).responseTime = j.responseTime := by
  split <;> exact ⟨⟨rfl, rfl, rfl, rfl⟩, rfl⟩

/-- Where the jobs held after a successful call come from. Each is either the
record a `scheduler_new_job` call has just created, or descends from a job `j0`
held before, with the same identity and a response time that is `j0`'s, or was
unset in `j0`, or has been reset in the victim of a preemption at its first
tick. -/
theorem held_origin (s s1 : sched_t) (e : Event) (r : Int)
    (hdel : e.deliver s = some (r, s1)) (j1 : job_t) (h1 : j1 ∈ heldJobs s1) :
    createdBy e j1 ∨
    ∃ j0 ∈ heldJobs s, sameJob j0 j1 ∧
      (j1.responseTime = j0.responseTime ∨ j0.responseTime = -1 ∨
       (preemptedAtFirstTick s e r j0 ∧ j1.responseTime = -1)) := by
  rw [mem_heldJobs] at h1
  cases e with
  | new_job id t rt pri u =>
    rcases new_job_cases s s1 id t rt pri u r hdel with
      ⟨c, _, _, rfl⟩ | ⟨_, _, rfl⟩ | ⟨hfull, hty, w, v, hw, hr, rfl⟩
    · rcases h1 with h1 | h1
      · rcases List.mem_or_eq_of_mem_set h1 with hm | he
        · exact Or.inr ⟨j1, (mem_heldJobs s j1).mpr (Or.inl hm), ⟨rfl, rfl, rfl, rfl⟩,
            Or.inl rfl⟩
        · rw [Option.some.inj he]
          refine Or.inl ⟨id, t, rt, pri, u, rfl, sameJob_idleCoreJob _ _ _ _ _ _, ?_⟩
          unfold idleCoreJob
          split <;> rfl
      · exact Or.inr ⟨j1, (mem_heldJobs s j1).mpr (Or.inr h1), ⟨rfl, rfl, rfl, rfl⟩,
          Or.inl rfl⟩
    · rcases h1 with h1 | h1
      · obtain ⟨j0, h0, rfl⟩ := busyTable_origin s t j1 h1
        have := refreshed_or_not_sameJob (s.m_type = scheme_t.PSJF) t j0
        exact Or.inr ⟨j0, (mem_heldJobs s j0).mpr (Or.inl h0), this.1, Or.inl this.2⟩
      · rcases List.mem_cons.mp ((priqueue_offer_perm _ _).mem_iff.mp h1) with he | hm
        · rw [he]
          exact Or.inl ⟨id, t, rt, pri, u, rfl, ⟨rfl, rfl, rfl, rfl⟩, rfl⟩
        · exact Or.inr ⟨j1, (mem_heldJobs s j1).mpr (Or.inr hm), ⟨rfl, rfl, rfl, rfl⟩,
            Or.inl rfl⟩
    · rcases h1 with h1 | h1
      · rcases List.mem_or_eq_of_mem_set h1 with hm | he
        · obtain ⟨j0, h0, rfl⟩ := busyTable_origin s t j1 hm
          have := refreshed_or_not_sameJob (s.m_type = scheme_t.PSJF) t j0
          exact Or.inr ⟨j0, (mem_heldJobs s j0).mpr (Or.inl h0), this.1, Or.inl this.2⟩
        · rw [Option.some.inj he]
          exact Or.inl ⟨id, t, rt, pri, u, rfl, ⟨rfl, rfl, rfl, rfl⟩, rfl⟩
      · rcases List.mem_cons.mp ((priqueue_offer_perm _ _).mem_iff.mp h1) with he | hm
        · obtain ⟨j0, hk, hv⟩ := busyTable_getElem?_inv s t w v hw
          have h0 : some j0 ∈ s.m_coreArr := List.mem_iff_getElem?.mpr ⟨w, hk⟩
          have hsame := refreshed_or_not_sameJob (s.m_type = scheme_t.PSJF) t j0
          rw [← hv] at hsame
          have hsr := sameJob_reset t v
          refine Or.inr ⟨j0, (mem_heldJobs s j0).mpr (Or.inl h0), ?_, ?_⟩
          · rw [he]
            exact ⟨hsame.1.1.trans hsr.1, hsame.1.2.1.trans hsr.2.1,
              hsame.1.2.2.1.trans hsr.2.2.1, hsame.1.2.2.2.trans hsr.2.2.2⟩
          · rw [he]
            unfold resetIfJustScheduled
            split
            · next heq =>
              refine Or.inr (Or.inr ⟨⟨id, t, rt, pri, u, w, rfl, hty, hfull, hr, hk, ?_⟩, rfl⟩)
              have h2 := hsame.2
              have h3 := hsame.1.2.1
              omega
            · exact Or.inl hsame.2
        · exact Or.inr ⟨j1, (mem_heldJobs s j1).mpr (Or.inr hm), ⟨rfl, rfl, rfl, rfl⟩,
            Or.inl rfl⟩
  | job_finished c id t =>
    obtain ⟨j, _, hcase⟩ := job_finished_cases s s1 c id t r hdel
    rcases hcase with ⟨_, _, rfl⟩ | ⟨hd, rest, hq, _, rfl⟩
    · rcases h1 with h1 | h1
      · rcases List.mem_or_eq_of_mem_set h1 with hm | he
        · exact Or.inr ⟨j1, (mem_heldJobs s j1).mpr (Or.inl hm), ⟨rfl, rfl, rfl, rfl⟩,
            Or.inl rfl⟩
        · cases he
      · exact Or.inr ⟨j1, (mem_heldJobs s j1).mpr (Or.inr h1), ⟨rfl, rfl, rfl, rfl⟩,
          Or.inl rfl⟩
    · rcases h1 with h1 | h1
      · simp only [List.set_set] at h1
        rcases List.mem_or_eq_of_mem_set h1 with hm | he
        · exact Or.inr ⟨j1, (mem_heldJobs s j1).mpr (Or.inl hm), ⟨rfl, rfl, rfl, rfl⟩,
            Or.inl rfl⟩
        · rw [Option.some.inj he]
          exact Or.inr ⟨hd, (mem_heldJobs s hd).mpr
            (Or.inr (by rw [hq]; exact List.mem_cons_self _ _)),
            sameJob_dispatched _ t hd, dispatched_response_cases _ t hd _⟩
      · exact Or.inr ⟨j1, (mem_heldJobs s j1).mpr
          (Or.inr (by rw [hq]; exact List.mem_cons_of_mem _ h1)), ⟨rfl, rfl, rfl, rfl⟩,
          Or.inl rfl⟩
  | quantum_expired c t =>
    rcases quantum_expired_cases s s1 c t r hdel with
      ⟨_, _, _, hs⟩ | ⟨q0, hd, rest, hsrc, hq, _, rfl⟩
    · rw [hs] at h1
      exact Or.inr ⟨j1, (mem_heldJobs s j1).mpr h1, ⟨rfl, rfl, rfl, rfl⟩, Or.inl rfl⟩
    · have hq0 : ∀ x ∈ q0.items, x ∈ heldJobs s := by
        rcases hsrc with ⟨_, rfl⟩ | ⟨j, hc, rfl⟩
        · exact fun x hx => (mem_heldJobs s x).mpr (Or.inr hx)
        · intro x hx
          rcases List.mem_cons.mp ((priqueue_offer_perm _ _).mem_iff.mp hx) with he | hm
          · rw [he]
            exact (mem_heldJobs s j).mpr (Or.inl (List.mem_iff_getElem?.mpr ⟨c, hc⟩))
          · exact (mem_heldJobs s x).mpr (Or.inr hm)
      rcases h1 with h1 | h1
      · rcases List.mem_or_eq_of_mem_set h1 with hm | he
        · exact Or.inr ⟨j1, (mem_heldJobs s j1).mpr (Or.inl hm), ⟨rfl, rfl, rfl, rfl⟩,
            Or.inl rfl⟩
        · rw [Option.some.inj he]
          exact Or.inr ⟨hd, hq0 hd (by rw [hq]; exact List.mem_cons_self _ _),
            sameJob_dispatched _ t hd, dispatched_response_cases _ t hd _⟩
      · exact Or.inr ⟨j1, hq0 j1 (by rw [hq]; exact List.mem_cons_of_mem _ h1),
          ⟨rfl, rfl, rfl, rfl⟩, Or.inl rfl⟩

/-- In a state reached by calls the contract allows, two held records with the
same id are the same record. -/
theorem held_unique_of_reach (cores : Nat) (scheme : scheme_t) (h : List Event) (s : sched_t)
    (hr : Reach specAllows cores scheme h s) :
    ∀ a ∈ heldJobs s, ∀ b ∈ heldJobs s, a.pid = b.pid → a = b := by
  have hnodup : (heldPids s).Nodup := by
    rw [List.nodup_iff_count_le_one]
    intro x
    have := (occurrences_reach cores scheme h s hr).1 x
    unfold occurrences at this
    rw [this]
    split <;> omega
  intro a ha b hb hab
  exact List.inj_on_of_nodup_map hnodup ha hb hab

/-- In a state reached by calls the contract allows, no held record carries an
id that has not been announced. -/
theorem held_announced_of_reach (cores : Nat) (scheme : scheme_t) (h : List Event)
    (s : sched_t) (hr : Reach specAllows cores scheme h s) (a : job_t)
    (ha : a ∈ heldJobs s) : a.pid ∈ announced h := by
  have hocc := (occurrences_reach cores scheme h s hr).1 a.pid
  have hpos : 0 < occurrences s a.pid := by
    unfold occurrences
    rw [List.count_pos_iff, heldPids_eq]
    exact List.mem_map_of_mem _ ha
  by_cases hcond : a.pid ∈ announced h ∧ a.pid ∉ finished h
  · exact hcond.1
  · rw [if_neg hcond] at hocc
    omega

/-- The victim of a preemption at its first tick is in the ready queue
afterwards with its response time unset. -/
theorem victim_reset_in_queue (s s1 : sched_t) (e : Event) (r : Int) (j : job_t)
    (hex : preemptedAtFirstTick s e r j) (hdel : e.deliver s = some (r, s1)) :
    ∃ v1 ∈ s1.q.items, v1.pid = j.pid ∧ v1.responseTime = -1 := by
  obtain ⟨id, t, rt, pri, u, w, rfl, _, hfull, hr, hw, hresp⟩ := hex
  rcases new_job_cases s s1 id t rt pri u r hdel with
    ⟨c, hc, _, _⟩ | ⟨_, hneg, _⟩ | ⟨_, _, w1, v, hw1, hr1, rfl⟩
  · exact absurd rfl (hfull none (List.mem_iff_getElem?.mpr ⟨c, hc⟩))
  · omega
  · have hww : w1 = w := by omega
    subst hww
    have hbusy := busyTable_getElem? s t w1 j hw
    rw [hbusy] at hw1
    have hv : v = (if s.m_type = scheme_t.PSJF then psjfRefresh t j else j) :=
      (Option.some.inj (Option.some.inj hw1)).symm
    have hsame := refreshed_or_not_sameJob (s.m_type = scheme_t.PSJF) t j
    rw [← hv] at hsame
    refine ⟨resetIfJustScheduled t v,
      (priqueue_offer_perm _ _).mem_iff.mpr (List.mem_cons_self _ _), ?_, ?_⟩
    · rw [resetIfJustScheduled_pid]
      exact hsame.1.1.symm
    · have h2 := hsame.2
      have h3 := hsame.1.2.1
      have hreset : v.responseTime = t - v.arrivalTime := by omega
      simp [resetIfJustScheduled, hreset]

/-- C11: in a state reached by calls the contract allows, let one more allowed
call be delivered. A held job whose response time is set and that is still held
afterwards keeps its response time, except when the call is a preempting
`scheduler_new_job` at tick `t` under PSJF or PPRI, the job is the victim and its
response time equals `t - arrival_time`: then, and only then, its response time
is unset afterwards. In the spec's PSJF scenario job 1 is preempted at tick 2
and keeps response time 0. -/
theorem response_time_kept_unless_preempted_at_first_tick :
    (∀ (cores : Nat) (scheme : scheme_t) (h : List Event) (s s1 : sched_t) (e : Event)
      (r : Int) (j j1 : job_t),
      Reach specAllows cores scheme h s → specAllows s h e → e.deliver s = some (r, s1) →
      j ∈ heldJobs s → j1 ∈ heldJobs s1 → j1.pid = j.pid → j.responseTime ≠ -1 →
      (preemptedAtFirstTick s e r j → j1.responseTime = -1) ∧
      (¬ preemptedAtFirstTick s e r j → j1.responseTime = j.responseTime)) ∧
    (∀ u1 u2 : Int, (runEvents (scheduler_start_up 1 scheme_t.PSJF)
      [Event.new_job 1 0 8 0 u1, Event.new_job 2 2 3 0 u2]).map
        (fun p => (heldJobs p.2).map (fun j => (j.pid, j.responseTime)))
      = some [(2, 0), (1, 0)]) := by
  refine ⟨?_, fun _ _ => rfl⟩
  intro cores scheme h s s1 e r j j1 hr hok hdel hj hj1 hpid hset
  have huniq := held_unique_of_reach cores scheme h s hr
  have huniq1 := held_unique_of_reach cores scheme (e :: h) s1 (Reach.step hr hok hdel)
  constructor
  · intro hex
    obtain ⟨v1, hv1, hvpid, hvresp⟩ := victim_reset_in_queue s s1 e r j hex hdel
    have : j1 = v1 :=
      huniq1 j1 hj1 v1 ((mem_heldJobs s1 v1).mpr (Or.inr hv1)) (hpid.trans hvpid.symm)
    rw [this]
    exact hvresp
  · intro hnex
    rcases held_origin s s1 e r hdel j1 hj1 with hnew | ⟨j0, hj0, hsame, hresp⟩
    · obtain ⟨id, t, rt, pri, u, rfl, hs, _⟩ := hnew
      have hfresh : id ∉ announced h := hok
      have hid : j.pid = id := by rw [← hpid]; exact hs.1.symm
      exact absurd (hid ▸ held_announced_of_reach cores scheme h s hr j hj) hfresh
    · have hjj : j0 = j := huniq j0 hj0 j hj (hsame.1.trans hpid)
      subst hjj
      rcases hresp with h1 | h1 | ⟨h1, _⟩
      · exact h1
      · exact absurd h1 hset
      · exact absurd h1 hnex

/-- C11 on the spec's PSJF scenario: job 1 (response time 0, arrived at 0) is
preempted at tick 2; it is not a preemption at its first tick, so the queued
record of job 1 keeps response time 0. -/
theorem response_time_kept_unless_preempted_at_first_tick_witness :
    (resetIfJustScheduled 2 (psjfRefresh 2 (idleCoreJob scheme_t.PSJF 1 0 8 0 0))).responseTime
      = (idleCoreJob scheme_t.PSJF 1 0 8 0 0).responseTime :=
  have hr : Reach specAllows 1 scheme_t.PSJF [Event.new_job 1 0 8 0 0]
      { scheduler_start_up 1 scheme_t.PSJF with
        m_coreArr := [some (idleCoreJob scheme_t.PSJF 1 0 8 0 0)] } :=
    Reach.step (r := 0) Reach.start (by simp [specAllows, announced]) rfl
  (response_time_kept_unless_preempted_at_first_tick.1 1 scheme_t.PSJF _ _
    { scheduler_start_up 1 scheme_t.PSJF with
      m_coreArr := [some { newJobRecord 2 2 3 0 0 with responseTime := 0 }]
      q := { comparer := comparer_t.SJFcompare
             items := [resetIfJustScheduled 2 (psjfRefresh 2 (idleCoreJob scheme_t.PSJF 1 0 8 0 0))] } }
    (Event.new_job 2 2 3 0 0) 0
    (idleCoreJob scheme_t.PSJF 1 0 8 0 0)
    (resetIfJustScheduled 2 (psjfRefresh 2 (idleCoreJob scheme_t.PSJF 1 0 8 0 0)))
    hr (by simp [specAllows, announced]) rfl (by simp [heldJobs]) (by simp [heldJobs]) rfl
    (by decide)).2
    (by
      rintro ⟨id, t, rt, pri, u, w, he, _, _, _, _, hresp⟩
      cases he
      revert hresp
      decide)

/-! ## What every reachable state satisfies -/

theorem reach_weaken (ok ok1 : sched_t → List Event → Event → Prop)
    (himp : ∀ s h e, ok s h e → ok1 s h e) (cores : Nat) (scheme : scheme_t)
    (h : List Event) (s : sched_t) (hr : Reach ok cores scheme h s) :
    Reach ok1 cores scheme h s := by
  induction hr with
  | start => exact Reach.start
  | step _ hok hdel ih => exact Reach.step ih (himp _ _ _ hok) hdel

theorem reach_anyEvent (ok : sched_t → List Event → Event → Prop) (cores : Nat)
    (scheme : scheme_t) (h : List Event) (s : sched_t) (hr : Reach ok cores scheme h s) :
    Reach anyEvent cores scheme h s :=
  reach_weaken ok anyEvent (fun _ _ _ _ => trivial) cores scheme h s hr

/-- No call changes the scheme or the comparator of the queue. -/
theorem deliver_frame (s s1 : sched_t) (e : Event) (r : Int)
    (hdel : e.deliver s = some (r, s1)) :
    s1.m_type = s.m_type ∧ s1.q.comparer = s.q.comparer := by
  cases e with
  | new_job id t rt pri u =>
    rcases new_job_cases s s1 id t rt pri u r hdel with
      ⟨c, _, _, rfl⟩ | ⟨_, _, rfl⟩ | ⟨_, _, w, v, _, _, rfl⟩
    · exact ⟨rfl, rfl⟩
    · exact ⟨rfl, rfl⟩
    · exact ⟨rfl, rfl⟩
  | job_finished c id t =>
    obtain ⟨j, _, hcase⟩ := job_finished_cases s s1 c id t r hdel
    rcases hcase with ⟨_, _, rfl⟩ | ⟨hd, rest, _, _, rfl⟩
    · exact ⟨rfl, rfl⟩
    · exact ⟨rfl, rfl⟩
  | quantum_expired c t =>
    rcases quantum_expired_cases s s1 c t r hdel with
      ⟨_, _, _, hs⟩ | ⟨q0, hd, rest, hsrc, _, _, rfl⟩
    · rw [hs]
      exact ⟨rfl, rfl⟩
    · rcases hsrc with ⟨_, rfl⟩ | ⟨j, _, rfl⟩
      · exact ⟨rfl, rfl⟩
      · exact ⟨rfl, rfl⟩

theorem start_up_frame (cores : Nat) (scheme : scheme_t) :
    (scheduler_start_up cores scheme).m_type = scheme ∧
    (scheduler_start_up cores scheme).q.comparer = comparerOf scheme := by
  cases scheme <;> exact ⟨rfl, rfl⟩

/-- Every reachable state carries the scheme given to `scheduler_start_up` and
the comparator installed for it. -/
theorem reach_frame (ok : sched_t → List Event → Event → Prop) (cores : Nat)
    (scheme : scheme_t) (h : List Event) (s : sched_t) (hr : Reach ok cores scheme h s) :
    s.m_type = scheme ∧ s.q.comparer = comparerOf scheme := by
  induction hr with
  | start => exact start_up_frame cores scheme
  | step _ _ hdel ih =>
    obtain ⟨h1, h2⟩ := deliver_frame _ _ _ _ hdel
    exact ⟨h1.trans ih.1, h2.trans ih.2⟩

theorem wrapInt32_of_int (x : Int) (h1 : -2147483648 ≤ x) (h2 : x ≤ 2147483647) :
    wrapInt32 x = x := by
  unfold wrapInt32
  omega

/-- On records whose priorities and arrival ticks are in half range no
subtraction of `PRIcompare` wraps, and its sign is that of the lexicographic
comparison of (priority, arrival time). -/
theorem PRIcompare_neg_iff (a b : job_t) (ha : priComparable a) (hb : priComparable b) :
    PRIcompare a b < 0 ↔
      a.priority < b.priority ∨ (a.priority = b.priority ∧ a.arrivalTime < b.arrivalTime) := by
  unfold priComparable halfRange at ha hb
  unfold PRIcompare
  simp only
  rw [wrapInt32_of_int (a.priority - b.priority) (by omega) (by omega),
    wrapInt32_of_int (a.arrivalTime - b.arrivalTime) (by omega) (by omega)]
  split <;> omega

theorem comparableFor_sameJob (c : comparer_t) (a b : job_t) (h : sameJob a b)
    (ha : comparableFor c a) : comparableFor c b := by
  intro hc
  have := ha hc
  unfold priComparable at this ⊢
  rw [← h.2.2.2, ← h.2.1]
  exact this

theorem comparer_asymm (c : comparer_t) (a b : job_t)
    (ha : comparableFor c a) (hb : comparableFor c b)
    (h : applyComparer c a b < 0) : ¬ applyComparer c b a < 0 := by
  cases c with
  | FCFScompare => simp [applyComparer, FCFScompare] at h
  | SJFcompare =>
    simp only [applyComparer, SJFcompare] at h ⊢
    omega
  | PRIcompare =>
    simp only [applyComparer, PRIcompare_neg_iff a b (ha rfl) (hb rfl),
      PRIcompare_neg_iff b a (hb rfl) (ha rfl)] at h ⊢
    omega

theorem comparer_trans (c : comparer_t) (x y z : job_t)
    (hx : comparableFor c x) (hy : comparableFor c y) (hz : comparableFor c z)
    (hxy : applyComparer c x y < 0) (hzy : ¬ applyComparer c z y < 0) :
    ¬ applyComparer c z x < 0 := by
  cases c with
  | FCFScompare => simp [applyComparer, FCFScompare] at hxy
  | SJFcompare =>
    simp only [applyComparer, SJFcompare] at hxy hzy ⊢
    omega
  | PRIcompare =>
    simp only [applyComparer, PRIcompare_neg_iff x y (hx rfl) (hy rfl),
      PRIcompare_neg_iff z y (hz rfl) (hy rfl),
      PRIcompare_neg_iff z x (hz rfl) (hx rfl)] at hxy hzy ⊢
    omega

theorem insertOrdered_sorted (c : comparer_t) (x : job_t) (l : List job_t)
    (hx : comparableFor c x) (hall : ∀ y ∈ l, comparableFor c y)
    (hl : queueSorted (applyComparer c) l) :
    queueSorted (applyComparer c) (insertOrdered (applyComparer c) x l) := by
  induction l with
  | nil => simp [insertOrdered, queueSorted]
  | cons y ys ih =>
    unfold queueSorted at hl
    rw [List.pairwise_cons] at hl
    have hy := hall y (List.mem_cons_self _ _)
    have hys : ∀ z ∈ ys, comparableFor c z := fun z hz => hall z (List.mem_cons_of_mem _ hz)
    unfold insertOrdered
    split
    · next hlt =>
      unfold queueSorted
      rw [List.pairwise_cons, List.pairwise_cons]
      refine ⟨?_, hl⟩
      intro z hz
      rcases List.mem_cons.mp hz with he | hm
      · rw [he]; exact comparer_asymm c x y hx hy hlt
      · exact comparer_trans c x y z hx hy (hys z hm) hlt (hl.1 z hm)
    · next hge =>
      unfold queueSorted
      rw [List.pairwise_cons]
      refine ⟨?_, ih hys hl.2⟩
      intro z hz
      rcases List.mem_cons.mp ((insertOrdered_perm _ x ys).mem_iff.mp hz) with he | hm
      · rw [he]; exact hge
      · exact hl.1 z hm

theorem priqueue_offer_sorted (q : priqueue_t) (x : job_t)
    (hx : comparableFor q.comparer x) (hall : ∀ y ∈ q.items, comparableFor q.comparer y)
    (hq : queueSorted (applyComparer q.comparer) q.items) :
    queueSorted (applyComparer (priqueue_offer q x).comparer) (priqueue_offer q x).items :=
  insertOrdered_sorted q.comparer x q.items hx hall hq

/-- Every call keeps the ready queue in the order of its comparator, as long as
the comparator cannot wrap on the records held and on the one created. -/
theorem deliver_sorted (s s1 : sched_t) (e : Event) (r : Int)
    (hdel : e.deliver s = some (r, s1))
    (hheld : allHeld (comparableFor s.q.comparer) s)
    (hnew : ∀ id t rt pri u, e = Event.new_job id t rt pri u →
      comparableFor s.q.comparer (newJobRecord id t rt pri u))
    (hq : queueSorted (applyComparer s.q.comparer) s.q.items) :
    queueSorted (applyComparer s1.q.comparer) s1.q.items := by
  have htail : ∀ (q0 : priqueue_t) (hd : job_t) (rest : List job_t),
      queueSorted (applyComparer q0.comparer) q0.items → q0.items = hd :: rest →
      queueSorted (applyComparer q0.comparer) rest := by
    intro q0 hd rest h0 hq0
    rw [hq0] at h0
    exact (List.pairwise_cons.mp h0).2
  cases e with
  | new_job id t rt pri u =>
    rcases new_job_cases s s1 id t rt pri u r hdel with
      ⟨c, _, _, rfl⟩ | ⟨_, _, rfl⟩ | ⟨_, _, w, v, hw, _, rfl⟩
    · exact hq
    · exact priqueue_offer_sorted _ _ (hnew id t rt pri u rfl) hheld.2 hq
    · obtain ⟨j0, h0, hv⟩ := busyTable_origin s t v (List.mem_iff_getElem?.mpr ⟨w, hw⟩)
      have hsame : sameJob j0 v := by
        rw [hv]
        split <;> exact ⟨rfl, rfl, rfl, rfl⟩
      exact priqueue_offer_sorted _ _
        (comparableFor_sameJob _ _ _ (sameJob_reset t v)
          (comparableFor_sameJob _ _ _ hsame (hheld.1 j0 h0))) hheld.2 hq
  | job_finished c id t =>
    obtain ⟨j, _, hcase⟩ := job_finished_cases s s1 c id t r hdel
    rcases hcase with ⟨_, _, rfl⟩ | ⟨hd, rest, hq1, _, rfl⟩
    · exact hq
    · exact htail s.q hd rest hq hq1
  | quantum_expired c t =>
    rcases quantum_expired_cases s s1 c t r hdel with
      ⟨_, _, _, hs⟩ | ⟨q0, hd, rest, hsrc, hq1, _, rfl⟩
    · rw [hs]; exact hq
    · rcases hsrc with ⟨_, rfl⟩ | ⟨j, hj, rfl⟩
      · exact htail s.q hd rest hq hq1
      · exact htail (priqueue_offer s.q j) hd rest
          (priqueue_offer_sorted _ _ (hheld.1 j (List.mem_iff_getElem?.mpr ⟨c, hj⟩)) hheld.2 hq)
          hq1

/-- In every state reached by events whose priorities and ticks are in half
range whenever the comparator is `PRIcompare`, the comparator cannot wrap on
the records held. -/
theorem reach_comparable (ok : sched_t → List Event → Event → Prop) (cores : Nat)
    (scheme : scheme_t) (h : List Event) (s : sched_t) (hr : Reach ok cores scheme h s)
    (hsmall : comparerOf scheme = comparer_t.PRIcompare → ∀ e ∈ h, halfRangeEvent e) :
    allHeld (comparableFor (comparerOf scheme)) s := by
  induction hr with
  | start => exact allHeld_start_up _ cores scheme
  | @step h0 s0 s1 e r hprev _ hdel ih =>
    refine allHeld_deliver _ (comparableFor_sameJob _) s0 s1 e r hdel ?_
      (ih (fun hc x hx => hsmall hc x (List.mem_cons_of_mem _ hx)))
    intro id t rt pri u he hc
    have := hsmall hc e (List.mem_cons_self _ _)
    rw [he] at this
    exact this

/-- In every such state the ready queue is in the order of its comparator.
Under FCFS, RR, SJF and PSJF the condition on the events is void. -/
theorem reach_sorted (ok : sched_t → List Event → Event → Prop) (cores : Nat)
    (scheme : scheme_t) (h : List Event) (s : sched_t) (hr : Reach ok cores scheme h s)
    (hsmall : comparerOf scheme = comparer_t.PRIcompare → ∀ e ∈ h, halfRangeEvent e) :
    queueSorted (applyComparer s.q.comparer) s.q.items := by
  induction hr with
  | start =>
    rw [start_up_queue_empty]
    exact List.Pairwise.nil
  | @step h0 s0 s1 e r hprev _ hdel ih =>
    have hs := fun hc x hx => hsmall hc x (List.mem_cons_of_mem _ hx)
    have hcmp := (reach_frame ok cores scheme h0 s0 hprev).2
    have hheld := reach_comparable ok cores scheme h0 s0 hprev hs
    rw [← hcmp] at hheld
    refine deliver_sorted s0 s1 e r hdel hheld ?_ (ih hs)
    intro id t rt pri u he hc
    rw [hcmp] at hc
    have := hsmall hc e (List.mem_cons_self _ _)
    rw [he] at this
    exact this

theorem busyTable_full (s : sched_t) (t : Int) (hfull : ∀ x ∈ s.m_coreArr, x ≠ none) :
    ∀ x ∈ busyTable s t, x ≠ none := by
  intro x hx hn
  subst hn
  unfold busyTable at hx
  split at hx
  · simp only [psjfRefreshAll, List.mem_map] at hx
    obtain ⟨o, ho, hoj⟩ := hx
    cases o with
    | none => exact hfull none ho rfl
    | some j => simp at hoj
  · exact hfull none hx rfl

/-- Every call keeps "an idle core means an empty queue". -/
theorem deliver_idleImpliesEmpty (s s1 : sched_t) (e : Event) (r : Int)
    (hdel : e.deliver s = some (r, s1)) (hinv : idleImpliesEmpty s) :
    idleImpliesEmpty s1 := by
  unfold idleImpliesEmpty at hinv ⊢
  cases e with
  | new_job id t rt pri u =>
    rcases new_job_cases s s1 id t rt pri u r hdel with
      ⟨c, hc, _, rfl⟩ | ⟨hfull, _, rfl⟩ | ⟨hfull, _, w, v, _, _, rfl⟩
    · intro _
      exact hinv (List.mem_iff_getElem?.mpr ⟨c, hc⟩)
    · intro hidle
      exact absurd rfl (busyTable_full s t hfull none hidle)
    · intro hidle
      rcases List.mem_or_eq_of_mem_set hidle with hm | he
      · exact absurd rfl (busyTable_full s t hfull none hm)
      · cases he
  | job_finished c id t =>
    obtain ⟨j, _, hcase⟩ := job_finished_cases s s1 c id t r hdel
    rcases hcase with ⟨hq, _, rfl⟩ | ⟨hd, rest, hq, _, rfl⟩
    · exact fun _ => hq
    · intro hidle
      simp only [List.set_set] at hidle
      rcases List.mem_or_eq_of_mem_set hidle with hm | he
      · have := hinv hm
        rw [hq] at this
        cases this
      · cases he
  | quantum_expired c t =>
    rcases quantum_expired_cases s s1 c t r hdel with
      ⟨_, _, _, hs⟩ | ⟨q0, hd, rest, hsrc, hq, _, rfl⟩
    · rw [hs]; exact hinv
    · intro hidle
      rcases hsrc with ⟨hc, rfl⟩ | ⟨j, _, rfl⟩
      · have := hinv (List.mem_iff_getElem?.mpr ⟨c, hc⟩)
        rw [hq] at this
        cases this
      · rcases List.mem_or_eq_of_mem_set hidle with hm | he
        · have hempty := hinv hm
          have : (priqueue_offer s.q j).items = [j] := by
            simp [priqueue_offer, hempty, insertOrdered]
          rw [this] at hq
          simp only [List.cons.injEq] at hq
          exact hq.2.symm
        · cases he

/-- C19: in every state reached from `scheduler_start_up`, for every scheme and
core count, by any `scheduler_new_job`, `scheduler_job_finished` and
`scheduler_quantum_expired` calls, an empty core slot implies an empty ready
queue. -/
theorem idle_core_implies_empty_queue (cores : Nat) (scheme : scheme_t) (h : List Event)
    (s : sched_t) (hr : Reach anyEvent cores scheme h s) (hidle : none ∈ s.m_coreArr) :
    s.q.items = [] := by
  induction hr with
  | start => exact start_up_queue_empty cores scheme
  | step _ _ hdel ih => exact deliver_idleImpliesEmpty _ _ _ _ hdel ih hidle

/-- C19 on a concrete run: two RR cores, job 1 arrives and job 1's quantum
expires; core 1 is idle and the queue is empty. -/
theorem idle_core_implies_empty_queue_witness :
    none ∈ [some (dispatched false 1 (idleCoreJob scheme_t.RR 1 0 5 0 0)), none] ∧
    ({ scheduler_start_up 2 scheme_t.RR with
        m_coreArr := [some (dispatched false 1 (idleCoreJob scheme_t.RR 1 0 5 0 0)), none]
        q := { comparer := comparer_t.FCFScompare, items := [] } } : sched_t).q.items = [] :=
  ⟨by decide,
   idle_core_implies_empty_queue 2 scheme_t.RR
    [Event.quantum_expired 0 1, Event.new_job 1 0 5 0 0]
    { scheduler_start_up 2 scheme_t.RR with
      m_coreArr := [some (dispatched false 1 (idleCoreJob scheme_t.RR 1 0 5 0 0)), none]
      q := { comparer := comparer_t.FCFScompare, items := [] } }
    (Reach.step (r := 1) (Reach.step (r := 0) Reach.start trivial rfl) trivial rfl)
    (by decide)⟩

/-! ## How a record changes over one call -/

/-- Every record held after a successful call was created by the call or
descends from a record held before it. -/
theorem held_descent (s s1 : sched_t) (e : Event) (r : Int)
    (hdel : e.deliver s = some (r, s1)) (j1 : job_t) (h1 : j1 ∈ heldJobs s1) :
    created s e j1 ∨ ∃ j0 ∈ heldJobs s, descends s e j0 j1 := by
  rw [mem_heldJobs] at h1
  have keep : ∀ j : job_t, (some j ∈ s.m_coreArr ∨ j ∈ s.q.items) →
      created s e j ∨ ∃ j0 ∈ heldJobs s, descends s e j0 j :=
    fun j hj => Or.inr ⟨j, (mem_heldJobs s j).mpr hj, Or.inl rfl⟩
  cases e with
  | new_job id t rt pri u =>
    have busy : ∀ j : job_t, (∀ x ∈ s.m_coreArr, x ≠ none) → some j ∈ busyTable s t →
        created s (Event.new_job id t rt pri u) j ∨
        ∃ j0 ∈ heldJobs s, descends s (Event.new_job id t rt pri u) j0 j := by
      intro j hfull hj
      obtain ⟨j0, h0, hv⟩ := busyTable_origin s t j hj
      exact Or.inr ⟨j0, (mem_heldJobs s j0).mpr (Or.inl h0),
        Or.inr (Or.inl ⟨id, t, rt, pri, u, rfl, hfull, h0, Or.inl hv⟩)⟩
    rcases new_job_cases s s1 id t rt pri u r hdel with
      ⟨c, _, _, rfl⟩ | ⟨hfull, _, rfl⟩ | ⟨hfull, _, w, v, hw, _, rfl⟩
    · rcases h1 with h1 | h1
      · rcases List.mem_or_eq_of_mem_set h1 with hm | he
        · exact keep j1 (Or.inl hm)
        · exact Or.inl ⟨id, t, rt, pri, u, rfl, Or.inl (Option.some.inj he)⟩
      · exact keep j1 (Or.inr h1)
    · rcases h1 with h1 | h1
      · exact busy j1 hfull h1
      · rcases List.mem_cons.mp ((priqueue_offer_perm _ _).mem_iff.mp h1) with he | hm
        · exact Or.inl ⟨id, t, rt, pri, u, rfl, Or.inr (Or.inl he)⟩
        · exact keep j1 (Or.inr hm)
    · rcases h1 with h1 | h1
      · rcases List.mem_or_eq_of_mem_set h1 with hm | he
        · exact busy j1 hfull hm
        · exact Or.inl ⟨id, t, rt, pri, u, rfl, Or.inr (Or.inr (Option.some.inj he))⟩
      · rcases List.mem_cons.mp ((priqueue_offer_perm _ _).mem_iff.mp h1) with he | hm
        · obtain ⟨j0, h0, hv⟩ :=
            busyTable_origin s t v (List.mem_iff_getElem?.mpr ⟨w, hw⟩)
          refine Or.inr ⟨j0, (mem_heldJobs s j0).mpr (Or.inl h0),
            Or.inr (Or.inl ⟨id, t, rt, pri, u, rfl, hfull, h0, Or.inr ?_⟩)⟩
          rw [he, hv]
          rfl
        · exact keep j1 (Or.inr hm)
  | job_finished c id t =>
    obtain ⟨j, _, hcase⟩ := job_finished_cases s s1 c id t r hdel
    rcases hcase with ⟨_, _, rfl⟩ | ⟨hd, rest, hq, _, rfl⟩
    · rcases h1 with h1 | h1
      · rcases List.mem_or_eq_of_mem_set h1 with hm | he
        · exact keep j1 (Or.inl hm)
        · cases he
      · exact keep j1 (Or.inr h1)
    · rcases h1 with h1 | h1
      · simp only [List.set_set] at h1
        rcases List.mem_or_eq_of_mem_set h1 with hm | he
        · exact keep j1 (Or.inl hm)
        · have hhd : hd ∈ s.q.items := by rw [hq]; exact List.mem_cons_self _ _
          exact Or.inr ⟨hd, (mem_heldJobs s hd).mpr (Or.inr hhd),
            Or.inr (Or.inr (Or.inl ⟨c, id, t, rfl, hhd, Option.some.inj he⟩))⟩
      · exact keep j1 (Or.inr (by rw [hq]; exact List.mem_cons_of_mem _ h1))
  | quantum_expired c t =>
    rcases quantum_expired_cases s s1 c t r hdel with
      ⟨_, _, _, hs⟩ | ⟨q0, hd, rest, hsrc, hq, _, rfl⟩
    · rw [hs] at h1
      exact keep j1 h1
    · have hq0 : ∀ x ∈ q0.items, x ∈ heldJobs s := by
        rcases hsrc with ⟨_, rfl⟩ | ⟨j, hc, rfl⟩
        · exact fun x hx => (mem_heldJobs s x).mpr (Or.inr hx)
        · intro x hx
          rcases List.mem_cons.mp ((priqueue_offer_perm _ _).mem_iff.mp hx) with he | hm
          · rw [he]
            exact (mem_heldJobs s j).mpr (Or.inl (List.mem_iff_getElem?.mpr ⟨c, hc⟩))
          · exact (mem_heldJobs s x).mpr (Or.inr hm)
      rcases h1 with h1 | h1
      · rcases List.mem_or_eq_of_mem_set h1 with hm | he
        · exact keep j1 (Or.inl hm)
        · exact Or.inr ⟨hd, hq0 hd (by rw [hq]; exact List.mem_cons_self _ _),
            Or.inr (Or.inr (Or.inr ⟨c, t, rfl, Option.some.inj he⟩))⟩
      · exact Or.inr ⟨j1, hq0 j1 (by rw [hq]; exact List.mem_cons_of_mem _ h1), Or.inl rfl⟩

theorem dispatched_processTime (psjf : Bool) (t : Int) (h : job_t) :
    (dispatched psjf t h).processTime = h.processTime ∧
    (dispatched psjf t h).originalProcessTime = h.originalProcessTime := by
  unfold dispatched setResponseIfUnset
  split <;> split <;> exact ⟨rfl, rfl⟩

theorem reset_processTime (t : Int) (v : job_t) :
    (resetIfJustScheduled t v).processTime = v.processTime ∧
    (resetIfJustScheduled t v).originalProcessTime = v.originalProcessTime ∧
    (resetIfJustScheduled t v).lastCheckedTime = v.lastCheckedTime := by
  unfold resetIfJustScheduled
  split <;> exact ⟨rfl, rfl, rfl⟩

/-- Outside PSJF a call leaves the remaining and the original run time of every
record it keeps as they were, and creates records with both equal to the run
time given. -/
theorem remaining_kept_outside_psjf (s s1 : sched_t) (e : Event) (r : Int)
    (hdel : e.deliver s = some (r, s1)) (hP : s.m_type ≠ scheme_t.PSJF)
    (j1 : job_t) (h1 : j1 ∈ heldJobs s1) :
    j1.processTime = j1.originalProcessTime ∨
    ∃ j0 ∈ heldJobs s, j1.pid = j0.pid ∧ j1.processTime = j0.processTime ∧
      j1.originalProcessTime = j0.originalProcessTime := by
  rcases held_descent s s1 e r hdel j1 h1 with hnew | ⟨j0, h0, hdesc⟩
  · obtain ⟨id, t, rt, pri, u, _, hj | hj | hj⟩ := hnew
    · left
      rw [hj]
      unfold idleCoreJob
      split <;> rfl
    · left; rw [hj]; rfl
    · left; rw [hj]; rfl
  · right
    refine ⟨j0, h0, ?_⟩
    rcases hdesc with hj | ⟨id, t, rt, pri, u, _, _, _, hj | hj⟩ | ⟨c, id, t, _, _, hj⟩ |
      ⟨c, t, _, hj⟩
    · rw [hj]; exact ⟨rfl, rfl, rfl⟩
    · rw [hj]; simp [busyVersion, hP]
    · rw [hj]
      have := reset_processTime t (busyVersion s t j0)
      rw [resetIfJustScheduled_pid, this.1, this.2.1]
      simp [busyVersion, hP]
    · rw [hj]
      exact ⟨dispatched_pid _ _ _, (dispatched_processTime _ _ _).1,
        (dispatched_processTime _ _ _).2⟩
    · rw [hj]
      exact ⟨dispatched_pid _ _ _, (dispatched_processTime _ _ _).1,
        (dispatched_processTime _ _ _).2⟩

/-- Outside PSJF every held record of a reachable state has its remaining run
time equal to its original run time. -/
theorem remaining_eq_original_reach (ok : sched_t → List Event → Event → Prop) (cores : Nat)
    (scheme : scheme_t) (h : List Event) (s : sched_t) (hr : Reach ok cores scheme h s)
    (hP : scheme ≠ scheme_t.PSJF) :
    ∀ j ∈ heldJobs s, j.processTime = j.originalProcessTime := by
  induction hr with
  | start =>
    intro j hj
    rw [mem_heldJobs] at hj
    rcases hj with hj | hj
    · have : (some j : Option job_t) = none := List.eq_of_mem_replicate hj
      cases this
    · rw [start_up_queue_empty] at hj
      cases hj
  | @step h s s1 e r hprev _ hdel ih =>
    intro j1 h1
    have hty : s.m_type ≠ scheme_t.PSJF := by
      rw [(reach_frame ok cores scheme h s hprev).1]
      exact hP
    rcases remaining_kept_outside_psjf s s1 e r hdel hty j1 h1 with hnew | ⟨j0, h0, _, hp, ho⟩
    · exact hnew
    · rw [hp, ho]
      exact ih j0 h0

/-! ## Dispatch order under SJF and PRI -/

/-- What C12 asks for, on the runs where `PRIcompare` cannot wrap: in every
state reachable under SJF, resp. under PRI by events whose priorities and ticks
are in half range, a `scheduler_job_finished` call that finds the ready queue
non-empty dispatches its head, and the head is minimal among the queued jobs:
under SJF its original run time is at most that of every other queued job,
under PRI its pair (priority, arrival time) is lexicographically at most that
of every other queued job. The spec's SJF scenario returns 0, -1, -1, 2, 3,
-1. -/
theorem dispatch_takes_policy_minimum_in_half_range :
    (∀ (cores : Nat) (h : List Event) (s s1 : sched_t) (c : Nat) (id t r : Int) (hd : job_t)
      (rest : List job_t),
      Reach anyEvent cores scheme_t.SJF h s → s.q.items = hd :: rest →
      scheduler_job_finished s c id t = some (r, s1) →
      r = hd.pid ∧ s1.q.items = rest ∧
      (∃ h1, s1.m_coreArr[c]? = some (some h1) ∧ h1.pid = hd.pid) ∧
      ∀ x ∈ rest, hd.originalProcessTime ≤ x.originalProcessTime) ∧
    (∀ (cores : Nat) (h : List Event) (s s1 : sched_t) (c : Nat) (id t r : Int) (hd : job_t)
      (rest : List job_t),
      Reach anyEvent cores scheme_t.PRI h s → (∀ e ∈ h, halfRangeEvent e) →
      s.q.items = hd :: rest →
      scheduler_job_finished s c id t = some (r, s1) →
      r = hd.pid ∧ s1.q.items = rest ∧
      (∃ h1, s1.m_coreArr[c]? = some (some h1) ∧ h1.pid = hd.pid) ∧
      ∀ x ∈ rest, hd.priority < x.priority ∨
        (hd.priority = x.priority ∧ hd.arrivalTime ≤ x.arrivalTime)) ∧
    (∀ u1 u2 u3 : Int, (runEvents (scheduler_start_up 1 scheme_t.SJF)
      [Event.new_job 1 0 10 0 u1, Event.new_job 2 1 2 0 u2, Event.new_job 3 2 5 0 u3,
       Event.job_finished 0 1 10, Event.job_finished 0 2 12, Event.job_finished 0 3 17]).map
        Prod.fst = some [0, -1, -1, 2, 3, -1]) := by
  have shape : ∀ (s s1 : sched_t) (c : Nat) (id t r : Int) (hd : job_t) (rest : List job_t),
      s.q.items = hd :: rest → scheduler_job_finished s c id t = some (r, s1) →
      r = hd.pid ∧ s1.q.items = rest ∧
      ∃ h1, s1.m_coreArr[c]? = some (some h1) ∧ h1.pid = hd.pid := by
    intro s s1 c id t r hd rest hq hrun
    obtain ⟨j, hc, hcase⟩ := job_finished_cases s s1 c id t r hrun
    have hlt : c < s.m_coreArr.length := (List.getElem?_eq_some_iff.mp hc).1
    rcases hcase with ⟨hq0, _, _⟩ | ⟨hd1, rest1, hq1, hr, rfl⟩
    · rw [hq0] at hq
      cases hq
    · rw [hq] at hq1
      obtain ⟨rfl, rfl⟩ := List.cons.inj hq1
      exact ⟨hr, rfl, dispatched (decide (s.m_type = scheme_t.PSJF)) t hd, by simp [hlt],
        dispatched_pid _ _ _⟩
  refine ⟨?_, ?_, fun _ _ _ => rfl⟩
  · intro cores h s s1 c id t r hd rest hr hq hrun
    obtain ⟨h1, h2, h3⟩ := shape s s1 c id t r hd rest hq hrun
    refine ⟨h1, h2, h3, ?_⟩
    intro x hx
    have hsorted := reach_sorted anyEvent cores scheme_t.SJF h s hr (fun hc => by cases hc)
    rw [(reach_frame anyEvent cores scheme_t.SJF h s hr).2, hq] at hsorted
    have hle := (List.pairwise_cons.mp hsorted).1 x hx
    simp only [comparerOf, applyComparer, SJFcompare] at hle
    have hrem := remaining_eq_original_reach anyEvent cores scheme_t.SJF h s hr (by decide)
    have e1 := hrem hd ((mem_heldJobs s hd).mpr (Or.inr (by rw [hq]; exact List.mem_cons_self _ _)))
    have e2 := hrem x ((mem_heldJobs s x).mpr (Or.inr (by rw [hq]; exact List.mem_cons_of_mem _ hx)))
    omega
  · intro cores h s s1 c id t r hd rest hr hsmall hq hrun
    obtain ⟨h1, h2, h3⟩ := shape s s1 c id t r hd rest hq hrun
    refine ⟨h1, h2, h3, ?_⟩
    intro x hx
    have hsorted := reach_sorted anyEvent cores scheme_t.PRI h s hr (fun _ => hsmall)
    have hheld := (reach_comparable anyEvent cores scheme_t.PRI h s hr (fun _ => hsmall)).2
    rw [(reach_frame anyEvent cores scheme_t.PRI h s hr).2, hq] at hsorted
    rw [hq] at hheld
    have hle := (List.pairwise_cons.mp hsorted).1 x hx
    simp only [comparerOf, applyComparer,
      PRIcompare_neg_iff x hd (hheld x (List.mem_cons_of_mem _ hx) rfl)
        (hheld hd (List.mem_cons_self _ _) rfl)] at hle
    omega

/-- The SJF scenario of C12 through the general statement: with job 1 running
and jobs 2 (run time 2) and 3 (run time 5) queued, the completion of job 1
dispatches job 2, whose run time is at most that of job 3. -/
theorem dispatch_takes_policy_minimum_in_half_range_witness :
    (2 : Int) = (newJobRecord 2 1 2 0 0).pid ∧
    ({ afterCompletion
        { scheduler_start_up 1 scheme_t.SJF with
          m_coreArr := [some (idleCoreJob scheme_t.SJF 1 0 10 0 0)]
          q := { comparer := comparer_t.SJFcompare
                 items := [newJobRecord 2 1 2 0 0, newJobRecord 3 2 5 0 0] } } 0 10
        (idleCoreJob scheme_t.SJF 1 0 10 0 0) with
        m_coreArr := [some (dispatched false 10 (newJobRecord 2 1 2 0 0))]
        q := { comparer := comparer_t.SJFcompare, items := [newJobRecord 3 2 5 0 0] } }
      : sched_t).q.items = [newJobRecord 3 2 5 0 0] ∧
    (∃ h1, ({ afterCompletion
        { scheduler_start_up 1 scheme_t.SJF with
          m_coreArr := [some (idleCoreJob scheme_t.SJF 1 0 10 0 0)]
          q := { comparer := comparer_t.SJFcompare
                 items := [newJobRecord 2 1 2 0 0, newJobRecord 3 2 5 0 0] } } 0 10
        (idleCoreJob scheme_t.SJF 1 0 10 0 0) with
        m_coreArr := [some (dispatched false 10 (newJobRecord 2 1 2 0 0))]
        q := { comparer := comparer_t.SJFcompare, items := [newJobRecord 3 2 5 0 0] } }
      : sched_t).m_coreArr[0]? = some (some h1) ∧ h1.pid = (newJobRecord 2 1 2 0 0).pid) ∧
    ∀ x ∈ [newJobRecord 3 2 5 0 0],
      (newJobRecord 2 1 2 0 0).originalProcessTime ≤ x.originalProcessTime :=
  dispatch_takes_policy_minimum_in_half_range.1 1
    [Event.new_job 3 2 5 0 0, Event.new_job 2 1 2 0 0, Event.new_job 1 0 10 0 0]
    { scheduler_start_up 1 scheme_t.SJF with
      m_coreArr := [some (idleCoreJob scheme_t.SJF 1 0 10 0 0)]
      q := { comparer := comparer_t.SJFcompare
             items := [newJobRecord 2 1 2 0 0, newJobRecord 3 2 5 0 0] } }
    _ 0 1 10 2 (newJobRecord 2 1 2 0 0) [newJobRecord 3 2 5 0 0]
    (Reach.step (r := -1) (Reach.step (r := -1) (Reach.step (r := 0) Reach.start trivial rfl)
      trivial rfl) trivial rfl)
    rfl rfl

/-- C12, the failing input: under PRI with one core, job 1 is running and jobs
2 (priority 2000000000, tick 1) and 3 (priority -2000000000, tick 2) arrive.
`PRIcompare` of job 3 against job 2 subtracts 2000000000 from -2000000000; the
`int` result is 294967296, not negative, so job 3 is queued behind job 2. The
four calls return 0, -1, -1, 2: the completion of job 1 dispatches job 2 to
core 0 and leaves job 3 queued, whose priority is the smaller one. -/
theorem pri_wrapped_difference_dispatches_non_minimum (u1 u2 u3 : Int) :
    PRIcompare (newJobRecord 3 2 5 (-2000000000) u3) (newJobRecord 2 1 5 2000000000 u2)
      = 294967296 ∧
    ∃ s s1 : sched_t,
      Reach anyEvent 1 scheme_t.PRI
        [Event.new_job 3 2 5 (-2000000000) u3, Event.new_job 2 1 5 2000000000 u2,
         Event.new_job 1 0 5 0 u1] s ∧
      s.q.items
        = [newJobRecord 2 1 5 2000000000 u2, newJobRecord 3 2 5 (-2000000000) u3] ∧
      scheduler_job_finished s 0 1 5 = some (2, s1) ∧
      s1.m_coreArr = [some (dispatched false 5 (newJobRecord 2 1 5 2000000000 u2))] ∧
      s1.q.items = [newJobRecord 3 2 5 (-2000000000) u3] ∧
      (newJobRecord 3 2 5 (-2000000000) u3).priority
        < (dispatched false 5 (newJobRecord 2 1 5 2000000000 u2)).priority ∧
      (runEvents (scheduler_start_up 1 scheme_t.PRI)
        [Event.new_job 1 0 5 0 u1, Event.new_job 2 1 5 2000000000 u2,
         Event.new_job 3 2 5 (-2000000000) u3, Event.job_finished 0 1 5]).map Prod.fst
        = some [0, -1, -1, 2] :=
  ⟨rfl, _, _,
    Reach.step (r := -1) (Reach.step (r := -1) (Reach.step (r := 0) Reach.start trivial rfl)
      trivial rfl) trivial rfl,
    rfl, rfl, rfl, rfl, (by show (-2000000000 : Int) < 2000000000; decide), rfl⟩

/-! ## Queue order under FCFS and RR -/

theorem descends_sameJob (s : sched_t) (e : Event) (j0 j1 : job_t)
    (h : descends s e j0 j1) : sameJob j0 j1 := by
  rcases h with hj | ⟨id, t, rt, pri, u, _, _, _, hj | hj⟩ | ⟨c, id, t, _, _, hj⟩ |
    ⟨c, t, _, hj⟩
  · rw [hj]; exact ⟨rfl, rfl, rfl, rfl⟩
  · rw [hj]; unfold busyVersion; split <;> exact ⟨rfl, rfl, rfl, rfl⟩
  · rw [hj]
    have h1 : sameJob j0 (busyVersion s t j0) := by
      unfold busyVersion; split <;> exact ⟨rfl, rfl, rfl, rfl⟩
    have h2 := sameJob_reset t (busyVersion s t j0)
    exact ⟨h1.1.trans h2.1, h1.2.1.trans h2.2.1, h1.2.2.1.trans h2.2.2.1,
      h1.2.2.2.trans h2.2.2.2⟩
  · rw [hj]; exact sameJob_dispatched _ _ _
  · rw [hj]; exact sameJob_dispatched _ _ _

theorem created_arrivalTime (s : sched_t) (e : Event) (j1 : job_t) (h : created s e j1) :
    j1.arrivalTime = e.time := by
  obtain ⟨id, t, rt, pri, u, rfl, hj | hj | hj⟩ := h
  · rw [hj]; unfold idleCoreJob; split <;> rfl
  · rw [hj]; rfl
  · rw [hj]; rfl

/-- In every reachable state each held job arrived at the tick of some event
of the history. -/
theorem arrival_in_history (ok : sched_t → List Event → Event → Prop) (cores : Nat)
    (scheme : scheme_t) (h : List Event) (s : sched_t) (hr : Reach ok cores scheme h s) :
    ∀ j ∈ heldJobs s, ∃ e1 ∈ h, e1.time = j.arrivalTime := by
  induction hr with
  | start =>
    intro j hj
    rw [mem_heldJobs] at hj
    rcases hj with hj | hj
    · have : (some j : Option job_t) = none := List.eq_of_mem_replicate hj
      cases this
    · rw [start_up_queue_empty] at hj
      cases hj
  | @step h s s1 e r _ _ hdel ih =>
    intro j1 h1
    rcases held_descent s s1 e r hdel j1 h1 with hnew | ⟨j0, h0, hdesc⟩
    · exact ⟨e, List.mem_cons_self _ _, (created_arrivalTime s e j1 hnew).symm⟩
    · obtain ⟨e1, he1, ht⟩ := ih j0 h0
      exact ⟨e1, List.mem_cons_of_mem _ he1, ht.trans (descends_sameJob s e j0 j1 hdesc).2.1⟩

/-- Under FCFS and RR, without quantum expiry and with strictly increasing
ticks, the queued jobs have strictly ascending arrival times. -/
theorem arrivals_strictly_ascending (cores : Nat) (scheme : scheme_t) (h : List Event)
    (s : sched_t) (hscheme : scheme = scheme_t.FCFS ∨ scheme = scheme_t.RR)
    (hr : Reach strictlyLaterNoQuantum cores scheme h s) :
    (queueArrivals s).Pairwise (fun a b => a < b) := by
  induction hr with
  | start =>
    unfold queueArrivals
    rw [start_up_queue_empty]
    exact List.Pairwise.nil
  | @step h s s1 e r hprev hok hdel ih =>
    obtain ⟨hty, hcmp⟩ := reach_frame _ cores scheme h s hprev
    have hcmp1 : s.q.comparer = comparer_t.FCFScompare := by
      rw [hcmp]
      rcases hscheme with hs | hs <;> rw [hs] <;> rfl
    unfold queueArrivals at ih ⊢
    cases e with
    | new_job id t rt pri u =>
      rcases new_job_cases s s1 id t rt pri u r hdel with
        ⟨c, _, _, rfl⟩ | ⟨_, _, rfl⟩ | ⟨_, hpre, _⟩
      · exact ih
      · have hitems : (priqueue_offer s.q (newJobRecord id t rt pri u)).items
            = s.q.items ++ [newJobRecord id t rt pri u] := by
          simp [priqueue_offer, hcmp1, applyComparer, insertOrdered_FCFS]
        show ((priqueue_offer s.q (newJobRecord id t rt pri u)).items.map
          job_t.arrivalTime).Pairwise (fun a b => a < b)
        rw [hitems, List.map_append, List.pairwise_append]
        refine ⟨ih, by simp, ?_⟩
        intro a ha b hb
        simp only [List.map_cons, List.map_nil, List.mem_singleton] at hb
        obtain ⟨j, hj, rfl⟩ := List.mem_map.mp ha
        obtain ⟨e1, he1, ht⟩ := arrival_in_history _ cores scheme h s hprev j
          ((mem_heldJobs s j).mpr (Or.inr hj))
        have := hok.1 e1 he1
        rw [hb, ← ht]
        exact this
      · rw [hty] at hpre
        rcases hscheme with hs | hs <;> rw [hs] at hpre <;> rcases hpre with hp | hp <;>
          cases hp
    | job_finished c id t =>
      obtain ⟨j, _, hcase⟩ := job_finished_cases s s1 c id t r hdel
      rcases hcase with ⟨_, _, rfl⟩ | ⟨hd, rest, hq, _, rfl⟩
      · exact ih
      · rw [hq, List.map_cons, List.pairwise_cons] at ih
        exact ih.2
    | quantum_expired c t => exact absurd rfl (hok.2 c t)

/-- C13 fails under RR: with one core, jobs 1, 2 and 3 arriving at ticks 0, 1
and 2 and the quantum expiring at tick 3, all ticks strictly increasing, the
ready queue holds job 3 (arrived at 2) in front of job 1 (arrived at 0). -/
theorem rr_rotation_breaks_arrival_order :
    Reach strictlyLater 1 scheme_t.RR
      [Event.quantum_expired 0 3, Event.new_job 3 2 5 0 0, Event.new_job 2 1 5 0 0,
       Event.new_job 1 0 5 0 0] rrRotatedState ∧
    queueArrivals rrRotatedState = [2, 0] ∧
    ¬ arrivalsAscending rrRotatedState := by
  refine ⟨?_, rfl, ?_⟩
  · exact Reach.step (r := 2)
      (Reach.step (r := -1)
        (Reach.step (r := -1)
          (Reach.step (r := 0) Reach.start (by simp [strictlyLater]) rfl)
          (by simp [strictlyLater, Event.time]) rfl)
        (by simp [strictlyLater, Event.time]) rfl)
      (by simp [strictlyLater, Event.time]) rfl
  · have hq : queueArrivals rrRotatedState = [2, 0] := rfl
    unfold arrivalsAscending
    rw [hq]
    simp

/-- C13 as amended: under FCFS and under RR, in every state reached from
`scheduler_start_up` by `scheduler_new_job` and `scheduler_job_finished` calls
with strictly increasing ticks (no quantum expiry), the jobs of the ready queue
have ascending, indeed strictly ascending, arrival times from head to tail. -/
theorem queue_in_arrival_order_without_quantum (cores : Nat) (scheme : scheme_t)
    (h : List Event) (s : sched_t) (hscheme : scheme = scheme_t.FCFS ∨ scheme = scheme_t.RR)
    (hr : Reach strictlyLaterNoQuantum cores scheme h s) :
    arrivalsAscending s ∧ (queueArrivals s).Pairwise (fun a b => a < b) := by
  have hstrict := arrivals_strictly_ascending cores scheme h s hscheme hr
  exact ⟨hstrict.imp (fun hab => le_of_lt hab), hstrict⟩

/-- C13 as amended, on a concrete run: one RR core, jobs 1, 2 and 3 arrive at
ticks 0, 1 and 2; jobs 2 and 3 wait in arrival order. -/
theorem queue_in_arrival_order_without_quantum_witness :
    arrivalsAscending
      { scheduler_start_up 1 scheme_t.RR with
        m_coreArr := [some (idleCoreJob scheme_t.RR 1 0 5 0 0)]
        q := { comparer := comparer_t.FCFScompare
               items := [newJobRecord 2 1 5 0 0, newJobRecord 3 2 5 0 0] } } ∧
    (queueArrivals
      { scheduler_start_up 1 scheme_t.RR with
        m_coreArr := [some (idleCoreJob scheme_t.RR 1 0 5 0 0)]
        q := { comparer := comparer_t.FCFScompare
               items := [newJobRecord 2 1 5 0 0, newJobRecord 3 2 5 0 0] } }).Pairwise
      (fun a b => a < b) :=
  queue_in_arrival_order_without_quantum 1 scheme_t.RR
    [Event.new_job 3 2 5 0 0, Event.new_job 2 1 5 0 0, Event.new_job 1 0 5 0 0] _
    (Or.inr rfl)
    (Reach.step (r := -1)
      (Reach.step (r := -1)
        (Reach.step (r := 0) Reach.start (by simp [strictlyLaterNoQuantum]) rfl)
        (by simp [strictlyLaterNoQuantum, Event.time]) rfl)
      (by simp [strictlyLaterNoQuantum, Event.time]) rfl)

/-! ## Priorities under PPRI -/

/-- The shapes of a successful `scheduler_new_job` under PPRI, with what the
scan established: the job went to an idle core; or no running job has a larger
priority value than the new job, which was queued; or the job `v` of core `w`
has the largest priority value among the running jobs, larger than the new
job's, and was replaced. -/
theorem new_job_ppri_cases (s s1 : sched_t) (id t run_time priority uninit r : Int)
    (hP : s.m_type = scheme_t.PPRI)
    (h : scheduler_new_job s id t run_time priority uninit = some (r, s1)) :
    (∃ c : Nat, s.m_coreArr[c]? = some none ∧ r = (c : Int) ∧
      s1 = { s with
        m_coreArr := s.m_coreArr.set c (some (idleCoreJob s.m_type id t run_time priority uninit)) }) ∨
    ((∀ x ∈ s.m_coreArr, x ≠ none) ∧ r = -1 ∧
      (∀ j, some j ∈ s.m_coreArr → j.priority ≤ priority) ∧
      s1 = { s with q := priqueue_offer s.q (newJobRecord id t run_time priority uninit) }) ∨
    ((∀ x ∈ s.m_coreArr, x ≠ none) ∧
      ∃ (w : Nat) (v : job_t), s.m_coreArr[w]? = some (some v) ∧ r = (w : Int) ∧
        (∀ j, some j ∈ s.m_coreArr → j.priority ≤ v.priority) ∧ priority < v.priority ∧
        s1 = { s with
          m_coreArr := s.m_coreArr.set w
            (some { newJobRecord id t run_time priority uninit with responseTime := 0 })
          q := priqueue_offer s.q (resetIfJustScheduled t v) }) := by
  by_cases hidle : none ∈ s.m_coreArr
  · obtain ⟨c, hc, hget, _⟩ := idleScan_of_idle s.m_coreArr 0 hidle
    have hfind : scheduler_idle_core_finder s = (c : Int) := by
      rw [scheduler_idle_core_finder, hc]; simp
    have hrun := new_job_on_idle s id t run_time priority uninit c hfind
    rw [hrun] at h
    obtain ⟨rfl, rfl⟩ := Prod.mk.inj (Option.some.inj h)
    exact Or.inl ⟨c, hget, rfl, rfl⟩
  · have hfull : ∀ x ∈ s.m_coreArr, x ≠ none := fun x hx hn => hidle (hn ▸ hx)
    have hfind : scheduler_idle_core_finder s = -1 := idleScan_of_full _ 0 hfull
    right
    by_cases hne : s.m_coreArr = []
    · simp [scheduler_new_job, hfind, hP, hne] at h
    · obtain ⟨j0, lo, w, h0, hscan, v, hv, hvlo, hmax⟩ := ppriScan_full s.m_coreArr hfull hne
      by_cases hlo : priority < lo
      · have hrun := new_job_ppri_preempt s id t run_time priority uninit hP hfull j0 v lo
          w h0 hscan hlo hv
        rw [hrun] at h
        obtain ⟨rfl, rfl⟩ := Prod.mk.inj (Option.some.inj h)
        refine Or.inr ⟨hfull, w, v, hv, rfl, ?_, by omega, rfl⟩
        intro j hj
        rw [hvlo]
        exact (hmax j hj).1
      · have hrun := new_job_ppri_enqueue s id t run_time priority uninit hP hfull j0 lo
          w h0 hscan hlo
        rw [hrun] at h
        obtain ⟨rfl, rfl⟩ := Prod.mk.inj (Option.some.inj h)
        refine Or.inl ⟨hfull, rfl, ?_, rfl⟩
        intro j hj
        have := (hmax j hj).1
        omega

theorem reset_priority (t : Int) (v : job_t) :
    (resetIfJustScheduled t v).priority = v.priority := (sameJob_reset t v).2.2.2.symm

theorem dispatched_priority (psjf : Bool) (t : Int) (h : job_t) :
    (dispatched psjf t h).priority = h.priority := (sameJob_dispatched psjf t h).2.2.2.symm

theorem reach_idleImpliesEmpty (ok : sched_t → List Event → Event → Prop) (cores : Nat)
    (scheme : scheme_t) (h : List Event) (s : sched_t) (hr : Reach ok cores scheme h s) :
    idleImpliesEmpty s := by
  induction hr with
  | start => exact fun _ => start_up_queue_empty _ _
  | step _ _ hdel ih => exact deliver_idleImpliesEmpty _ _ _ _ hdel ih

/-- Under PPRI, `scheduler_new_job` and `scheduler_job_finished` keep every
queued job behind every running job in priority. -/
theorem deliver_queueBehindCores (s s1 : sched_t) (e : Event) (r : Int)
    (hP : s.m_type = scheme_t.PPRI) (hcmp : s.q.comparer = comparer_t.PRIcompare)
    (hnq : ∀ (c : Nat) (t : Int), e ≠ Event.quantum_expired c t)
    (hdel : e.deliver s = some (r, s1))
    (hidle : idleImpliesEmpty s) (hsorted : queueSorted (applyComparer s.q.comparer) s.q.items)
    (hheld : allHeld (comparableFor s.q.comparer) s)
    (hinv : queueBehindCores s) : queueBehindCores s1 := by
  unfold queueBehindCores at hinv ⊢
  cases e with
  | new_job id t rt pri u =>
    rcases new_job_ppri_cases s s1 id t rt pri u r hP hdel with
      ⟨c, hc, _, rfl⟩ | ⟨_, _, hmax, rfl⟩ | ⟨_, w, v, hw, _, hmax, hlt, rfl⟩
    · intro q hq
      have hempty : s.q.items = [] := hidle (List.mem_iff_getElem?.mpr ⟨c, hc⟩)
      rw [hempty] at hq
      cases hq
    · intro q hq j hj
      rcases List.mem_cons.mp ((priqueue_offer_perm _ _).mem_iff.mp hq) with he | hm
      · rw [he]
        exact hmax j hj
      · exact hinv q hm j hj
    · have hv : some v ∈ s.m_coreArr := List.mem_iff_getElem?.mpr ⟨w, hw⟩
      intro q hq j hj
      have hqv : v.priority ≤ q.priority := by
        rcases List.mem_cons.mp ((priqueue_offer_perm _ _).mem_iff.mp hq) with he | hm
        · rw [he, reset_priority]
        · exact hinv q hm v hv
      rcases List.mem_or_eq_of_mem_set hj with hm | he
      · exact le_trans (hmax j hm) hqv
      · rw [Option.some.inj he]
        show pri ≤ q.priority
        omega
  | job_finished c id t =>
    obtain ⟨j0, _, hcase⟩ := job_finished_cases s s1 c id t r hdel
    rcases hcase with ⟨hq0, _, rfl⟩ | ⟨hd, rest, hq0, _, rfl⟩
    · intro q hq
      have : q ∈ s.q.items := hq
      rw [hq0] at this
      cases this
    · intro q hq j hj
      have hqold : q ∈ s.q.items := by rw [hq0]; exact List.mem_cons_of_mem _ hq
      simp only [List.set_set] at hj
      rcases List.mem_or_eq_of_mem_set hj with hm | he
      · exact hinv q hqold j hm
      · rw [Option.some.inj he, dispatched_priority]
        rw [hcmp, hq0] at hsorted
        have hle := (List.pairwise_cons.mp hsorted).1 q hq
        simp only [applyComparer,
          PRIcompare_neg_iff q hd (hheld.2 q hqold hcmp)
            (hheld.2 hd (by rw [hq0]; exact List.mem_cons_self _ _) hcmp)] at hle
        omega
  | quantum_expired c t => exact absurd rfl (hnq c t)

/-- What C14 asks for, on the runs where `PRIcompare` cannot wrap: under PPRI,
in every state reached from `scheduler_start_up` by `scheduler_new_job` and
`scheduler_job_finished` calls whose priorities and ticks are in half range, no
job in the ready queue has a numerically smaller priority than a job held in a
core slot. -/
theorem ppri_queue_behind_cores_in_half_range (cores : Nat) (h : List Event) (s : sched_t)
    (hr : Reach noQuantum cores scheme_t.PPRI h s) (hsmall : ∀ e ∈ h, halfRangeEvent e) :
    ∀ q ∈ s.q.items, ∀ j, some j ∈ s.m_coreArr → ¬ q.priority < j.priority := by
  have hinv : queueBehindCores s := by
    induction hr with
    | start =>
      intro q hq
      rw [start_up_queue_empty] at hq
      cases hq
    | @step h s s1 e r hprev hok hdel ih =>
      have hs : ∀ x ∈ h, halfRangeEvent x := fun x hx => hsmall x (List.mem_cons_of_mem _ hx)
      obtain ⟨hty, hcmp⟩ := reach_frame _ cores scheme_t.PPRI h s hprev
      have hidle := reach_idleImpliesEmpty _ cores scheme_t.PPRI h s hprev
      have hheld := reach_comparable _ cores scheme_t.PPRI h s hprev (fun _ => hs)
      rw [← hcmp] at hheld
      exact deliver_queueBehindCores s s1 e r hty hcmp hok hdel hidle
        (reach_sorted _ cores scheme_t.PPRI h s hprev (fun _ => hs)) hheld (ih hs)
  intro q hq j hj
  have := hinv q hq j hj
  omega

/-- The statement above on a concrete run: one PPRI core, job 1 of priority 2
arrives, job 2 of priority 1 preempts it; the queued job 1 does not outrank the
running job 2. -/
theorem ppri_queue_behind_cores_in_half_range_witness :
    ¬ (resetIfJustScheduled 1 (idleCoreJob scheme_t.PPRI 1 0 10 2 0)).priority
        < ({ newJobRecord 2 1 10 1 0 with responseTime := 0 } : job_t).priority :=
  ppri_queue_behind_cores_in_half_range 1
    [Event.new_job 2 1 10 1 0, Event.new_job 1 0 10 2 0]
    { scheduler_start_up 1 scheme_t.PPRI with
      m_coreArr := [some { newJobRecord 2 1 10 1 0 with responseTime := 0 }]
      q := { comparer := comparer_t.PRIcompare
             items := [resetIfJustScheduled 1 (idleCoreJob scheme_t.PPRI 1 0 10 2 0)] } }
    (Reach.step (r := 0)
      (Reach.step (r := 0) Reach.start (by simp [noQuantum]) rfl)
      (by simp [noQuantum]) rfl)
    (by simp [halfRangeEvent, priComparable, halfRange, newJobRecord])
    (resetIfJustScheduled 1 (idleCoreJob scheme_t.PPRI 1 0 10 2 0)) (List.mem_cons_self _ _)
    { newJobRecord 2 1 10 1 0 with responseTime := 0 } (List.mem_cons_self _ _)

/-- C14, the failing input: under PPRI with one core, job 1 (priority
-2000000001) is running when jobs 2 (priority 2000000000, tick 1) and 3
(priority -2000000000, tick 2) arrive; neither preempts, since the scan
compares the priorities themselves. `PRIcompare` of job 3 against job 2
subtracts them; the `int` result is 294967296, not negative, so job 3 is queued
behind job 2. The completion of job 1 then dispatches job 2: in the state
reached by these `scheduler_new_job` and `scheduler_job_finished` calls job 3
waits in the ready queue with a priority numerically smaller than that of job
2, which holds core 0. -/
theorem ppri_wrapped_difference_leaves_smaller_priority_queued (u1 u2 u3 : Int) :
    ∃ s : sched_t,
      Reach noQuantum 1 scheme_t.PPRI
        [Event.job_finished 0 1 5, Event.new_job 3 2 5 (-2000000000) u3,
         Event.new_job 2 1 5 2000000000 u2, Event.new_job 1 0 5 (-2000000001) u1] s ∧
      s.m_coreArr = [some (dispatched false 5 (newJobRecord 2 1 5 2000000000 u2))] ∧
      s.q.items = [newJobRecord 3 2 5 (-2000000000) u3] ∧
      (newJobRecord 3 2 5 (-2000000000) u3).priority
        < (dispatched false 5 (newJobRecord 2 1 5 2000000000 u2)).priority ∧
      (runEvents (scheduler_start_up 1 scheme_t.PPRI)
        [Event.new_job 1 0 5 (-2000000001) u1, Event.new_job 2 1 5 2000000000 u2,
         Event.new_job 3 2 5 (-2000000000) u3, Event.job_finished 0 1 5]).map Prod.fst
        = some [0, -1, -1, 2] :=
  ⟨_,
    Reach.step (r := 2) (Reach.step (r := -1) (Reach.step (r := -1)
      (Reach.step (r := 0) Reach.start (by simp [noQuantum]) rfl)
      (by simp [noQuantum]) rfl) (by simp [noQuantum]) rfl) (by simp [noQuantum]) rfl,
    rfl, rfl, (by show (-2000000000 : Int) < 2000000000; decide), rfl⟩

/-! ## The PSJF preemption candidate and the refresh -/

/-- C17: under PSJF with at least one core, every core occupied and every
refreshed remaining time at least 0, the scan of `scheduler_new_job` at tick `t`
ends with `indexOfJobWithLongestRuntime` set to the smallest index `w` among the
cores whose refreshed remaining time is the maximum `l`: core `w` attains `l`,
no core exceeds `l`, and every core before `w` is strictly below `l`. So if core
0 attains the maximum, `w` is 0 whatever the later cores hold; and a call whose
run time is below `l` returns `w`. -/
theorem psjf_candidate_is_first_longest (s : sched_t) (t : Int)
    (hfull : ∀ x ∈ s.m_coreArr, x ≠ none) (hne : s.m_coreArr ≠ [])
    (hpos : ∀ j, some j ∈ s.m_coreArr → 0 ≤ (psjfRefresh t j).processTime) :
    ∃ (w : Nat) (v : job_t) (l : Int),
      psjfScan t s.m_coreArr 0 (-1) none = some (psjfRefreshAll t s.m_coreArr, l, some w) ∧
      s.m_coreArr[w]? = some (some v) ∧ (psjfRefresh t v).processTime = l ∧
      (∀ j, some j ∈ s.m_coreArr → (psjfRefresh t j).processTime ≤ l) ∧
      (∀ m u, m < w → s.m_coreArr[m]? = some (some u) → (psjfRefresh t u).processTime < l) ∧
      (∀ j0, s.m_coreArr[0]? = some (some j0) → (psjfRefresh t j0).processTime = l → w = 0) ∧
      (∀ id run_time priority uninit : Int, s.m_type = scheme_t.PSJF → run_time < l →
        ∃ s1, scheduler_new_job s id t run_time priority uninit = some ((w : Int), s1)) := by
  obtain ⟨l, k, hscan, _, hall, hcase⟩ := psjfScan_spec t s.m_coreArr 0 (-1) none hfull
  have hnonneg : 0 ≤ l := by
    cases harr : s.m_coreArr with
    | nil => exact absurd harr hne
    | cons a rest =>
      cases a with
      | none => exact absurd rfl (hfull none (by rw [harr]; exact List.mem_cons_self _ _))
      | some j =>
        have hj : some j ∈ s.m_coreArr := by rw [harr]; exact List.mem_cons_self _ _
        exact le_trans (hpos j hj) (hall j hj)
  rcases hcase with ⟨hl, _⟩ | ⟨_, w, v, hk, hw, hv, hfirst⟩
  · omega
  · simp only [Nat.zero_add] at hk
    subst hk
    refine ⟨w, v, l, hscan, hw, hv, hall, hfirst, ?_, ?_⟩
    · intro j0 h0 hl0
      by_contra hw0
      have := hfirst 0 j0 (Nat.pos_of_ne_zero hw0) h0
      omega
    · intro id run_time priority uninit hP hlt
      exact ⟨_, new_job_psjf_preempt s id t run_time priority uninit hP hfull _ l w _ hscan hlt
        (psjfRefreshAll_getElem? t s.m_coreArr w v hw)⟩

/-- C17 on a tie: two PSJF cores whose jobs both have remaining time 6 at tick
4; the candidate is core 0. -/
theorem psjf_candidate_is_first_longest_witness :
    ∃ (w : Nat) (v : job_t) (l : Int),
      psjfScan 4 [some (idleCoreJob scheme_t.PSJF 1 0 10 0 0),
          some (idleCoreJob scheme_t.PSJF 2 1 9 0 0)] 0 (-1) none
        = some (psjfRefreshAll 4 [some (idleCoreJob scheme_t.PSJF 1 0 10 0 0),
            some (idleCoreJob scheme_t.PSJF 2 1 9 0 0)], l, some w) ∧
      (psjfRefresh 4 v).processTime = l ∧ w = 0 := by
  obtain ⟨w, v, l, hscan, hw, hv, _, _, htie, _⟩ := psjf_candidate_is_first_longest
    { scheduler_start_up 2 scheme_t.PSJF with
      m_coreArr := [some (idleCoreJob scheme_t.PSJF 1 0 10 0 0),
        some (idleCoreJob scheme_t.PSJF 2 1 9 0 0)] } 4
    (by decide) (by decide)
    (by
      intro j hj
      simp only [List.mem_cons, Option.some.injEq, List.mem_singleton, List.not_mem_nil,
        or_false] at hj
      rcases hj with hj | hj <;> (rw [hj]; decide))
  refine ⟨w, v, l, hscan, hv, htie (idleCoreJob scheme_t.PSJF 1 0 10 0 0) rfl ?_⟩
  have hmem : some v ∈ [some (idleCoreJob scheme_t.PSJF 1 0 10 0 0),
      some (idleCoreJob scheme_t.PSJF 2 1 9 0 0)] := List.mem_iff_getElem?.mpr ⟨w, hw⟩
  simp only [List.mem_cons, Option.some.injEq, List.mem_singleton, List.not_mem_nil,
    or_false] at hmem
  rw [← hv]
  rcases hmem with hm | hm
  · rw [hm]
  · rw [hm]
    rfl

/-- C18: under PSJF with every core occupied (and a run time of at least -1, so
that the call returns), `scheduler_new_job` at tick `t` updates every job `j`
that was running: afterwards there is a record of the same id whose remaining
time is `j`'s minus `t - j.lastCheckedTime` and whose `lastCheckedTime` is `t`;
it is still on its core unless the call returned that core's index, in which
case it is the victim and is in the ready queue. Outside PSJF no call changes
the remaining time of a record it keeps, and the records it creates have
remaining time equal to the original run time, so in every reachable state
every held job has remaining time equal to its original run time. -/
theorem remaining_time_refreshed_under_psjf_only :
    (∀ (s : sched_t) (id t run_time priority uninit : Int),
      s.m_type = scheme_t.PSJF → (∀ x ∈ s.m_coreArr, x ≠ none) → -1 ≤ run_time →
      ∃ (r : Int) (s1 : sched_t),
        scheduler_new_job s id t run_time priority uninit = some (r, s1) ∧
        ∀ (k : Nat) (j : job_t), s.m_coreArr[k]? = some (some j) →
          ∃ j1 : job_t, j1.pid = j.pid ∧
            j1.processTime = j.processTime - (t - j.lastCheckedTime) ∧
            j1.lastCheckedTime = t ∧
            (r ≠ (k : Int) → s1.m_coreArr[k]? = some (some j1)) ∧
            (r = (k : Int) → j1 ∈ s1.q.items)) ∧
    (∀ (s s1 : sched_t) (e : Event) (r : Int), s.m_type ≠ scheme_t.PSJF →
      e.deliver s = some (r, s1) → ∀ j1 ∈ heldJobs s1,
        j1.processTime = j1.originalProcessTime ∨
        ∃ j0 ∈ heldJobs s, j1.pid = j0.pid ∧ j1.processTime = j0.processTime ∧
          j1.originalProcessTime = j0.originalProcessTime) ∧
    (∀ (cores : Nat) (scheme : scheme_t) (h : List Event) (s : sched_t),
      scheme ≠ scheme_t.PSJF → Reach anyEvent cores scheme h s →
      ∀ j ∈ heldJobs s, j.processTime = j.originalProcessTime) := by
  refine ⟨?_, ?_, ?_⟩
  · intro s id t run_time priority uninit hP hfull hrt
    obtain ⟨l, k, hscan, _, hall, hcase⟩ := psjfScan_spec t s.m_coreArr 0 (-1) none hfull
    by_cases hl : run_time < l
    · rcases hcase with ⟨h1, _⟩ | ⟨_, w, v, hk, hw, _, _⟩
      · omega
      · simp only [Nat.zero_add] at hk
        subst hk
        have hw1 := psjfRefreshAll_getElem? t s.m_coreArr w v hw
        refine ⟨_, _, new_job_psjf_preempt s id t run_time priority uninit hP hfull _ l w _
          hscan hl hw1, ?_⟩
        intro k j hk
        by_cases hkw : k = w
        · subst hkw
          have hjv : j = v := by
            rw [hw] at hk
            exact (Option.some.inj (Option.some.inj hk)).symm
          subst hjv
          have hf := reset_processTime t (psjfRefresh t j)
          refine ⟨resetIfJustScheduled t (psjfRefresh t j), ?_, ?_, ?_, ?_, ?_⟩
          · rw [resetIfJustScheduled_pid]; rfl
          · rw [hf.1]; rfl
          · rw [hf.2.2]; rfl
          · intro hne
            exact absurd rfl hne
          · intro _
            exact (priqueue_offer_perm _ _).mem_iff.mpr (List.mem_cons_self _ _)
        · refine ⟨psjfRefresh t j, rfl, rfl, rfl, ?_, ?_⟩
          · intro _
            show ((psjfRefreshAll t s.m_coreArr).set w _)[k]? = _
            rw [List.getElem?_set_ne (fun h => hkw h.symm)]
            exact psjfRefreshAll_getElem? t s.m_coreArr k j hk
          · intro heq
            exact absurd (by omega : k = w) hkw
    · refine ⟨_, _, new_job_psjf_enqueue s id t run_time priority uninit hP hfull _ l k
        hscan hl, ?_⟩
      intro k1 j hk
      refine ⟨psjfRefresh t j, rfl, rfl, rfl, ?_, ?_⟩
      · intro _
        exact psjfRefreshAll_getElem? t s.m_coreArr k1 j hk
      · intro heq
        omega
  · intro s s1 e r hP hdel j1 h1
    exact remaining_kept_outside_psjf s s1 e r hdel hP j1 h1
  · intro cores scheme h s hP hr
    exact remaining_eq_original_reach anyEvent cores scheme h s hr hP

/-- C18 at the state of the spec's preemption scenario: one PSJF core running
job 1 (run time 8, last checked at 0); job 2 arrives at tick 2 with run time 3.
The call returns, and job 1 is afterwards found with remaining time 8 - (2 - 0)
and `lastCheckedTime` 2. -/
theorem remaining_time_refreshed_under_psjf_only_witness :
    ∃ (r : Int) (s1 : sched_t),
      scheduler_new_job
        { scheduler_start_up 1 scheme_t.PSJF with
          m_coreArr := [some (idleCoreJob scheme_t.PSJF 1 0 8 0 0)] } 2 2 3 0 0 = some (r, s1) ∧
      ∃ j1 : job_t, j1.pid = 1 ∧ j1.processTime = 8 - (2 - 0) ∧ j1.lastCheckedTime = 2 ∧
        (r ≠ 0 → s1.m_coreArr[0]? = some (some j1)) ∧ (r = 0 → j1 ∈ s1.q.items) := by
  obtain ⟨r, s1, hrun, hall⟩ := remaining_time_refreshed_under_psjf_only.1
    { scheduler_start_up 1 scheme_t.PSJF with
      m_coreArr := [some (idleCoreJob scheme_t.PSJF 1 0 8 0 0)] } 2 2 3 0 0
    rfl (by decide) (by decide)
  obtain ⟨j1, h1, h2, h3, h4, h5⟩ := hall 0 (idleCoreJob scheme_t.PSJF 1 0 8 0 0) rfl
  exact ⟨r, s1, hrun, j1, h1, h2, h3, h4, h5⟩

/-! ## Reads without a check -/

/-- C20: the unchecked reads succeed. When the idle-core scan of
`scheduler_new_job` has returned -1 and there is at least one core, every slot
`0..m_cores-1` is occupied, so the PSJF scan runs through, and the PPRI scan
(with its reads of `m_coreArr[0]` and of the slot of the candidate) runs through
and ends on an occupied slot; whole calls then return under PPRI, and under PSJF
for the run times the interface allows. In `scheduler_quantum_expired` on a core
of the table, either the slot and the queue are both empty and the call returns
-1 with the state unchanged, or the queue that is polled is non-empty and the
call returns the id of its head. -/
theorem unchecked_reads_succeed :
    (∀ (s : sched_t) (t : Int), scheduler_idle_core_finder s = -1 → 1 ≤ s.m_cores →
      (∀ k, k < s.m_cores → ∃ j, s.m_coreArr[k]? = some (some j)) ∧
      (∃ R l k, psjfScan t s.m_coreArr 0 (-1) none = some (R, l, k)) ∧
      (∃ j0 lo w v, s.m_coreArr[0]? = some (some j0) ∧
        ppriScan s.m_coreArr s.m_coreArr 0 j0.priority 0 = some (lo, w) ∧
        s.m_coreArr[w]? = some (some v)) ∧
      (∀ id run_time priority uninit : Int,
        (s.m_type = scheme_t.PPRI ∨ (s.m_type = scheme_t.PSJF ∧ -1 ≤ run_time)) →
        ∃ r s1, scheduler_new_job s id t run_time priority uninit = some (r, s1))) ∧
    (∀ (s : sched_t) (c : Nat) (t : Int), c < s.m_cores →
      (s.m_coreArr[c]? = some none ∧ s.q.items = [] ∧
        scheduler_quantum_expired s c t = some (-1, s)) ∨
      (∃ (q0 q1 : priqueue_t) (hd : job_t) (s1 : sched_t),
        ((s.m_coreArr[c]? = some none ∧ q0 = s.q) ∨
         (∃ j, s.m_coreArr[c]? = some (some j) ∧ q0 = priqueue_offer s.q j)) ∧
        priqueue_poll q0 = (some hd, q1) ∧
        scheduler_quantum_expired s c t = some (hd.pid, s1) ∧
        s1.m_coreArr[c]? = some (some (dispatched false t hd)) ∧ s1.q = q1)) := by
  constructor
  · intro s t hfind hcores
    have hfull : ∀ x ∈ s.m_coreArr, x ≠ none := idleScan_eq_neg_one s.m_coreArr 0 hfind
    have hne : s.m_coreArr ≠ [] := by
      intro hnil
      unfold sched_t.m_cores at hcores
      rw [hnil] at hcores
      simp at hcores
    obtain ⟨l, k, hscan, _, _, hcase⟩ := psjfScan_spec t s.m_coreArr 0 (-1) none hfull
    obtain ⟨j0, lo, w, h0, hpscan, v, hv, _, _⟩ := ppriScan_full s.m_coreArr hfull hne
    refine ⟨?_, ⟨_, l, k, hscan⟩, ⟨j0, lo, w, v, h0, hpscan, hv⟩, ?_⟩
    · intro k hk
      cases hget : s.m_coreArr[k]? with
      | none =>
        rw [List.getElem?_eq_none_iff] at hget
        unfold sched_t.m_cores at hk
        omega
      | some o =>
        cases o with
        | none => exact absurd rfl (hfull none (List.mem_iff_getElem?.mpr ⟨k, hget⟩))
        | some j => exact ⟨j, rfl⟩
    · intro id run_time priority uninit hty
      rcases hty with hPP | ⟨hP, hrt⟩
      · by_cases hlo : priority < lo
        · exact ⟨_, _, new_job_ppri_preempt s id t run_time priority uninit hPP hfull j0 v lo w
            h0 hpscan hlo hv⟩
        · exact ⟨_, _, new_job_ppri_enqueue s id t run_time priority uninit hPP hfull j0 lo w
            h0 hpscan hlo⟩
      · by_cases hl : run_time < l
        · rcases hcase with ⟨h1, _⟩ | ⟨_, w1, v1, hk, hw1, _, _⟩
          · omega
          · simp only [Nat.zero_add] at hk
            subst hk
            exact ⟨_, _, new_job_psjf_preempt s id t run_time priority uninit hP hfull _ l w1 _
              hscan hl (psjfRefreshAll_getElem? t s.m_coreArr w1 v1 hw1)⟩
        · exact ⟨_, _, new_job_psjf_enqueue s id t run_time priority uninit hP hfull _ l k
            hscan hl⟩
  · intro s c t hc
    have hlt : c < s.m_coreArr.length := hc
    cases hget : s.m_coreArr[c]? with
    | none =>
      rw [List.getElem?_eq_none_iff] at hget
      omega
    | some o =>
      cases o with
      | none =>
        cases hq : s.q.items with
        | nil => exact Or.inl ⟨rfl, rfl, quantum_expired_nothing s c t hget hq⟩
        | cons hd rest =>
          refine Or.inr ⟨s.q, { s.q with items := rest }, hd, _, Or.inl ⟨rfl, rfl⟩, ?_,
            quantum_expired_vacant s c t hd rest hget hq, by simp [hlt], rfl⟩
          simp [priqueue_poll, hq]
      | some j =>
        cases hq : (priqueue_offer s.q j).items with
        | nil =>
          have := (priqueue_offer_perm s.q j).length_eq
          rw [hq] at this
          simp at this
        | cons hd rest =>
          refine Or.inr ⟨priqueue_offer s.q j, { priqueue_offer s.q j with items := rest }, hd,
            _, Or.inr ⟨j, rfl, rfl⟩, ?_, quantum_expired_occupied s c t j hd rest hget hq,
            by simp [hlt], rfl⟩
          simp [priqueue_poll, hq]

/-- C20 at a concrete state: one RR core running job 1 with an empty queue; the
quantum expires at tick 2, the job is offered and polled back, and the call
returns its id. -/
theorem unchecked_reads_succeed_witness :
    (([some (idleCoreJob scheme_t.RR 1 0 5 0 0)] : List (Option job_t))[0]? = some none ∧
      ([] : List job_t) = [] ∧
      scheduler_quantum_expired
        { scheduler_start_up 1 scheme_t.RR with
          m_coreArr := [some (idleCoreJob scheme_t.RR 1 0 5 0 0)] } 0 2
        = some (-1, { scheduler_start_up 1 scheme_t.RR with
            m_coreArr := [some (idleCoreJob scheme_t.RR 1 0 5 0 0)] })) ∨
    (∃ (q0 q1 : priqueue_t) (hd : job_t) (s1 : sched_t),
      ((([some (idleCoreJob scheme_t.RR 1 0 5 0 0)] : List (Option job_t))[0]? = some none ∧
          q0 = priqueue_init comparer_t.FCFScompare) ∨
       (∃ j, ([some (idleCoreJob scheme_t.RR 1 0 5 0 0)] : List (Option job_t))[0]?
            = some (some j) ∧
          q0 = priqueue_offer (priqueue_init comparer_t.FCFScompare) j)) ∧
      priqueue_poll q0 = (some hd, q1) ∧
      scheduler_quantum_expired
        { scheduler_start_up 1 scheme_t.RR with
          m_coreArr := [some (idleCoreJob scheme_t.RR 1 0 5 0 0)] } 0 2 = some (hd.pid, s1) ∧
      s1.m_coreArr[0]? = some (some (dispatched false 2 hd)) ∧ s1.q = q1) :=
  unchecked_reads_succeed.2
    { scheduler_start_up 1 scheme_t.RR with
      m_coreArr := [some (idleCoreJob scheme_t.RR 1 0 5 0 0)] } 0 2 (by decide)

/-! ## The field `lastCheckedTime` of a new job under PSJF -/

/-- C16 on the code: in the spec's PSJF preemption scenario (one core, job 1
arrives at 0 with run time 8, job 2 arrives at 2 with run time 3 and preempts),
the record of job 2 on the core has remaining time 3, but its `lastCheckedTime`
is whatever `malloc` left there (`u2`), not the tick 2; likewise a job that is
queued (run time 9 instead of 3) keeps `u2`. Only the idle-core branch writes
the field: job 1 has `lastCheckedTime` 0, the tick of its arrival. -/
theorem psjf_new_job_writes_last_checked_on_idle_core_only :
    (∀ u1 u2 : Int, (runEvents (scheduler_start_up 1 scheme_t.PSJF)
      [Event.new_job 1 0 8 0 u1, Event.new_job 2 2 3 0 u2]).map
        (fun p => (p.1, p.2.m_coreArr.map
          (Option.map (fun j => (j.pid, j.processTime, j.lastCheckedTime)))))
      = some ([0, 0], [some (2, 3, u2)])) ∧
    (∀ u1 u2 : Int, (runEvents (scheduler_start_up 1 scheme_t.PSJF)
      [Event.new_job 1 0 8 0 u1, Event.new_job 2 2 9 0 u2]).map
        (fun p => (p.1, p.2.q.items.map
          (fun j => (j.pid, j.processTime, j.lastCheckedTime))))
      = some ([0, -1], [(2, 9, u2)])) ∧
    (∀ u1 : Int, (runEvents (scheduler_start_up 1 scheme_t.PSJF)
      [Event.new_job 1 0 8 0 u1]).map
        (fun p => (p.1, p.2.m_coreArr.map
          (Option.map (fun j => (j.pid, j.processTime, j.lastCheckedTime)))))
      = some ([0], [some (1, 8, 0)])) :=
  ⟨fun _ _ => rfl, fun _ _ => rfl, fun _ => rfl⟩

/-! ## Remaining times of queued and running jobs under PSJF -/

/-- C15 on the code: one PSJF core; job 1 arrives at 0 with run time 10; job 2
arrives at 2 with run time 3 and preempts it, and `malloc` has left 100 in the
`lastCheckedTime` of job 2, which the preemption branch does not write; job 3
arrives at 3 with run time 5000. The scan at tick 3 computes job 2's remaining
time as 3 - (3 - 100) = 100 and stamps it with tick 3; job 3 is queued. After
this event the running job 2, refreshed at tick 3, has remaining time 100, and
the queued job 1 has remaining time 8, which is strictly smaller. -/
theorem psjf_stale_last_checked_breaks_queue_bound :
    ∀ u1 u3 : Int, (runEvents (scheduler_start_up 1 scheme_t.PSJF)
      [Event.new_job 1 0 10 0 u1, Event.new_job 2 2 3 0 100, Event.new_job 3 3 5000 0 u3]).map
        (fun p => (p.1,
          p.2.m_coreArr.map (Option.map (fun j => (j.pid, j.processTime, j.lastCheckedTime))),
          p.2.q.items.map (fun j => (j.pid, j.processTime))))
      = some ([0, 0, -1], [some (2, 100, 3)], [(1, 8), (3, 5000)]) :=
  fun _ _ => rfl

/-- The shapes of a successful `scheduler_new_job` under PSJF, with what the
scan established: the job went to an idle core; or no refreshed remaining time
exceeds the new run time and the job was queued; or the refreshed job `v` of
core `w` has the largest remaining time, larger than the new run time, and was
replaced. -/
theorem new_job_psjf_cases (s s1 : sched_t) (id t run_time priority uninit r : Int)
    (hP : s.m_type = scheme_t.PSJF)
    (h : scheduler_new_job s id t run_time priority uninit = some (r, s1)) :
    (∃ c : Nat, s.m_coreArr[c]? = some none ∧ r = (c : Int) ∧
      s1 = { s with
        m_coreArr := s.m_coreArr.set c (some (idleCoreJob s.m_type id t run_time priority uninit)) }) ∨
    ((∀ x ∈ s.m_coreArr, x ≠ none) ∧ r = -1 ∧
      (∀ j, some j ∈ s.m_coreArr → (psjfRefresh t j).processTime ≤ run_time) ∧
      s1 = { s with
        m_coreArr := psjfRefreshAll t s.m_coreArr
        q := priqueue_offer s.q (newJobRecord id t run_time priority uninit) }) ∨
    ((∀ x ∈ s.m_coreArr, x ≠ none) ∧
      ∃ (w : Nat) (v : job_t), s.m_coreArr[w]? = some (some v) ∧ r = (w : Int) ∧
        (∀ j, some j ∈ s.m_coreArr →
          (psjfRefresh t j).processTime ≤ (psjfRefresh t v).processTime) ∧
        run_time < (psjfRefresh t v).processTime ∧
        s1 = { s with
          m_coreArr := (psjfRefreshAll t s.m_coreArr).set w
            (some { newJobRecord id t run_time priority uninit with responseTime := 0 })
          q := priqueue_offer s.q (resetIfJustScheduled t (psjfRefresh t v)) }) := by
  by_cases hidle : none ∈ s.m_coreArr
  · obtain ⟨c, hc, hget, _⟩ := idleScan_of_idle s.m_coreArr 0 hidle
    have hfind : scheduler_idle_core_finder s = (c : Int) := by
      rw [scheduler_idle_core_finder, hc]; simp
    have hrun := new_job_on_idle s id t run_time priority uninit c hfind
    rw [hrun] at h
    obtain ⟨rfl, rfl⟩ := Prod.mk.inj (Option.some.inj h)
    exact Or.inl ⟨c, hget, rfl, rfl⟩
  · have hfull : ∀ x ∈ s.m_coreArr, x ≠ none := fun x hx hn => hidle (hn ▸ hx)
    have hfind : scheduler_idle_core_finder s = -1 := idleScan_of_full _ 0 hfull
    right
    obtain ⟨l, k, hscan, _, hall, hcase⟩ := psjfScan_spec t s.m_coreArr 0 (-1) none hfull
    by_cases hl : run_time < l
    · rcases hcase with ⟨_, hk⟩ | ⟨_, w, v, hk, hw, hv, _⟩
      · subst hk
        simp [scheduler_new_job, hfind, hP, hscan, hl] at h
      · simp only [Nat.zero_add] at hk
        subst hk
        have hw1 := psjfRefreshAll_getElem? t s.m_coreArr w v hw
        have hrun := new_job_psjf_preempt s id t run_time priority uninit hP hfull _ l w _
          hscan hl hw1
        rw [hrun] at h
        obtain ⟨rfl, rfl⟩ := Prod.mk.inj (Option.some.inj h)
        refine Or.inr ⟨hfull, w, v, hw, rfl, ?_, by omega, rfl⟩
        intro j hj
        rw [hv]
        exact hall j hj
    · have hrun := new_job_psjf_enqueue s id t run_time priority uninit hP hfull _ l k
        hscan hl
      rw [hrun] at h
      obtain ⟨rfl, rfl⟩ := Prod.mk.inj (Option.some.inj h)
      refine Or.inl ⟨hfull, rfl, ?_, rfl⟩
      intro j hj
      have := hall j hj
      omega

theorem mem_psjfRefreshAll (t : Int) (arr : List (Option job_t)) (j1 : job_t)
    (hj : some j1 ∈ psjfRefreshAll t arr) : ∃ j0, some j0 ∈ arr ∧ j1 = psjfRefresh t j0 := by
  simp only [psjfRefreshAll, List.mem_map] at hj
  obtain ⟨o, ho, hoj⟩ := hj
  cases o with
  | none => simp at hoj
  | some j0 =>
    simp only [Option.map_some', Option.some.injEq] at hoj
    exact ⟨j0, ho, hoj.symm⟩

theorem dispatched_psjf_lastCheckedTime (t : Int) (h : job_t) :
    (dispatched true t h).lastCheckedTime = t := by
  unfold dispatched setResponseIfUnset
  simp only [if_true]
  split <;> rfl

/-- Under PSJF, with the queue sorted and no core idle while a job waits, a
`scheduler_new_job` or `scheduler_job_finished` call at a tick not before the
last check of any running job, whose new record is not stamped later than the
tick, keeps every queued job behind every running job in remaining time, and
leaves no running job checked after the tick. -/
theorem deliver_remainingBehindCores (s s1 : sched_t) (e : Event) (r : Int)
    (hP : s.m_type = scheme_t.PSJF) (hcmp : s.q.comparer = comparer_t.SJFcompare)
    (hnq : ∀ (c : Nat) (t : Int), e ≠ Event.quantum_expired c t)
    (hu : ∀ id t rt pri u : Int, e = Event.new_job id t rt pri u → u ≤ t)
    (hdel : e.deliver s = some (r, s1))
    (hidle : idleImpliesEmpty s) (hsorted : queueSorted (applyComparer s.q.comparer) s.q.items)
    (hchk : checkedBy s e.time) (hinv : remainingBehindCores s) :
    remainingBehindCores s1 ∧ checkedBy s1 e.time := by
  unfold remainingBehindCores checkedBy at *
  cases e with
  | new_job id t rt pri u =>
    have hut : u ≤ t := hu id t rt pri u rfl
    have hchk1 : ∀ j, some j ∈ s.m_coreArr → j.lastCheckedTime ≤ t := hchk
    have hdown : ∀ j, some j ∈ s.m_coreArr → (psjfRefresh t j).processTime ≤ j.processTime := by
      intro j hj
      have := hchk1 j hj
      show j.processTime - (t - j.lastCheckedTime) ≤ j.processTime
      omega
    rcases new_job_psjf_cases s s1 id t rt pri u r hP hdel with
      ⟨c, hc, _, rfl⟩ | ⟨_, _, hmax, rfl⟩ | ⟨_, w, v, hw, _, hmax, hlt, rfl⟩
    · constructor
      · intro q hq
        have hempty : s.q.items = [] := hidle (List.mem_iff_getElem?.mpr ⟨c, hc⟩)
        rw [hempty] at hq
        cases hq
      · intro j hj
        rcases List.mem_or_eq_of_mem_set hj with hm | he
        · exact hchk1 j hm
        · rw [Option.some.inj he]
          simp [idleCoreJob, hP, Event.time]
    · constructor
      · intro q hq j hj
        obtain ⟨j0, h0, rfl⟩ := mem_psjfRefreshAll t _ j hj
        rcases List.mem_cons.mp ((priqueue_offer_perm _ _).mem_iff.mp hq) with he | hm
        · rw [he]
          exact hmax j0 h0
        · exact le_trans (hdown j0 h0) (hinv q hm j0 h0)
      · intro j hj
        obtain ⟨j0, _, rfl⟩ := mem_psjfRefreshAll t _ j hj
        exact le_refl _
    · have hv : some v ∈ s.m_coreArr := List.mem_iff_getElem?.mpr ⟨w, hw⟩
      have hqv : ∀ q ∈ (priqueue_offer s.q (resetIfJustScheduled t (psjfRefresh t v))).items,
          (psjfRefresh t v).processTime ≤ q.processTime := by
        intro q hq
        rcases List.mem_cons.mp ((priqueue_offer_perm _ _).mem_iff.mp hq) with he | hm
        · rw [he, (reset_processTime t _).1]
        · exact le_trans (hdown v hv) (hinv q hm v hv)
      constructor
      · intro q hq j hj
        rcases List.mem_or_eq_of_mem_set hj with hm | he
        · obtain ⟨j0, h0, rfl⟩ := mem_psjfRefreshAll t _ j hm
          exact le_trans (hmax j0 h0) (hqv q hq)
        · rw [Option.some.inj he]
          have := hqv q hq
          show rt ≤ q.processTime
          omega
      · intro j hj
        rcases List.mem_or_eq_of_mem_set hj with hm | he
        · obtain ⟨j0, _, rfl⟩ := mem_psjfRefreshAll t _ j hm
          exact le_refl _
        · rw [Option.some.inj he]
          exact hut
  | job_finished c id t =>
    obtain ⟨j0, _, hcase⟩ := job_finished_cases s s1 c id t r hdel
    rcases hcase with ⟨hq0, _, rfl⟩ | ⟨hd, rest, hq0, _, rfl⟩
    · constructor
      · intro q hq
        have : q ∈ s.q.items := hq
        rw [hq0] at this
        cases this
      · intro j hj
        rcases List.mem_or_eq_of_mem_set hj with hm | he
        · exact hchk j hm
        · cases he
    · constructor
      · intro q hq j hj
        have hqold : q ∈ s.q.items := by rw [hq0]; exact List.mem_cons_of_mem _ hq
        simp only [List.set_set] at hj
        rcases List.mem_or_eq_of_mem_set hj with hm | he
        · exact hinv q hqold j hm
        · rw [Option.some.inj he, (dispatched_processTime _ _ _).1]
          rw [hcmp, hq0] at hsorted
          have hle := (List.pairwise_cons.mp hsorted).1 q hq
          simp only [applyComparer, SJFcompare] at hle
          omega
      · intro j hj
        simp only [List.set_set] at hj
        rcases List.mem_or_eq_of_mem_set hj with hm | he
        · exact hchk j hm
        · rw [Option.some.inj he]
          simp only [hP, decide_True]
          rw [dispatched_psjf_lastCheckedTime]
          exact le_refl _
  | quantum_expired c t => exact absurd rfl (hnq c t)

/-- What C15 asks for does hold on the runs in which every new record is
stamped no later than its arrival: under PSJF, in every state reached by
`scheduler_new_job` and `scheduler_job_finished` calls with non-decreasing ticks
and such records, no queued job has a remaining time strictly smaller than that
of any running job. -/
theorem psjf_queue_bound_with_initialised_records (cores : Nat) (h : List Event)
    (s : sched_t) (hr : Reach initialisedInOrder cores scheme_t.PSJF h s) :
    (∀ q ∈ s.q.items, ∀ j, some j ∈ s.m_coreArr → ¬ q.processTime < j.processTime) ∧
    ∀ now : Int, (∀ e ∈ h, e.time ≤ now) → checkedBy s now := by
  have hinv : remainingBehindCores s ∧
      ∀ now : Int, (∀ e ∈ h, e.time ≤ now) → checkedBy s now := by
    induction hr with
    | start =>
      constructor
      · intro q hq
        rw [start_up_queue_empty] at hq
        cases hq
      · intro now _ j hj
        have : (some j : Option job_t) = none := List.eq_of_mem_replicate hj
        cases this
    | @step h s s1 e r hprev hok hdel ih =>
      obtain ⟨hty, hcmp⟩ := reach_frame _ cores scheme_t.PSJF h s hprev
      have hstep := deliver_remainingBehindCores s s1 e r hty hcmp hok.2.1 hok.2.2 hdel
        (reach_idleImpliesEmpty _ cores scheme_t.PSJF h s hprev)
        (reach_sorted _ cores scheme_t.PSJF h s hprev (fun hc => by cases hc))
        (ih.2 e.time hok.1) ih.1
      refine ⟨hstep.1, ?_⟩
      intro now hnow j hj
      exact le_trans (hstep.2 j hj) (hnow e (List.mem_cons_self _ _))
  refine ⟨?_, hinv.2⟩
  intro q hq j hj
  have := hinv.1 q hq j hj
  omega
